import Mathlib

/-!
# BlackBox::StaticQueue — a fixed-capacity circular FIFO

Shallow embedding of `src/StaticQueue.hpp`; its copy `src/static_queue.hpp` and
the pool of `src/ThreadPool.hpp` follow further down, each under its own
heading.

* `size_t` values are natural numbers.  `Push` and `Pop` only do arithmetic
  behind their own guards (`count_ < SIZE`, `count_ != 0`) and on indices that
  address a slot of the array, so nothing there can wrap; the iterator computes
  with arbitrary logical indices and is therefore modelled modulo `2 ^ 64`.
* `T internalArray_[SIZE]` is a function `Fin SIZE → T`: exactly `SIZE` slots.
  A constructor does not initialise the slots, so a fresh queue has arbitrary
  slot contents.
* Indexing the array outside `[0, SIZE)` is undefined behaviour in C++; the
  operations return `none` there.
* `std::move_if_noexcept` may leave the slot it reads in a moved-from state.
  What a moved-from `T` holds depends on `T`; it is a parameter (`MovedFrom`),
  the identity for element types that are copied.
-/

namespace BlackBox

/-- Number of values of `size_t` (64-bit target). -/
def sizeMod : Nat := 2 ^ 64

/-- What an element of type `T` holds after it has been moved from: once for the
move (or copy) assignment of `Pop(T&)`, once for the move (or copy) construction
of `Pop()`.  Both are the identity when `T` is copied. -/
structure MovedFrom (T : Type) where
  assigned : T → T
  constructed : T → T

/-- The element type is copied: reading a slot leaves it as it was. -/
def MovedFrom.copy (T : Type) : MovedFrom T :=
  { assigned := fun x => x, constructed := fun x => x }

/-- The fields of `StaticQueue<T, SIZE>` (lines 15-18). -/
structure StaticQueue (T : Type) (SIZE : Nat) where
  internalArray_ : Fin SIZE → T
  first_ : Nat
  last_ : Nat
  count_ : Nat

/-- The nested class `StaticQueue::Iterator` (lines 26-28).  The reference
`aquireObject_` is the address of the queue it refers to; the functions that
read through the reference take the current state of that queue as an
argument. -/
structure StaticQueue.Iterator where
  desiredId_ : Nat
  realIdElement_ : Nat
  aquireObject_ : Nat
deriving DecidableEq, Repr

section Operations

variable {T : Type} {SIZE : Nat}

/-- The constructor `StaticQueue()` (line 112): indices and count are zero, the
slots are whatever `arr` they happen to hold. -/
def StaticQueue.construct (arr : Fin SIZE → T) : StaticQueue T SIZE :=
  { internalArray_ := arr, first_ := 0, last_ := 0, count_ := 0 }

/-- The copy-in overload `bool Push(T const& lobject)` (lines 132-146). -/
def StaticQueue.Push (q : StaticQueue T SIZE) (lobject : T) :
    Option (Bool × StaticQueue T SIZE) :=
  if q.count_ < SIZE then
    if h : q.last_ < SIZE then
      some (true,
        { internalArray_ := Function.update q.internalArray_ ⟨q.last_, h⟩ lobject
          first_ := q.first_
          last_ := (q.last_ + 1) % SIZE
          count_ := q.count_ + 1 })
    else none
  else some (false, q)

/-- The move-in overload `bool Push(T&& robject)` (lines 151-165).  The slot
receives the value of `robject`; what is left in the caller's `robject` is not
part of the queue. -/
def StaticQueue.PushMove (q : StaticQueue T SIZE) (robject : T) :
    Option (Bool × StaticQueue T SIZE) :=
  if q.count_ < SIZE then
    if h : q.last_ < SIZE then
      some (true,
        { internalArray_ := Function.update q.internalArray_ ⟨q.last_, h⟩ robject
          first_ := q.first_
          last_ := (q.last_ + 1) % SIZE
          count_ := q.count_ + 1 })
    else none
  else some (false, q)

/-- The overload `bool Pop(T& value)` (lines 167-181).  The result is the
returned flag, the caller's `value` after the call, and the queue. -/
def StaticQueue.Pop (m : MovedFrom T) (q : StaticQueue T SIZE) (value : T) :
    Option (Bool × T × StaticQueue T SIZE) :=
  if q.count_ ≠ 0 then
    if h : q.first_ < SIZE then
      some (true, q.internalArray_ ⟨q.first_, h⟩,
        { internalArray_ := Function.update q.internalArray_ ⟨q.first_, h⟩
            (m.assigned (q.internalArray_ ⟨q.first_, h⟩))
          first_ := (q.first_ + 1) % SIZE
          last_ := q.last_
          count_ := q.count_ - 1 })
    else none
  else some (false, value, q)

/-- The overload `std::shared_ptr<T> Pop()` (lines 183-197).  The pointer is
`none` for `nullptr` and `some v` for a pointer to a fresh `T` holding `v`. -/
def StaticQueue.PopPtr (m : MovedFrom T) (q : StaticQueue T SIZE) :
    Option (Option T × StaticQueue T SIZE) :=
  if q.count_ ≠ 0 then
    if h : q.first_ < SIZE then
      some (some (q.internalArray_ ⟨q.first_, h⟩),
        { internalArray_ := Function.update q.internalArray_ ⟨q.first_, h⟩
            (m.constructed (q.internalArray_ ⟨q.first_, h⟩))
          first_ := (q.first_ + 1) % SIZE
          last_ := q.last_
          count_ := q.count_ - 1 })
    else none
  else some (none, q)

/-- The query `bool Empty() const` (lines 199-202): `!count_`. -/
def StaticQueue.Empty (q : StaticQueue T SIZE) : Bool :=
  q.count_ == 0

/-- The query `bool Filled() const` (lines 204-207). -/
def StaticQueue.Filled (q : StaticQueue T SIZE) : Bool :=
  q.count_ == SIZE

/-- The query `size_t Size() const` (lines 209-212). -/
def StaticQueue.Size (q : StaticQueue T SIZE) : Nat :=
  q.count_

/-- The private `Iterator::SetValue` (lines 30-38), on the queue `q` the
iterator refers to.  `SIZE` is at least one in every instantiation (an array
type has a positive bound), so `%= SIZE` never divides by zero. -/
def StaticQueue.Iterator.SetValue (q : StaticQueue T SIZE) (it : StaticQueue.Iterator)
    (desired : Nat) : StaticQueue.Iterator :=
  let real := (q.first_ + desired) % sizeMod
  { desiredId_ := desired
    realIdElement_ := if real ≥ SIZE then real % SIZE else real
    aquireObject_ := it.aquireObject_ }

/-- The constructor `Iterator(StaticQueue& q, size_t id)` (lines 42-48); `self`
is the address of `q`. -/
def StaticQueue.Iterator.construct (self : Nat) (q : StaticQueue T SIZE) (id : Nat) :
    StaticQueue.Iterator :=
  StaticQueue.Iterator.SetValue q
    { desiredId_ := id, realIdElement_ := 0, aquireObject_ := self } id

/-- The dereference `operator*` (lines 52-70): the slot `realIdElement_` of the
queue referred to. -/
def StaticQueue.Iterator.deref (q : StaticQueue T SIZE) (it : StaticQueue.Iterator) :
    Option T :=
  if h : it.realIdElement_ < SIZE then some (q.internalArray_ ⟨it.realIdElement_, h⟩)
  else none

/-- The comparison `operator==` (lines 74-78). -/
def StaticQueue.Iterator.opEq (lhs rhs : StaticQueue.Iterator) : Bool :=
  lhs.desiredId_ == rhs.desiredId_ && lhs.aquireObject_ == rhs.aquireObject_

/-- The comparison `operator!=` (lines 80-83). -/
def StaticQueue.Iterator.opNe (lhs rhs : StaticQueue.Iterator) : Bool :=
  !(StaticQueue.Iterator.opEq lhs rhs)

/-- The pre-increment `operator++()` (lines 85-89). -/
def StaticQueue.Iterator.opInc (q : StaticQueue T SIZE) (it : StaticQueue.Iterator) :
    StaticQueue.Iterator :=
  StaticQueue.Iterator.SetValue q it ((it.desiredId_ + 1) % sizeMod)

/-- The pre-decrement `operator--()` (lines 98-102). -/
def StaticQueue.Iterator.opDec (q : StaticQueue T SIZE) (it : StaticQueue.Iterator) :
    StaticQueue.Iterator :=
  StaticQueue.Iterator.SetValue q it ((it.desiredId_ + sizeMod - 1) % sizeMod)

/-- The member `begin()` (line 122) of the queue `q` at address `self`. -/
def StaticQueue.begin (self : Nat) (q : StaticQueue T SIZE) : StaticQueue.Iterator :=
  StaticQueue.Iterator.construct self q 0

/-- The member `end()` (line 125) of the queue `q` at address `self`. -/
def StaticQueue.end_ (self : Nat) (q : StaticQueue T SIZE) : StaticQueue.Iterator :=
  StaticQueue.Iterator.construct self q q.count_

/-- A call of one of the four mutating members. -/
inductive Call (T : Type) where
  | Push (lobject : T)
  | PushMove (robject : T)
  | Pop (value : T)
  | PopPtr

/-- What a call gives back to its caller. -/
inductive Ret (T : Type) where
  | pushed (ok : Bool)
  | popped (ok : Bool) (value : T)
  | ptr (p : Option T)

/-- One call on the queue `q`. -/
def StaticQueue.call (m : MovedFrom T) (q : StaticQueue T SIZE) :
    Call T → Option (Ret T × StaticQueue T SIZE)
  | Call.Push v => (q.Push v).map (fun r => (Ret.pushed r.1, r.2))
  | Call.PushMove v => (q.PushMove v).map (fun r => (Ret.pushed r.1, r.2))
  | Call.Pop value => (q.Pop m value).map (fun r => (Ret.popped r.1 r.2.1, r.2.2))
  | Call.PopPtr => (q.PopPtr m).map (fun r => (Ret.ptr r.1, r.2))

/-- A finite sequence of calls, one after the other, with the list of what
they returned. -/
def StaticQueue.calls (m : MovedFrom T) (q : StaticQueue T SIZE) :
    List (Call T) → Option (List (Ret T) × StaticQueue T SIZE)
  | [] => some ([], q)
  | c :: cs =>
    match q.call m c with
    | none => none
    | some (r, q1) =>
      match StaticQueue.calls m q1 cs with
      | none => none
      | some (rs, q2) => some (r :: rs, q2)

/-- The states a queue can be in: those the constructor and a finite sequence
of `Push` and `Pop` calls lead to. -/
def StaticQueue.Reachable (m : MovedFrom T) (q : StaticQueue T SIZE) : Prop :=
  ∃ (arr : Fin SIZE → T) (cs : List (Call T)) (rs : List (Ret T)),
    StaticQueue.calls m (StaticQueue.construct arr) cs = some (rs, q)

/-- The loop `for (it = q.begin(); it != q.end(); ++it) visit(it)` on the queue
`q` at address `self`: the physical slot and the value of every visited
position.  `fuel` bounds the number of comparisons with `end()`; `none` means
the fuel ran out or a dereference left the array. -/
def StaticQueue.traverseFrom (self : Nat) (q : StaticQueue T SIZE) :
    Nat → StaticQueue.Iterator → Option (List (Nat × T))
  | 0, _ => none
  | fuel + 1, it =>
    if StaticQueue.Iterator.opNe it (q.end_ self) then
      match StaticQueue.Iterator.deref q it with
      | none => none
      | some v =>
        match StaticQueue.traverseFrom self q fuel (StaticQueue.Iterator.opInc q it) with
        | none => none
        | some rest => some ((it.realIdElement_, v) :: rest)
    else some []

/-- The traversal loop started at `begin()`. -/
def StaticQueue.traverse (self : Nat) (q : StaticQueue T SIZE) (fuel : Nat) :
    Option (List (Nat × T)) :=
  StaticQueue.traverseFrom self q fuel (q.begin self)

/-- Representation invariant of the circular window: the count is within the
capacity, the head addresses a slot, and the tail is `count_` slots after the
head. -/
def StaticQueue.Inv (q : StaticQueue T SIZE) : Prop :=
  q.count_ ≤ SIZE ∧ q.first_ < SIZE ∧ q.last_ = (q.first_ + q.count_) % SIZE

/-- The elements of the queue from the oldest to the newest: logical index `i`
is read from physical slot `(first_ + i) % SIZE`. -/
def StaticQueue.contents (hS : 0 < SIZE) (q : StaticQueue T SIZE) : List T :=
  (List.range q.count_).map
    (fun i => q.internalArray_ ⟨(q.first_ + i) % SIZE, Nat.mod_lt _ hS⟩)

/-- The state `Push` and `PushMove` leave behind when they store `v`. -/
def StaticQueue.pushed (q : StaticQueue T SIZE) (h : q.last_ < SIZE) (v : T) :
    StaticQueue T SIZE :=
  { internalArray_ := Function.update q.internalArray_ ⟨q.last_, h⟩ v
    first_ := q.first_
    last_ := (q.last_ + 1) % SIZE
    count_ := q.count_ + 1 }

/-- The state `Pop` leaves behind when it takes the element at `first_`; `f`
gives what the slot holds once it has been read. -/
def StaticQueue.popped (q : StaticQueue T SIZE) (h : q.first_ < SIZE) (f : T → T) :
    StaticQueue T SIZE :=
  { internalArray_ := Function.update q.internalArray_ ⟨q.first_, h⟩
      (f (q.internalArray_ ⟨q.first_, h⟩))
    first_ := (q.first_ + 1) % SIZE
    last_ := q.last_
    count_ := q.count_ - 1 }

end Operations

end BlackBox

/-! # black_box::static_queue — the same container under other names

Shallow embedding of `src/static_queue.hpp`, with the conventions of
`BlackBox::StaticQueue` above. -/

namespace black_box

open BlackBox

/-- The fields of `static_queue<T, SIZE>` (lines 15-18). -/
structure static_queue (T : Type) (SIZE : Nat) where
  internalArray_ : Fin SIZE → T
  first_ : Nat
  last_ : Nat
  count_ : Nat

/-- The nested class `static_queue::iterator` (lines 31-33); `aquireObject_`
is the address of the queue referred to. -/
structure static_queue.iterator where
  desiredId_ : Nat
  realIdElement_ : Nat
  aquireObject_ : Nat
deriving DecidableEq, Repr

section DuplicateOperations

variable {T : Type} {SIZE : Nat}

/-- The constructor `static_queue()` (line 116). -/
def static_queue.construct (arr : Fin SIZE → T) : static_queue T SIZE :=
  { internalArray_ := arr, first_ := 0, last_ := 0, count_ := 0 }

/-- The copy-in overload `bool push(const_reference lobject)` (lines 136-150). -/
def static_queue.push (q : static_queue T SIZE) (lobject : T) :
    Option (Bool × static_queue T SIZE) :=
  if q.count_ < SIZE then
    if h : q.last_ < SIZE then
      some (true,
        { internalArray_ := Function.update q.internalArray_ ⟨q.last_, h⟩ lobject
          first_ := q.first_
          last_ := (q.last_ + 1) % SIZE
          count_ := q.count_ + 1 })
    else none
  else some (false, q)

/-- The move-in overload `bool push(value_type&& robject)` (lines 155-169). -/
def static_queue.pushMove (q : static_queue T SIZE) (robject : T) :
    Option (Bool × static_queue T SIZE) :=
  if q.count_ < SIZE then
    if h : q.last_ < SIZE then
      some (true,
        { internalArray_ := Function.update q.internalArray_ ⟨q.last_, h⟩ robject
          first_ := q.first_
          last_ := (q.last_ + 1) % SIZE
          count_ := q.count_ + 1 })
    else none
  else some (false, q)

/-- The overload `bool pop(reference value)` (lines 171-185). -/
def static_queue.pop (m : MovedFrom T) (q : static_queue T SIZE) (value : T) :
    Option (Bool × T × static_queue T SIZE) :=
  if q.count_ ≠ 0 then
    if h : q.first_ < SIZE then
      some (true, q.internalArray_ ⟨q.first_, h⟩,
        { internalArray_ := Function.update q.internalArray_ ⟨q.first_, h⟩
            (m.assigned (q.internalArray_ ⟨q.first_, h⟩))
          first_ := (q.first_ + 1) % SIZE
          last_ := q.last_
          count_ := q.count_ - 1 })
    else none
  else some (false, value, q)

/-- The overload `std::shared_ptr<value_type> pop()` (lines 187-201). -/
def static_queue.popPtr (m : MovedFrom T) (q : static_queue T SIZE) :
    Option (Option T × static_queue T SIZE) :=
  if q.count_ ≠ 0 then
    if h : q.first_ < SIZE then
      some (some (q.internalArray_ ⟨q.first_, h⟩),
        { internalArray_ := Function.update q.internalArray_ ⟨q.first_, h⟩
            (m.constructed (q.internalArray_ ⟨q.first_, h⟩))
          first_ := (q.first_ + 1) % SIZE
          last_ := q.last_
          count_ := q.count_ - 1 })
    else none
  else some (none, q)

/-- The query `bool empty() const` (lines 203-206). -/
def static_queue.empty (q : static_queue T SIZE) : Bool :=
  q.count_ == 0

/-- The query `bool full() const` (lines 208-211). -/
def static_queue.full (q : static_queue T SIZE) : Bool :=
  q.count_ == SIZE

/-- The query `size_t size() const` (lines 213-216). -/
def static_queue.size (q : static_queue T SIZE) : Nat :=
  q.count_

/-- The private `iterator::SetValue` (lines 35-43). -/
def static_queue.iterator.SetValue (q : static_queue T SIZE) (it : static_queue.iterator)
    (desired : Nat) : static_queue.iterator :=
  let real := (q.first_ + desired) % sizeMod
  { desiredId_ := desired
    realIdElement_ := if real ≥ SIZE then real % SIZE else real
    aquireObject_ := it.aquireObject_ }

/-- The constructor `iterator(static_queue& q, size_t id)` (lines 46-52). -/
def static_queue.iterator.construct (self : Nat) (q : static_queue T SIZE) (id : Nat) :
    static_queue.iterator :=
  static_queue.iterator.SetValue q
    { desiredId_ := id, realIdElement_ := 0, aquireObject_ := self } id

/-- The dereference `operator*` (lines 56-74). -/
def static_queue.iterator.deref (q : static_queue T SIZE) (it : static_queue.iterator) :
    Option T :=
  if h : it.realIdElement_ < SIZE then some (q.internalArray_ ⟨it.realIdElement_, h⟩)
  else none

/-- The comparison `operator==` (lines 78-82). -/
def static_queue.iterator.opEq (lhs rhs : static_queue.iterator) : Bool :=
  lhs.desiredId_ == rhs.desiredId_ && lhs.aquireObject_ == rhs.aquireObject_

/-- The comparison `operator!=` (lines 84-87). -/
def static_queue.iterator.opNe (lhs rhs : static_queue.iterator) : Bool :=
  !(static_queue.iterator.opEq lhs rhs)

/-- The pre-increment `operator++()` (lines 89-93). -/
def static_queue.iterator.opInc (q : static_queue T SIZE) (it : static_queue.iterator) :
    static_queue.iterator :=
  static_queue.iterator.SetValue q it ((it.desiredId_ + 1) % sizeMod)

/-- The pre-decrement `operator--()` (lines 102-106). -/
def static_queue.iterator.opDec (q : static_queue T SIZE) (it : static_queue.iterator) :
    static_queue.iterator :=
  static_queue.iterator.SetValue q it ((it.desiredId_ + sizeMod - 1) % sizeMod)

/-- The member `begin()` (line 126). -/
def static_queue.begin (self : Nat) (q : static_queue T SIZE) : static_queue.iterator :=
  static_queue.iterator.construct self q 0

/-- The member `end()` (line 129). -/
def static_queue.end_ (self : Nat) (q : static_queue T SIZE) : static_queue.iterator :=
  static_queue.iterator.construct self q q.count_

/-- One call on the queue `q`, under the renaming `Push`/`push`, `Pop`/`pop`. -/
def static_queue.call (m : MovedFrom T) (q : static_queue T SIZE) :
    Call T → Option (Ret T × static_queue T SIZE)
  | Call.Push v => (q.push v).map (fun r => (Ret.pushed r.1, r.2))
  | Call.PushMove v => (q.pushMove v).map (fun r => (Ret.pushed r.1, r.2))
  | Call.Pop value => (q.pop m value).map (fun r => (Ret.popped r.1 r.2.1, r.2.2))
  | Call.PopPtr => (q.popPtr m).map (fun r => (Ret.ptr r.1, r.2))

/-- A finite sequence of calls with, for every call, what it returned and the
state it left. -/
def static_queue.callsTrace (m : MovedFrom T) (q : static_queue T SIZE) :
    List (Call T) → Option (List (Ret T × static_queue T SIZE))
  | [] => some []
  | c :: cs =>
    match q.call m c with
    | none => none
    | some (r, q1) =>
      match static_queue.callsTrace m q1 cs with
      | none => none
      | some rest => some ((r, q1) :: rest)

/-- The state of `StaticQueue` with the same field values. -/
def static_queue.toStaticQueue (q : static_queue T SIZE) : StaticQueue T SIZE :=
  { internalArray_ := q.internalArray_, first_ := q.first_, last_ := q.last_,
    count_ := q.count_ }

/-- The `StaticQueue::Iterator` with the same field values. -/
def static_queue.iterator.toIterator (it : static_queue.iterator) : StaticQueue.Iterator :=
  { desiredId_ := it.desiredId_, realIdElement_ := it.realIdElement_,
    aquireObject_ := it.aquireObject_ }

end DuplicateOperations

end black_box

namespace BlackBox

section MoreOperations

variable {T : Type} {SIZE : Nat}

/-- A finite sequence of calls on a `StaticQueue` with, for every call, what it
returned and the state it left. -/
def StaticQueue.callsTrace (m : MovedFrom T) (q : StaticQueue T SIZE) :
    List (Call T) → Option (List (Ret T × StaticQueue T SIZE))
  | [] => some []
  | c :: cs =>
    match q.call m c with
    | none => none
    | some (r, q1) =>
      match StaticQueue.callsTrace m q1 cs with
      | none => none
      | some rest => some ((r, q1) :: rest)

/-- The post-increment `operator++(int)` (lines 91-96), as far as the position
itself goes: it is advanced as by the pre-increment.  (The reference returned
is to a local copy that no longer exists.) -/
def StaticQueue.Iterator.opIncPost (q : StaticQueue T SIZE) (it : StaticQueue.Iterator) :
    StaticQueue.Iterator :=
  StaticQueue.Iterator.SetValue q it ((it.desiredId_ + 1) % sizeMod)

/-- The post-decrement `operator--(int)` (lines 104-109), as far as the position
itself goes: it is moved back as by the pre-decrement.  (The reference returned
is to a local copy that no longer exists.) -/
def StaticQueue.Iterator.opDecPost (q : StaticQueue T SIZE) (it : StaticQueue.Iterator) :
    StaticQueue.Iterator :=
  StaticQueue.Iterator.SetValue q it ((it.desiredId_ + sizeMod - 1) % sizeMod)

/-- A capacity-bounded list queue, in the words of the specification: `push`
appends and returns `true` when the list is shorter than the capacity `N`,
otherwise it returns `false` and leaves the list. -/
def ListQueue.push (N : Nat) (l : List T) (v : T) : Bool × List T :=
  if l.length < N then (true, l ++ [v]) else (false, l)

/-- A capacity-bounded list queue, in the words of the specification: `pop`
returns the head and leaves the tail when the list is not empty, otherwise it
reports empty and leaves the list. -/
def ListQueue.pop (l : List T) : Option T × List T :=
  match l with
  | [] => (none, [])
  | x :: xs => (some x, xs)

/-- One call on the list queue of capacity `N`: both `Push` overloads are
`push`, both `Pop` overloads are `pop` (an empty `Pop(value)` leaves `value`). -/
def ListQueue.call (N : Nat) (l : List T) : Call T → Ret T × List T
  | Call.Push v => (Ret.pushed (ListQueue.push N l v).1, (ListQueue.push N l v).2)
  | Call.PushMove v => (Ret.pushed (ListQueue.push N l v).1, (ListQueue.push N l v).2)
  | Call.Pop value =>
    (Ret.popped (ListQueue.pop l).1.isSome ((ListQueue.pop l).1.getD value), (ListQueue.pop l).2)
  | Call.PopPtr => (Ret.ptr (ListQueue.pop l).1, (ListQueue.pop l).2)

/-- A finite sequence of calls on the list queue of capacity `N`. -/
def ListQueue.calls (N : Nat) (l : List T) : List (Call T) → List (Ret T) × List T
  | [] => ([], l)
  | c :: cs =>
    ((ListQueue.call N l c).1 :: (ListQueue.calls N (ListQueue.call N l c).2 cs).1,
      (ListQueue.calls N (ListQueue.call N l c).2 cs).2)

/-- The value a call put into the queue: that of a `Push` that returned `true`. -/
def Call.accepted : Call T → Ret T → List T
  | Call.Push v, Ret.pushed true => [v]
  | Call.PushMove v, Ret.pushed true => [v]
  | _, _ => []

/-- The value a call took out of the queue: that of a `Pop` that returned
`true` or a non-null pointer. -/
def Ret.delivered : Ret T → List T
  | Ret.popped true v => [v]
  | Ret.ptr (some v) => [v]
  | _ => []

/-- The values put into the queue by a sequence of calls, in the order of the
calls. -/
def acceptedValues : List (Call T) → List (Ret T) → List T
  | c :: cs, r :: rs => c.accepted r ++ acceptedValues cs rs
  | _, _ => []

/-- The values taken out of the queue by a sequence of calls, in the order of
the calls. -/
def deliveredValues : List (Ret T) → List T
  | [] => []
  | r :: rs => r.delivered ++ deliveredValues rs

end MoreOperations

/-! ## BlackBox::ThreadPool

Shallow embedding of `src/ThreadPool.hpp` as a transition system.

* A state holds the data members of the pool, the point every thread of the
  pool has reached in its function, and the shared states of the futures that
  `AddTask` handed out.
* A thread advances by one critical section or one statement between two
  critical sections; such a step is atomic.  `condition_variable::wait(lock,
  pred)` returns only in a state where `pred` holds, so a waiting thread can
  step exactly when its predicate is true; notifications only decide when a
  predicate is looked at again and are not part of the state.
* The threads of one pool are numbered by their position in `threads_`; that
  number stands for `std::thread::id`.
* The destructor is modelled through its body (the two flag writes) and the
  destruction of the members that follows it, in the reverse order of their
  declaration: `conveyer_` and `readyFlags_` first, then `asyncAdderWaiter_`,
  whose destructor waits for the `AsyncAdder` thread to end, then `queue_`.  A
  destroyed container is represented by an empty one.  The program gives no
  meaning to what a thread of the pool does on members that have been
  destroyed; the steps the model lets such a thread take there say nothing
  about the program.
-/

/-- A `std::packaged_task<ReturnT()>`: `empty` has no shared state (default
constructed or moved from), `bound handle callable` owns the shared state
`handle` and a callable that, when run, returns a value or raises an error. -/
inductive PackagedTask (R E : Type) where
  | empty
  | bound (handle : Nat) (callable : Except E R)

/-- The move constructor and the move assignment of `std::packaged_task` leave
their source without a shared state. -/
def PackagedTask.movedFrom (R E : Type) : MovedFrom (PackagedTask R E) :=
  { assigned := fun _ => PackagedTask.empty, constructed := fun _ => PackagedTask.empty }

/-- The shared state a task owns, if it has one. -/
def PackagedTask.handles {R E : Type} : PackagedTask R E → List Nat
  | PackagedTask.empty => []
  | PackagedTask.bound handle _ => [handle]

/-- Where the thread that runs `AsyncAdder` (lines 83-120) is. -/
inductive AdderState (R E : Type) where
  /-- In the wait of line 88. -/
  | waitingForItem
  /-- In the wait of line 112, holding the task taken from `conveyer_`. -/
  | waitingForCapacity (task : PackagedTask R E)
  /-- Past the wait of line 112, before the `Push` of line 116. -/
  | enqueuing (task : PackagedTask R E)
  /-- Left the loop by the `break` of line 93. -/
  | terminated

/-- Where a thread that runs `Runnable` (lines 49-81) is; `task` is the
`shared_ptr` that `queue_.Pop()` returned (`none` for `nullptr`). -/
inductive WorkerState (R E : Type) where
  /-- In the wait of line 54. -/
  | waitingForTask
  /-- Past line 62, before the block of lines 64-69. -/
  | markingBusy (task : Option (PackagedTask R E))
  /-- Before the call of line 71. -/
  | executing (task : Option (PackagedTask R E))
  /-- Past line 71, before the block of lines 73-79. -/
  | markingReady
  /-- Left the loop by the `break` of line 58. -/
  | terminated

/-- Where the owner of the pool is with respect to `~ThreadPool` (lines 170-186). -/
inductive OwnerState where
  /-- The destructor has not been entered. -/
  | alive
  /-- Past `exitflag_ = true` (line 172). -/
  | stopping
  /-- Past `doAdd_ = false` (line 173), at the end of the body. -/
  | stopped
  /-- The members declared after `asyncAdderWaiter_` (lines 36-44) have been
  destroyed; the destructor of `asyncAdderWaiter_` (line 34) waits for the
  `AsyncAdder` thread to end. -/
  | joining
  /-- All the members have been destroyed. -/
  | destroyed
deriving DecidableEq, Repr

/-- The data members of `ThreadPool<ReturnT>` (lines 25-44) that carry state,
with the state of the threads and of the futures.  `threads_` holds where each
worker is, `asyncAdderWaiter_` where the `AsyncAdder` thread is; `readyFlags_`
is the `std::map` as a list of key-value pairs. -/
structure ThreadPool (R E : Type) where
  concurrency_ : Nat
  threads_ : List (WorkerState R E)
  queue_ : StaticQueue (PackagedTask R E) 32
  asyncAdderWaiter_ : AdderState R E
  readyFlags_ : List (Nat × Bool)
  conveyer_ : List (PackagedTask R E)
  exitflag_ : Bool
  doAdd_ : Bool
  /-- The caller that owns the pool. -/
  owner : OwnerState
  /-- The shared states that the call of their task has made ready, with the
  outcome stored, in the order of the calls. -/
  sharedStates : List (Nat × Except E R)
  /-- The shared states that the destruction of their task, never called, has
  made ready with `broken_promise`. -/
  brokenPromises : List Nat
  /-- The shared state that the next `packaged_task` constructed gets. -/
  nextHandle : Nat

/-- What a step of a thread comes to. -/
inductive Step (σ : Type) where
  /-- The thread is suspended in a wait whose predicate is false, or is over. -/
  | blocked
  /-- The statement has undefined behaviour. -/
  | undefined
  /-- An exception leaves the thread function: `std::terminate` ends the process. -/
  | terminate
  /-- The thread took the step and left the state `s`. -/
  | next (s : σ)

/-- What a thread of the program does next. -/
inductive Action (R E : Type) where
  /-- A producer calls `AddTask` with a callable that has this outcome. -/
  | AddTask (callable : Except E R)
  /-- The `AsyncAdder` thread takes its next step. -/
  | AsyncAdder
  /-- The worker at position `i` of `threads_` takes its next step. -/
  | Runnable (i : Nat)
  /-- The owner executes the next statement of the destructor. -/
  | destructor

section PoolOperations

variable {R E : Type}

/-- The assignment `readyFlags_[id] = value` on a `std::map`: the entry of key
`id` is overwritten, or inserted when there is none. -/
def assignFlag (id : Nat) (value : Bool) : List (Nat × Bool) → List (Nat × Bool)
  | [] => [(id, value)]
  | (k, b) :: rest =>
    if k = id then (id, value) :: rest else (k, b) :: assignFlag id value rest

/-- The pool that `ThreadPool(size_t concurrency)` (lines 123-139) builds: the
flags `exitflag_ = false` and `doAdd_ = true`, the `AsyncAdder` thread started,
`concurrency` workers started, each registered in `readyFlags_` as ready, the
queue and the conveyer empty.  The slots of the queue are default-constructed
tasks. -/
def ThreadPool.initial (concurrency : Nat) : ThreadPool R E :=
  { concurrency_ := concurrency
    threads_ := List.replicate concurrency WorkerState.waitingForTask
    queue_ := StaticQueue.construct (fun _ => PackagedTask.empty)
    asyncAdderWaiter_ := AdderState.waitingForItem
    readyFlags_ := (List.range concurrency).foldl (fun flags i => assignFlag i true flags) []
    conveyer_ := []
    exitflag_ := false
    doAdd_ := true
    owner := OwnerState.alive
    sharedStates := []
    brokenPromises := []
    nextHandle := 0 }

/-- The constructor `ThreadPool(size_t concurrency)` (lines 123-139): `some`
pool when it returns, `none` when it rejects its argument.  It has no statement
that looks at the value of `concurrency`. -/
def ThreadPool.construct (concurrency : Nat) : Option (ThreadPool R E) :=
  some (ThreadPool.initial concurrency)

/-- The predicate `compare` of the second wait of `AsyncAdder` (lines 101-109):
some entry of `readyFlags_` is true and `queue_` is not filled. -/
def ThreadPool.compare (s : ThreadPool R E) : Bool :=
  s.readyFlags_.any (fun p => p.2) && !s.queue_.Filled

/-- The next step of the `AsyncAdder` thread (lines 83-120).  The value that
`queue_.Push` returns is discarded, as in the source. -/
def ThreadPool.AsyncAdder (s : ThreadPool R E) : Step (ThreadPool R E) :=
  match s.asyncAdderWaiter_ with
  | AdderState.waitingForItem =>
    if !s.conveyer_.isEmpty || !s.doAdd_ then
      if s.doAdd_ == false then
        Step.next { s with asyncAdderWaiter_ := AdderState.terminated }
      else
        match s.conveyer_ with
        | [] => Step.undefined
        | task :: rest =>
          Step.next { s with conveyer_ := rest
                             asyncAdderWaiter_ := AdderState.waitingForCapacity task }
    else Step.blocked
  | AdderState.waitingForCapacity task =>
    if s.compare then Step.next { s with asyncAdderWaiter_ := AdderState.enqueuing task }
    else Step.blocked
  | AdderState.enqueuing task =>
    match s.queue_.PushMove task with
    | none => Step.undefined
    | some (_, q) => Step.next { s with queue_ := q
                                        asyncAdderWaiter_ := AdderState.waitingForItem }
  | AdderState.terminated => Step.blocked

/-- The call `(*task)()` of line 71 on a `std::packaged_task`: the callable is
run and its value, or the error it raises, is stored in the shared state, which
becomes ready; the call itself throws `std::future_error` when the task has no
shared state or the shared state is ready already.  The result is the list of
ready shared states after the call, or `none` when the call throws. -/
def PackagedTask.invoke (sharedStates : List (Nat × Except E R)) :
    PackagedTask R E → Option (List (Nat × Except E R))
  | PackagedTask.empty => none
  | PackagedTask.bound handle callable =>
    if sharedStates.any (fun p => p.1 == handle) then none
    else some (sharedStates ++ [(handle, callable)])

/-- The next step of the worker at position `i` of `threads_` (lines 49-81). -/
def ThreadPool.Runnable (s : ThreadPool R E) (i : Nat) : Step (ThreadPool R E) :=
  match s.threads_.get? i with
  | none => Step.blocked
  | some WorkerState.waitingForTask =>
    if !s.queue_.Empty || s.exitflag_ then
      if s.exitflag_ then
        Step.next { s with threads_ := s.threads_.set i WorkerState.terminated }
      else
        match s.queue_.PopPtr (PackagedTask.movedFrom R E) with
        | none => Step.undefined
        | some (task, q) =>
          Step.next { s with queue_ := q
                             threads_ := s.threads_.set i (WorkerState.markingBusy task) }
    else Step.blocked
  | some (WorkerState.markingBusy task) =>
    Step.next { s with readyFlags_ := assignFlag i false s.readyFlags_
                       threads_ := s.threads_.set i (WorkerState.executing task) }
  | some (WorkerState.executing none) => Step.undefined
  | some (WorkerState.executing (some task)) =>
    match task.invoke s.sharedStates with
    | none => Step.terminate
    | some states =>
      Step.next { s with sharedStates := states
                         threads_ := s.threads_.set i WorkerState.markingReady }
  | some WorkerState.markingReady =>
    Step.next { s with readyFlags_ := assignFlag i true s.readyFlags_
                       threads_ := s.threads_.set i WorkerState.waitingForTask }
  | some WorkerState.terminated => Step.blocked

/-- The member `AddTask` (lines 152-168): a task bound to the callable and to a
fresh shared state is appended to `conveyer_`; the future returned refers to
that shared state.  Calling it on a pool whose destructor has been entered is
undefined. -/
def ThreadPool.AddTask (s : ThreadPool R E) (callable : Except E R) :
    Option (Nat × ThreadPool R E) :=
  match s.owner with
  | OwnerState.alive =>
    some (s.nextHandle,
      { s with conveyer_ := s.conveyer_ ++ [PackagedTask.bound s.nextHandle callable]
               nextHandle := s.nextHandle + 1 })
  | _ => none

/-- The destructor of `std::packaged_task` on a task that was never moved
from: a shared state that is not ready is abandoned, that is made ready with
`broken_promise`.  The result is the shared state so abandoned, if any. -/
def PackagedTask.abandon (sharedStates : List (Nat × Except E R)) :
    PackagedTask R E → List Nat
  | PackagedTask.empty => []
  | PackagedTask.bound handle _ =>
    if sharedStates.any (fun p => p.1 == handle) then [] else [handle]

/-- The shared states abandoned by the destruction of `tasks`, one after the
other. -/
def PackagedTask.abandonAll (sharedStates : List (Nat × Except E R)) :
    List (PackagedTask R E) → List Nat
  | [] => []
  | task :: tasks =>
    task.abandon sharedStates ++ PackagedTask.abandonAll sharedStates tasks

/-- The next step of `~ThreadPool` (lines 170-186): the two statements of the
body, then the destruction of the members in the reverse order of their
declaration (lines 25-44).  `conveyer_` is destroyed with the tasks it still
holds, and `readyFlags_`; the destructor of `asyncAdderWaiter_`, a future that
`std::async` returned, then blocks until the `AsyncAdder` thread has ended;
after it `queue_` is destroyed with the tasks in its slots, the last slot
first. -/
def ThreadPool.destructor (s : ThreadPool R E) : Step (ThreadPool R E) :=
  match s.owner with
  | OwnerState.alive => Step.next { s with exitflag_ := true, owner := OwnerState.stopping }
  | OwnerState.stopping => Step.next { s with doAdd_ := false, owner := OwnerState.stopped }
  | OwnerState.stopped =>
    Step.next { s with
      brokenPromises :=
        s.brokenPromises ++ PackagedTask.abandonAll s.sharedStates s.conveyer_
      conveyer_ := []
      readyFlags_ := []
      owner := OwnerState.joining }
  | OwnerState.joining =>
    match s.asyncAdderWaiter_ with
    | AdderState.terminated =>
      Step.next { s with
        brokenPromises :=
          s.brokenPromises
            ++ PackagedTask.abandonAll s.sharedStates (List.ofFn s.queue_.internalArray_).reverse
        queue_ := StaticQueue.construct (fun _ => PackagedTask.empty)
        owner := OwnerState.destroyed }
    | _ => Step.blocked
  | OwnerState.destroyed => Step.blocked

/-- One step of the program. -/
def ThreadPool.step (s : ThreadPool R E) : Action R E → Step (ThreadPool R E)
  | Action.AddTask callable =>
    match s.AddTask callable with
    | none => Step.undefined
    | some (_, s1) => Step.next s1
  | Action.AsyncAdder => s.AsyncAdder
  | Action.Runnable i => s.Runnable i
  | Action.destructor => s.destructor

/-- An execution: the steps of `acts` one after the other.  `none` when one of
them cannot be taken. -/
def ThreadPool.run (s : ThreadPool R E) : List (Action R E) → Option (ThreadPool R E)
  | [] => some s
  | a :: acts =>
    match s.step a with
    | Step.next s1 => ThreadPool.run s1 acts
    | _ => none

/-- The states of a pool of `concurrency` workers: those an execution leads to
from the constructed pool. -/
def ThreadPool.ReachableFrom (concurrency : Nat) (s : ThreadPool R E) : Prop :=
  ∃ acts : List (Action R E), (ThreadPool.initial concurrency).run acts = some s

/-- The admission stage before the gate: `task` is in `conveyer_` or in the
hand of the `AsyncAdder` thread that waits for capacity. -/
def ThreadPool.AwaitsAdmission (s : ThreadPool R E) (task : PackagedTask R E) : Prop :=
  task ∈ s.conveyer_ ∨ s.asyncAdderWaiter_ = AdderState.waitingForCapacity task

/-- The queue of the pool is well formed, and once the `AsyncAdder` thread is
past its capacity wait the queue has room. -/
def ThreadPool.QueueInv (s : ThreadPool R E) : Prop :=
  s.queue_.Inv ∧ ∀ task, s.asyncAdderWaiter_ = AdderState.enqueuing task → s.queue_.count_ < 32

/-- How many times the shared state `h` is owned by `task` (0 or 1). -/
def PackagedTask.occ (h : Nat) (task : PackagedTask R E) : Nat :=
  task.handles.count h

/-- How many times the shared state `h` is owned by the task in the hand of
the `AsyncAdder` thread. -/
def AdderState.occ (h : Nat) : AdderState R E → Nat
  | AdderState.waitingForCapacity task => task.occ h
  | AdderState.enqueuing task => task.occ h
  | _ => 0

/-- How many times the shared state `h` is owned by the task that a worker has
popped and not yet invoked. -/
def WorkerState.occ (h : Nat) : WorkerState R E → Nat
  | WorkerState.markingBusy (some task) => task.occ h
  | WorkerState.executing (some task) => task.occ h
  | _ => 0

/-- How many times the shared state `h` occurs in the pool: owned by a task in
`conveyer_`, in the hand of the `AsyncAdder` thread, in the window of `queue_`
or in the hand of a worker, or made ready. -/
def ThreadPool.occ (s : ThreadPool R E) (h : Nat) : Nat :=
  (s.conveyer_.map (PackagedTask.occ h)).sum
    + s.asyncAdderWaiter_.occ h
    + ((s.queue_.contents (by decide)).map (PackagedTask.occ h)).sum
    + (s.threads_.map (WorkerState.occ h)).sum
    + (s.sharedStates.map Prod.fst).count h

/-- Every shared state occurs at most once in the pool, and only if it has
been handed out; the queue is well formed. -/
def ThreadPool.HandlesInv (s : ThreadPool R E) : Prop :=
  s.queue_.Inv ∧ ∀ h, s.occ h ≤ 1 ∧ (s.nextHandle ≤ h → s.occ h = 0)

/-- What holds of a pool without workers: no thread, no readiness flag, nothing
in `queue_`, no shared state made ready, and the `AsyncAdder` thread not past
its capacity wait. -/
def ThreadPool.Idle (s : ThreadPool R E) : Prop :=
  s.threads_ = [] ∧ s.readyFlags_ = [] ∧ s.queue_.count_ = 0 ∧ s.sharedStates = []
    ∧ ∀ task, s.asyncAdderWaiter_ ≠ AdderState.enqueuing task

/-- What happens next in the test of the pool: the producer submits its next
task, or a thread of the pool takes its next step. -/
inductive Choice where
  | submit
  | AsyncAdder
  | Runnable (i : Nat)
deriving DecidableEq, Repr

/-- One step of the test in which `tasks` tasks are submitted to a freshly
constructed pool, the task of the `i`-th call of `AddTask` (counted from 0)
returning `i`; on a fresh pool the number of calls made so far is
`nextHandle`.  The producer submits as long as it has tasks left; the
destructor is not entered. -/
def ThreadPool.testStep (tasks : Nat) (s : ThreadPool Nat E) :
    Choice → Step (ThreadPool Nat E)
  | Choice.submit =>
    if s.nextHandle < tasks then s.step (Action.AddTask (Except.ok s.nextHandle))
    else Step.blocked
  | Choice.AsyncAdder => s.step Action.AsyncAdder
  | Choice.Runnable i => s.step (Action.Runnable i)

/-- An execution of the test: the steps of `choices` one after the other.
`none` when one of them cannot be taken. -/
def ThreadPool.testRun (tasks : Nat) (s : ThreadPool Nat E) :
    List Choice → Option (ThreadPool Nat E)
  | [] => some s
  | c :: choices =>
    match s.testStep tasks c with
    | Step.next s1 => ThreadPool.testRun tasks s1 choices
    | _ => none

/-- The steps the `AsyncAdder` thread still has to take for the task in its
hand: pass the gate and push, or push. -/
def AdderState.work : AdderState R E → Nat
  | AdderState.waitingForCapacity _ => 6
  | AdderState.enqueuing _ => 5
  | _ => 0

/-- The steps a worker still has to take to be back in its wait. -/
def WorkerState.work : WorkerState R E → Nat
  | WorkerState.markingBusy _ => 3
  | WorkerState.executing _ => 2
  | WorkerState.markingReady => 1
  | _ => 0

/-- The steps the threads of the pool still have to take for the tasks that
have been submitted: seven for a task in `conveyer_` (taken, admitted, pushed,
popped, marked busy, called, marked ready), four for a task in `queue_`. -/
def ThreadPool.work (s : ThreadPool R E) : Nat :=
  7 * s.conveyer_.length + s.asyncAdderWaiter_.work + 4 * s.queue_.count_
    + (s.threads_.map WorkerState.work).sum

/-- The steps the test still has to take: the work of the threads, and eight
steps (the submission and the work it brings) for every task not yet
submitted. -/
def ThreadPool.potential (tasks : Nat) (s : ThreadPool R E) : Nat :=
  s.work + 8 * (tasks - s.nextHandle)

/-- A task of the test: it owns a shared state and returns the number of that
shared state. -/
def PackagedTask.IsTest (task : PackagedTask Nat E) : Prop :=
  ∃ h, task = PackagedTask.bound h (Except.ok h)

/-- A step of the test, told by what it does: `Moves tasks s s1` lists the
eight ways in which the test goes from `s` to `s1`. -/
inductive ThreadPool.Moves (tasks : Nat) (s : ThreadPool Nat E) : ThreadPool Nat E → Prop where
  | submit (hlt : s.nextHandle < tasks) :
    ThreadPool.Moves tasks s
      { s with conveyer_ := s.conveyer_ ++ [PackagedTask.bound s.nextHandle (Except.ok s.nextHandle)]
               nextHandle := s.nextHandle + 1 }
  | take (task : PackagedTask Nat E) (rest : List (PackagedTask Nat E))
      (hpc : s.asyncAdderWaiter_ = AdderState.waitingForItem)
      (hconv : s.conveyer_ = task :: rest) :
    ThreadPool.Moves tasks s
      { s with conveyer_ := rest, asyncAdderWaiter_ := AdderState.waitingForCapacity task }
  | pass (task : PackagedTask Nat E)
      (hpc : s.asyncAdderWaiter_ = AdderState.waitingForCapacity task)
      (hcmp : s.compare = true) :
    ThreadPool.Moves tasks s { s with asyncAdderWaiter_ := AdderState.enqueuing task }
  | push (task : PackagedTask Nat E) (hl : s.queue_.last_ < 32)
      (hpc : s.asyncAdderWaiter_ = AdderState.enqueuing task)
      (hroom : s.queue_.count_ < 32) :
    ThreadPool.Moves tasks s
      { s with queue_ := s.queue_.pushed hl task
               asyncAdderWaiter_ := AdderState.waitingForItem }
  | pop (i : Nat) (hf : s.queue_.first_ < 32)
      (hpc : s.threads_.get? i = some WorkerState.waitingForTask)
      (hc : s.queue_.count_ ≠ 0) :
    ThreadPool.Moves tasks s
      { s with queue_ := s.queue_.popped hf (PackagedTask.movedFrom Nat E).constructed
               threads_ := s.threads_.set i
                 (WorkerState.markingBusy (some (s.queue_.internalArray_ ⟨s.queue_.first_, hf⟩))) }
  | markBusy (i : Nat) (task : Option (PackagedTask Nat E))
      (hpc : s.threads_.get? i = some (WorkerState.markingBusy task)) :
    ThreadPool.Moves tasks s
      { s with readyFlags_ := assignFlag i false s.readyFlags_
               threads_ := s.threads_.set i (WorkerState.executing task) }
  | call (i handle : Nat) (callable : Except E Nat)
      (hpc : s.threads_.get? i
        = some (WorkerState.executing (some (PackagedTask.bound handle callable))))
      (hfresh : s.sharedStates.any (fun p => p.1 == handle) = false) :
    ThreadPool.Moves tasks s
      { s with sharedStates := s.sharedStates ++ [(handle, callable)]
               threads_ := s.threads_.set i WorkerState.markingReady }
  | markReady (i : Nat) (hpc : s.threads_.get? i = some WorkerState.markingReady) :
    ThreadPool.Moves tasks s
      { s with readyFlags_ := assignFlag i true s.readyFlags_
               threads_ := s.threads_.set i WorkerState.waitingForTask }

/-- What holds of the pool throughout the test of a pool of `n` workers with
`tasks` tasks: the destructor is not entered and no thread has ended; a worker
that is in its wait or has just popped a task has its readiness flag set;
every task in the pool is a task of the test, and every shared state made
ready holds the number of that shared state; every shared state handed out
occurs exactly once in the pool. -/
structure ThreadPool.TestInv (n tasks : Nat) (s : ThreadPool Nat E) : Prop where
  queue : s.QueueInv
  alive : s.owner = OwnerState.alive
  exitflag : s.exitflag_ = false
  doAdd : s.doAdd_ = true
  adder : s.asyncAdderWaiter_ ≠ AdderState.terminated
  workers : ∀ i, s.threads_.get? i ≠ some WorkerState.terminated
  count : s.threads_.length = n
  flags : ∀ i, (s.threads_.get? i = some WorkerState.waitingForTask
      ∨ ∃ task, s.threads_.get? i = some (WorkerState.markingBusy task)) →
    (i, true) ∈ s.readyFlags_
  conveyer : ∀ task ∈ s.conveyer_, task.IsTest
  hand : ∀ task, (s.asyncAdderWaiter_ = AdderState.waitingForCapacity task
      ∨ s.asyncAdderWaiter_ = AdderState.enqueuing task) → task.IsTest
  queued : ∀ task ∈ s.queue_.contents (by decide), task.IsTest
  popped : ∀ i x, (s.threads_.get? i = some (WorkerState.markingBusy x)
      ∨ s.threads_.get? i = some (WorkerState.executing x)) →
    ∃ task, x = some task ∧ task.IsTest
  ready : ∀ p ∈ s.sharedStates, p.2 = Except.ok p.1
  once : ∀ h, s.occ h = if h < s.nextHandle then 1 else 0
  submitted : s.nextHandle ≤ tasks

end PoolOperations

/-! ## Auxiliary lemmas -/

section Lemmas

variable {T : Type} {SIZE : Nat}

theorem add_mod_ne_of_lt {n a i j : Nat} (hi : i < j) (hj : j < n + i) :
    (a + i) % n ≠ (a + j) % n := by
  intro h
  have h1 : (a + i) ≡ (a + j) [MOD n] := h
  have h2 : i ≡ j [MOD n] := Nat.ModEq.add_left_cancel' a h1
  have h3 : n ∣ j - i := (Nat.modEq_iff_dvd' hi.le).1 h2
  have h4 : n ≤ j - i := Nat.le_of_dvd (by omega) h3
  omega

theorem StaticQueue.Inv.last_lt {q : StaticQueue T SIZE} (hS : 0 < SIZE) (h : q.Inv) :
    q.last_ < SIZE := by
  rw [h.2.2]; exact Nat.mod_lt _ hS

theorem StaticQueue.construct_inv (hS : 0 < SIZE) (arr : Fin SIZE → T) :
    (StaticQueue.construct arr).Inv := by
  refine ⟨Nat.zero_le _, hS, ?_⟩
  simp [StaticQueue.construct]

theorem StaticQueue.contents_length (hS : 0 < SIZE) (q : StaticQueue T SIZE) :
    (q.contents hS).length = q.count_ := by
  simp [StaticQueue.contents]

theorem StaticQueue.Push_eq_of_lt {q : StaticQueue T SIZE} (hc : q.count_ < SIZE)
    (hl : q.last_ < SIZE) (v : T) : q.Push v = some (true, q.pushed hl v) := by
  simp [StaticQueue.Push, StaticQueue.pushed, hc, hl]

theorem StaticQueue.PushMove_eq_Push (q : StaticQueue T SIZE) (v : T) :
    q.PushMove v = q.Push v := rfl

theorem StaticQueue.Push_eq_of_full {q : StaticQueue T SIZE} (hc : ¬ q.count_ < SIZE)
    (v : T) : q.Push v = some (false, q) := by
  simp [StaticQueue.Push, hc]

theorem StaticQueue.pushed_inv {q : StaticQueue T SIZE} (hq : q.Inv)
    (hc : q.count_ < SIZE) (hl : q.last_ < SIZE) (v : T) : (q.pushed hl v).Inv := by
  obtain ⟨_, h2, h3⟩ := hq
  refine ⟨hc, h2, ?_⟩
  show (q.last_ + 1) % SIZE = (q.first_ + (q.count_ + 1)) % SIZE
  rw [h3, Nat.mod_add_mod, Nat.add_assoc]

theorem StaticQueue.pushed_contents (hS : 0 < SIZE) {q : StaticQueue T SIZE} (hq : q.Inv)
    (hc : q.count_ < SIZE) (hl : q.last_ < SIZE) (v : T) :
    (q.pushed hl v).contents hS = q.contents hS ++ [v] := by
  obtain ⟨_, h2, h3⟩ := hq
  unfold StaticQueue.contents
  show List.map _ (List.range (q.count_ + 1)) = _
  rw [List.range_succ, List.map_append]
  congr 1
  · apply List.map_congr_left
    intro i hi
    have hi' : i < q.count_ := List.mem_range.1 hi
    show Function.update q.internalArray_ ⟨q.last_, hl⟩ v _ = _
    refine Function.update_noteq ?_ _ _
    intro he
    have := congrArg Fin.val he
    simp only [h3] at this
    exact add_mod_ne_of_lt hi' (by omega) this
  · show [Function.update q.internalArray_ ⟨q.last_, hl⟩ v _] = _
    have : (⟨(q.first_ + q.count_) % SIZE, Nat.mod_lt _ hS⟩ : Fin SIZE) = ⟨q.last_, hl⟩ := by
      apply Fin.ext; exact h3.symm
    show [Function.update q.internalArray_ ⟨q.last_, hl⟩ v ⟨(q.first_ + q.count_) % SIZE, _⟩] = _
    rw [this, Function.update_same]

theorem StaticQueue.Pop_eq_of_ne {q : StaticQueue T SIZE} (m : MovedFrom T)
    (hc : q.count_ ≠ 0) (hf : q.first_ < SIZE) (value : T) :
    q.Pop m value
      = some (true, q.internalArray_ ⟨q.first_, hf⟩, q.popped hf m.assigned) := by
  simp [StaticQueue.Pop, StaticQueue.popped, hc, hf]

theorem StaticQueue.PopPtr_eq_of_ne {q : StaticQueue T SIZE} (m : MovedFrom T)
    (hc : q.count_ ≠ 0) (hf : q.first_ < SIZE) :
    q.PopPtr m
      = some (some (q.internalArray_ ⟨q.first_, hf⟩), q.popped hf m.constructed) := by
  simp [StaticQueue.PopPtr, StaticQueue.popped, hc, hf]

theorem StaticQueue.Pop_eq_of_zero {q : StaticQueue T SIZE} (m : MovedFrom T)
    (hc : q.count_ = 0) (value : T) : q.Pop m value = some (false, value, q) := by
  simp [StaticQueue.Pop, hc]

theorem StaticQueue.PopPtr_eq_of_zero {q : StaticQueue T SIZE} (m : MovedFrom T)
    (hc : q.count_ = 0) : q.PopPtr m = some (none, q) := by
  simp [StaticQueue.PopPtr, hc]

theorem StaticQueue.popped_inv {q : StaticQueue T SIZE} (hS : 0 < SIZE) (hq : q.Inv)
    (hc : q.count_ ≠ 0) (hf : q.first_ < SIZE) (f : T → T) : (q.popped hf f).Inv := by
  obtain ⟨h1, _, h3⟩ := hq
  refine ⟨?_, Nat.mod_lt _ hS, ?_⟩
  · show q.count_ - 1 ≤ SIZE
    omega
  · show q.last_ = ((q.first_ + 1) % SIZE + (q.count_ - 1)) % SIZE
    rw [h3, Nat.mod_add_mod]
    congr 1
    omega

theorem StaticQueue.popped_contents (hS : 0 < SIZE) {q : StaticQueue T SIZE} (hq : q.Inv)
    (hc : q.count_ ≠ 0) (hf : q.first_ < SIZE) (f : T → T) :
    q.contents hS = q.internalArray_ ⟨q.first_, hf⟩ :: (q.popped hf f).contents hS := by
  obtain ⟨h1, _, h3⟩ := hq
  obtain ⟨n, hn⟩ : ∃ n, q.count_ = n + 1 := ⟨q.count_ - 1, by omega⟩
  unfold StaticQueue.contents
  have hcnt : (q.popped hf f).count_ = n := by
    show q.count_ - 1 = n
    omega
  rw [hn, hcnt, List.range_succ_eq_map, List.map_cons, List.map_map]
  congr 1
  · congr 1
    apply Fin.ext
    show (q.first_ + 0) % SIZE = q.first_
    rw [Nat.add_zero, Nat.mod_eq_of_lt hf]
  · apply List.map_congr_left
    intro i hi
    have hi' : i < n := List.mem_range.1 hi
    have hidx : ((q.first_ + 1) % SIZE + i) % SIZE = (q.first_ + (i + 1)) % SIZE := by
      rw [Nat.mod_add_mod]
      congr 1
      omega
    have hne : (⟨(q.first_ + (i + 1)) % SIZE, Nat.mod_lt _ hS⟩ : Fin SIZE)
        ≠ ⟨q.first_, hf⟩ := by
      intro he
      have h0 := congrArg Fin.val he
      have h5 : (q.first_ + 0) % SIZE ≠ (q.first_ + (i + 1)) % SIZE :=
        add_mod_ne_of_lt (Nat.succ_pos i) (by omega)
      apply h5
      rw [Nat.add_zero, Nat.mod_eq_of_lt hf]
      exact h0.symm
    show q.internalArray_ ⟨(q.first_ + (i + 1)) % SIZE, _⟩
      = Function.update q.internalArray_ ⟨q.first_, hf⟩ _
          ⟨((q.first_ + 1) % SIZE + i) % SIZE, _⟩
    have hfin : (⟨((q.first_ + 1) % SIZE + i) % SIZE, Nat.mod_lt _ hS⟩ : Fin SIZE)
        = ⟨(q.first_ + (i + 1)) % SIZE, Nat.mod_lt _ hS⟩ := Fin.ext hidx
    rw [hfin, Function.update_noteq hne]

theorem StaticQueue.calls_cons_of_eq {m : MovedFrom T} {q q1 q2 : StaticQueue T SIZE}
    {c : Call T} {cs : List (Call T)} {r : Ret T} {rs : List (Ret T)}
    (h1 : q.call m c = some (r, q1)) (h2 : StaticQueue.calls m q1 cs = some (rs, q2)) :
    StaticQueue.calls m q (c :: cs) = some (r :: rs, q2) := by
  simp [StaticQueue.calls, h1, h2]

/-- One call from a state that satisfies the invariant returns, and the state it
leaves satisfies the invariant. -/
theorem StaticQueue.call_inv (hS : 0 < SIZE) (m : MovedFrom T) {q : StaticQueue T SIZE}
    (hq : q.Inv) (c : Call T) : ∃ r q1, q.call m c = some (r, q1) ∧ q1.Inv := by
  have hl := hq.last_lt hS
  have hf := hq.2.1
  cases c with
  | Push v =>
    by_cases hc : q.count_ < SIZE
    · exact ⟨Ret.pushed true, q.pushed hl v,
        by simp [StaticQueue.call, StaticQueue.Push_eq_of_lt hc hl],
        StaticQueue.pushed_inv hq hc hl v⟩
    · exact ⟨Ret.pushed false, q,
        by simp [StaticQueue.call, StaticQueue.Push_eq_of_full hc], hq⟩
  | PushMove v =>
    by_cases hc : q.count_ < SIZE
    · exact ⟨Ret.pushed true, q.pushed hl v,
        by simp [StaticQueue.call, StaticQueue.PushMove_eq_Push,
          StaticQueue.Push_eq_of_lt hc hl],
        StaticQueue.pushed_inv hq hc hl v⟩
    · exact ⟨Ret.pushed false, q,
        by simp [StaticQueue.call, StaticQueue.PushMove_eq_Push,
          StaticQueue.Push_eq_of_full hc], hq⟩
  | Pop value =>
    by_cases hc : q.count_ = 0
    · exact ⟨Ret.popped false value, q,
        by simp [StaticQueue.call, StaticQueue.Pop_eq_of_zero m hc], hq⟩
    · exact ⟨Ret.popped true (q.internalArray_ ⟨q.first_, hf⟩), q.popped hf m.assigned,
        by simp [StaticQueue.call, StaticQueue.Pop_eq_of_ne m hc hf],
        StaticQueue.popped_inv hS hq hc hf _⟩
  | PopPtr =>
    by_cases hc : q.count_ = 0
    · exact ⟨Ret.ptr none, q,
        by simp [StaticQueue.call, StaticQueue.PopPtr_eq_of_zero m hc], hq⟩
    · exact ⟨Ret.ptr (some (q.internalArray_ ⟨q.first_, hf⟩)), q.popped hf m.constructed,
        by simp [StaticQueue.call, StaticQueue.PopPtr_eq_of_ne m hc hf],
        StaticQueue.popped_inv hS hq hc hf _⟩

/-- A sequence of calls from a state that satisfies the invariant returns, and
the state it leaves satisfies the invariant. -/
theorem StaticQueue.calls_inv (hS : 0 < SIZE) (m : MovedFrom T) (cs : List (Call T)) :
    ∀ {q : StaticQueue T SIZE}, q.Inv →
      ∃ rs q1, StaticQueue.calls m q cs = some (rs, q1) ∧ q1.Inv := by
  induction cs with
  | nil => intro q hq; exact ⟨[], q, rfl, hq⟩
  | cons c cs ih =>
    intro q hq
    obtain ⟨r, q1, h1, hq1⟩ := StaticQueue.call_inv hS m hq c
    obtain ⟨rs, q2, h2, hq2⟩ := ih hq1
    exact ⟨r :: rs, q2, StaticQueue.calls_cons_of_eq h1 h2, hq2⟩

theorem StaticQueue.Reachable.inv (hS : 0 < SIZE) {m : MovedFrom T}
    {q : StaticQueue T SIZE} (h : q.Reachable m) : q.Inv := by
  obtain ⟨arr, cs, rs, hrun⟩ := h
  obtain ⟨rs1, q1, h1, hq1⟩ :=
    StaticQueue.calls_inv hS m cs (StaticQueue.construct_inv hS arr)
  rw [h1] at hrun
  cases hrun
  exact hq1

/-- Pushing the values `vs` with either overload (`mk`) into a queue that has
room for them: every call returns `true` and the values are appended. -/
theorem StaticQueue.calls_push_all (hS : 0 < SIZE) (m : MovedFrom T) (mk : T → Call T)
    (hmk : mk = Call.Push ∨ mk = Call.PushMove) (vs : List T) :
    ∀ {q : StaticQueue T SIZE}, q.Inv → q.count_ + vs.length ≤ SIZE →
      ∃ q1, StaticQueue.calls m q (vs.map mk)
          = some (vs.map (fun _ => Ret.pushed true), q1)
        ∧ q1.Inv ∧ q1.contents hS = q.contents hS ++ vs := by
  induction vs with
  | nil => intro q hq _; exact ⟨q, rfl, hq, by simp⟩
  | cons v vs ih =>
    intro q hq hlen
    have hl := hq.last_lt hS
    have hc : q.count_ < SIZE := by simp only [List.length_cons] at hlen; omega
    have hcall : q.call m (mk v) = some (Ret.pushed true, q.pushed hl v) := by
      rcases hmk with h | h <;> subst h <;>
        simp [StaticQueue.call, StaticQueue.PushMove_eq_Push, StaticQueue.Push_eq_of_lt hc hl]
    have hq1 := StaticQueue.pushed_inv hq hc hl v
    have hlen1 : (q.pushed hl v).count_ + vs.length ≤ SIZE := by
      show q.count_ + 1 + vs.length ≤ SIZE
      simp only [List.length_cons] at hlen; omega
    obtain ⟨q2, h2, hq2, hcont⟩ := ih hq1 hlen1
    refine ⟨q2, ?_, hq2, ?_⟩
    · simpa using StaticQueue.calls_cons_of_eq hcall h2
    · rw [hcont, StaticQueue.pushed_contents hS hq hc hl v]; simp

/-- As many `Pop()` calls as the queue holds elements return its contents, the
oldest first, and leave it empty. -/
theorem StaticQueue.calls_popPtr_all (hS : 0 < SIZE) (m : MovedFrom T) :
    ∀ (n : Nat) {q : StaticQueue T SIZE}, q.Inv → q.count_ = n →
      ∃ q1, StaticQueue.calls m q (List.replicate n Call.PopPtr)
          = some ((q.contents hS).map (fun v => Ret.ptr (some v)), q1)
        ∧ q1.Inv ∧ q1.count_ = 0 := by
  intro n
  induction n with
  | zero =>
    intro q hq hn
    refine ⟨q, ?_, hq, hn⟩
    simp [StaticQueue.contents, hn, StaticQueue.calls]
  | succ n ih =>
    intro q hq hn
    have hc : q.count_ ≠ 0 := by omega
    have hf := hq.2.1
    have hcall : q.call m Call.PopPtr
        = some (Ret.ptr (some (q.internalArray_ ⟨q.first_, hf⟩)),
            q.popped hf m.constructed) := by
      simp [StaticQueue.call, StaticQueue.PopPtr_eq_of_ne m hc hf]
    have hq1 := StaticQueue.popped_inv hS hq hc hf m.constructed
    have hn1 : (q.popped hf m.constructed).count_ = n := by
      show q.count_ - 1 = n; omega
    obtain ⟨q2, h2, hq2, hz⟩ := ih hq1 hn1
    refine ⟨q2, ?_, hq2, hz⟩
    rw [StaticQueue.popped_contents hS hq hc hf m.constructed, List.replicate_succ]
    exact StaticQueue.calls_cons_of_eq hcall h2

/-- As many `Pop(value)` calls as the queue holds elements return `true` with
its contents, the oldest first, and leave it empty. -/
theorem StaticQueue.calls_pop_all (hS : 0 < SIZE) (m : MovedFrom T) :
    ∀ (outs : List T) {q : StaticQueue T SIZE}, q.Inv → q.count_ = outs.length →
      ∃ q1, StaticQueue.calls m q (outs.map Call.Pop)
          = some ((q.contents hS).map (fun v => Ret.popped true v), q1)
        ∧ q1.Inv ∧ q1.count_ = 0 := by
  intro outs
  induction outs with
  | nil =>
    intro q hq hn
    refine ⟨q, ?_, hq, hn⟩
    simp only [List.length_nil] at hn
    simp [StaticQueue.contents, hn, StaticQueue.calls]
  | cons o outs ih =>
    intro q hq hn
    simp only [List.length_cons] at hn
    have hc : q.count_ ≠ 0 := by omega
    have hf := hq.2.1
    have hcall : q.call m (Call.Pop o)
        = some (Ret.popped true (q.internalArray_ ⟨q.first_, hf⟩),
            q.popped hf m.assigned) := by
      simp [StaticQueue.call, StaticQueue.Pop_eq_of_ne m hc hf]
    have hq1 := StaticQueue.popped_inv hS hq hc hf m.assigned
    have hn1 : (q.popped hf m.assigned).count_ = outs.length := by
      show q.count_ - 1 = outs.length; omega
    obtain ⟨q2, h2, hq2, hz⟩ := ih hq1 hn1
    refine ⟨q2, ?_, hq2, hz⟩
    rw [StaticQueue.popped_contents hS hq hc hf m.assigned, List.map_cons]
    exact StaticQueue.calls_cons_of_eq hcall h2

theorem StaticQueue.construct_contents (hS : 0 < SIZE) (arr : Fin SIZE → T) :
    (StaticQueue.construct arr).contents hS = [] := by
  simp [StaticQueue.contents, StaticQueue.construct]

/-- A run of move-in pushes is the same run as the copy-in pushes of the same
values. -/
theorem StaticQueue.calls_map_PushMove (m : MovedFrom T) (vs : List T) :
    ∀ q : StaticQueue T SIZE,
      StaticQueue.calls m q (vs.map Call.PushMove) = StaticQueue.calls m q (vs.map Call.Push) := by
  induction vs with
  | nil => intro q; rfl
  | cons v vs ih =>
    intro q
    simp only [List.map_cons, StaticQueue.calls]
    have : q.call m (Call.PushMove v) = q.call m (Call.Push v) := rfl
    rw [this]
    cases q.call m (Call.Push v) with
    | none => rfl
    | some p => simp only [ih p.2]

theorem StaticQueue.Iterator.construct_desiredId (self : Nat) (q : StaticQueue T SIZE)
    (id : Nat) : (StaticQueue.Iterator.construct self q id).desiredId_ = id := rfl

theorem StaticQueue.Iterator.construct_aquireObject (self : Nat) (q : StaticQueue T SIZE)
    (id : Nat) : (StaticQueue.Iterator.construct self q id).aquireObject_ = self := rfl

/-- The physical slot of a position whose logical index does not make
`first_ + id` wrap. -/
theorem StaticQueue.Iterator.construct_realIdElement (self : Nat) (q : StaticQueue T SIZE)
    (id : Nat) (h : q.first_ + id < sizeMod) :
    (StaticQueue.Iterator.construct self q id).realIdElement_ = (q.first_ + id) % SIZE := by
  show (if (q.first_ + id) % sizeMod ≥ SIZE then (q.first_ + id) % sizeMod % SIZE
      else (q.first_ + id) % sizeMod) = _
  rw [Nat.mod_eq_of_lt h]
  split
  · rfl
  · rw [Nat.mod_eq_of_lt (by omega)]

theorem StaticQueue.Iterator.opInc_construct (self : Nat) (q : StaticQueue T SIZE)
    (id : Nat) (h : id + 1 < sizeMod) :
    StaticQueue.Iterator.opInc q (StaticQueue.Iterator.construct self q id)
      = StaticQueue.Iterator.construct self q (id + 1) := by
  show StaticQueue.Iterator.SetValue q _ ((id + 1) % sizeMod) = _
  rw [Nat.mod_eq_of_lt h]
  rfl

theorem StaticQueue.Iterator.deref_construct (hS : 0 < SIZE) (self : Nat)
    (q : StaticQueue T SIZE) (id : Nat) (h : q.first_ + id < sizeMod) :
    StaticQueue.Iterator.deref q (StaticQueue.Iterator.construct self q id)
      = some (q.internalArray_ ⟨(q.first_ + id) % SIZE, Nat.mod_lt _ hS⟩) := by
  have hr := StaticQueue.Iterator.construct_realIdElement self q id h
  have hlt : (StaticQueue.Iterator.construct self q id).realIdElement_ < SIZE := by
    rw [hr]; exact Nat.mod_lt _ hS
  unfold StaticQueue.Iterator.deref
  rw [dif_pos hlt]
  congr 2
  exact Fin.ext hr

/-- The traversal loop from logical index `j`: with more fuel than positions
left it stops at `end()` after visiting the physical slots
`(first_ + i) % SIZE` for `i = j, ..., count_ - 1`. -/
theorem StaticQueue.traverseFrom_construct (hS : 0 < SIZE) (self : Nat)
    (q : StaticQueue T SIZE) (hw : q.first_ + q.count_ < sizeMod) :
    ∀ (n j fuel : Nat), j + n = q.count_ → n < fuel →
      StaticQueue.traverseFrom self q fuel (StaticQueue.Iterator.construct self q j)
        = some ((List.range' j n).map
            (fun i => ((q.first_ + i) % SIZE,
              q.internalArray_ ⟨(q.first_ + i) % SIZE, Nat.mod_lt _ hS⟩))) := by
  intro n
  induction n with
  | zero =>
    intro j fuel hj hfuel
    obtain ⟨f, rfl⟩ : ∃ f, fuel = f + 1 := ⟨fuel - 1, by omega⟩
    have hj' : j = q.count_ := by omega
    subst hj'
    simp [StaticQueue.traverseFrom, StaticQueue.end_, StaticQueue.Iterator.opNe,
      StaticQueue.Iterator.opEq]
  | succ n ih =>
    intro j fuel hj hfuel
    obtain ⟨f, rfl⟩ : ∃ f, fuel = f + 1 := ⟨fuel - 1, by omega⟩
    have hne : StaticQueue.Iterator.opNe (StaticQueue.Iterator.construct self q j)
        (q.end_ self) = true := by
      have : j ≠ q.count_ := by omega
      simp [StaticQueue.end_, StaticQueue.Iterator.opNe, StaticQueue.Iterator.opEq,
        StaticQueue.Iterator.construct_desiredId, this]
    have hd := StaticQueue.Iterator.deref_construct hS self q j (by omega)
    have hinc := StaticQueue.Iterator.opInc_construct self q j (by omega)
    have hrec := ih (j + 1) f (by omega) (by omega)
    have hr := StaticQueue.Iterator.construct_realIdElement self q j (by omega)
    rw [StaticQueue.traverseFrom, if_pos hne, hd, hinc, hrec, hr]
    rfl

/-- The traversal of a queue that satisfies the invariant visits its contents:
the `i`-th visited position is physical slot `(first_ + i) % SIZE`. -/
theorem StaticQueue.traverse_eq (hS : 0 < SIZE) (hB : SIZE ≤ 2 ^ 63) (self : Nat)
    {q : StaticQueue T SIZE} (hq : q.Inv) (fuel : Nat) (hfuel : q.count_ < fuel) :
    q.traverse self fuel
      = some ((List.range q.count_).map
          (fun i => ((q.first_ + i) % SIZE,
            q.internalArray_ ⟨(q.first_ + i) % SIZE, Nat.mod_lt _ hS⟩))) := by
  have hw : q.first_ + q.count_ < sizeMod := by
    have h1 := hq.1
    have h2 := hq.2.1
    have : (2 : Nat) ^ 64 = 2 * 2 ^ 63 := by norm_num
    unfold sizeMod
    omega
  have := StaticQueue.traverseFrom_construct hS self q hw q.count_ 0 fuel (by omega) hfuel
  rw [List.range_eq_range']
  exact this

theorem static_queue_call_toStaticQueue (m : MovedFrom T) (q : black_box.static_queue T SIZE)
    (c : Call T) :
    (q.call m c).map (fun r => (r.1, r.2.toStaticQueue)) = q.toStaticQueue.call m c := by
  cases c with
  | Push v =>
    simp only [black_box.static_queue.call, StaticQueue.call, black_box.static_queue.push,
      StaticQueue.Push, black_box.static_queue.toStaticQueue]
    split
    · split <;> rfl
    · rfl
  | PushMove v =>
    simp only [black_box.static_queue.call, StaticQueue.call, black_box.static_queue.pushMove,
      StaticQueue.PushMove, black_box.static_queue.toStaticQueue]
    split
    · split <;> rfl
    · rfl
  | Pop value =>
    simp only [black_box.static_queue.call, StaticQueue.call, black_box.static_queue.pop,
      StaticQueue.Pop, black_box.static_queue.toStaticQueue]
    split
    · split <;> rfl
    · rfl
  | PopPtr =>
    simp only [black_box.static_queue.call, StaticQueue.call, black_box.static_queue.popPtr,
      StaticQueue.PopPtr, black_box.static_queue.toStaticQueue]
    split
    · split <;> rfl
    · rfl

theorem static_queue_callsTrace_toStaticQueue (m : MovedFrom T) (cs : List (Call T)) :
    ∀ q : black_box.static_queue T SIZE,
      (q.callsTrace m cs).map (List.map (fun r => (r.1, r.2.toStaticQueue)))
        = q.toStaticQueue.callsTrace m cs := by
  induction cs with
  | nil => intro q; rfl
  | cons c cs ih =>
    intro q
    have hc := static_queue_call_toStaticQueue m q c
    simp only [black_box.static_queue.callsTrace, StaticQueue.callsTrace]
    cases hq : q.call m c with
    | none =>
      rw [hq] at hc
      rw [← hc]
      rfl
    | some p =>
      obtain ⟨r, q1⟩ := p
      rw [hq] at hc
      rw [← hc]
      have := ih q1
      simp only [Option.map_some']
      rw [← this]
      cases q1.callsTrace m cs <;> rfl

/-- One call from a state that satisfies the invariant does on the contents what
the list queue does, and returns what the list queue returns. -/
theorem StaticQueue.call_refines (hS : 0 < SIZE) (m : MovedFrom T) {q : StaticQueue T SIZE}
    (hq : q.Inv) (c : Call T) :
    ∃ q1, q.call m c = some ((ListQueue.call SIZE (q.contents hS) c).1, q1) ∧ q1.Inv
      ∧ q1.contents hS = (ListQueue.call SIZE (q.contents hS) c).2 := by
  have hl := hq.last_lt hS
  have hf := hq.2.1
  have hlen := StaticQueue.contents_length hS q
  have hpush : ∀ v, ∃ q1, q.Push v = some ((ListQueue.push SIZE (q.contents hS) v).1, q1)
      ∧ q1.Inv ∧ q1.contents hS = (ListQueue.push SIZE (q.contents hS) v).2 := by
    intro v
    by_cases hc : q.count_ < SIZE
    · refine ⟨q.pushed hl v, ?_, StaticQueue.pushed_inv hq hc hl v, ?_⟩
      · simp [ListQueue.push, hlen, hc, StaticQueue.Push_eq_of_lt hc hl]
      · simp [ListQueue.push, hlen, hc, StaticQueue.pushed_contents hS hq hc hl v]
    · refine ⟨q, ?_, hq, ?_⟩
      · simp [ListQueue.push, hlen, hc, StaticQueue.Push_eq_of_full hc]
      · simp [ListQueue.push, hlen, hc]
  cases c with
  | Push v =>
    obtain ⟨q1, h1, h2, h3⟩ := hpush v
    exact ⟨q1, by simp [StaticQueue.call, ListQueue.call, h1], h2, h3⟩
  | PushMove v =>
    obtain ⟨q1, h1, h2, h3⟩ := hpush v
    exact ⟨q1, by simp [StaticQueue.call, ListQueue.call, StaticQueue.PushMove_eq_Push, h1],
      h2, h3⟩
  | Pop value =>
    by_cases hc : q.count_ = 0
    · have hnil : q.contents hS = [] := List.length_eq_zero.1 (hlen.trans hc)
      refine ⟨q, ?_, hq, ?_⟩
      · simp [StaticQueue.call, ListQueue.call, ListQueue.pop, hnil,
          StaticQueue.Pop_eq_of_zero m hc]
      · simp [ListQueue.call, ListQueue.pop, hnil]
    · have hcons := StaticQueue.popped_contents hS hq hc hf m.assigned
      refine ⟨q.popped hf m.assigned, ?_, StaticQueue.popped_inv hS hq hc hf _, ?_⟩
      · simp [StaticQueue.call, ListQueue.call, ListQueue.pop, hcons,
          StaticQueue.Pop_eq_of_ne m hc hf]
      · simp [ListQueue.call, ListQueue.pop, hcons]
  | PopPtr =>
    by_cases hc : q.count_ = 0
    · have hnil : q.contents hS = [] := List.length_eq_zero.1 (hlen.trans hc)
      refine ⟨q, ?_, hq, ?_⟩
      · simp [StaticQueue.call, ListQueue.call, ListQueue.pop, hnil,
          StaticQueue.PopPtr_eq_of_zero m hc]
      · simp [ListQueue.call, ListQueue.pop, hnil]
    · have hcons := StaticQueue.popped_contents hS hq hc hf m.constructed
      refine ⟨q.popped hf m.constructed, ?_, StaticQueue.popped_inv hS hq hc hf _, ?_⟩
      · simp [StaticQueue.call, ListQueue.call, ListQueue.pop, hcons,
          StaticQueue.PopPtr_eq_of_ne m hc hf]
      · simp [ListQueue.call, ListQueue.pop, hcons]

/-- A sequence of calls from a state that satisfies the invariant returns what
the list queue returns and ends with the contents the list queue ends with. -/
theorem StaticQueue.calls_refines (hS : 0 < SIZE) (m : MovedFrom T) (cs : List (Call T)) :
    ∀ {q : StaticQueue T SIZE}, q.Inv →
      ∃ q1, StaticQueue.calls m q cs = some ((ListQueue.calls SIZE (q.contents hS) cs).1, q1)
        ∧ q1.Inv ∧ q1.contents hS = (ListQueue.calls SIZE (q.contents hS) cs).2 := by
  induction cs with
  | nil => intro q hq; exact ⟨q, rfl, hq, rfl⟩
  | cons c cs ih =>
    intro q hq
    obtain ⟨q1, h1, hq1, hc1⟩ := StaticQueue.call_refines hS m hq c
    obtain ⟨q2, h2, hq2, hc2⟩ := ih hq1
    rw [hc1] at h2 hc2
    exact ⟨q2, StaticQueue.calls_cons_of_eq h1 h2, hq2, hc2⟩

/-- What the list queue hands out is what it was given, in the same order: the
values it held and then accepted are the values it delivered and then holds. -/
theorem ListQueue.calls_fifo (N : Nat) (cs : List (Call T)) :
    ∀ l : List T,
      l ++ acceptedValues cs (ListQueue.calls N l cs).1
        = deliveredValues (ListQueue.calls N l cs).1 ++ (ListQueue.calls N l cs).2 := by
  induction cs with
  | nil => intro l; simp [ListQueue.calls, acceptedValues, deliveredValues]
  | cons c cs ih =>
    intro l
    have hstep : l ++ c.accepted (ListQueue.call N l c).1
        = (ListQueue.call N l c).1.delivered ++ (ListQueue.call N l c).2 := by
      cases c with
      | Push v =>
        by_cases h : l.length < N <;>
          simp [ListQueue.call, ListQueue.push, h, Call.accepted, Ret.delivered]
      | PushMove v =>
        by_cases h : l.length < N <;>
          simp [ListQueue.call, ListQueue.push, h, Call.accepted, Ret.delivered]
      | Pop value =>
        cases l <;> simp [ListQueue.call, ListQueue.pop, Call.accepted, Ret.delivered]
      | PopPtr =>
        cases l <;> simp [ListQueue.call, ListQueue.pop, Call.accepted, Ret.delivered]
    have := ih (ListQueue.call N l c).2
    simp only [ListQueue.calls, acceptedValues, deliveredValues]
    rw [← List.append_assoc, hstep, List.append_assoc, this, List.append_assoc]

/-- A state reached by the calls `Push(1)`, `Push(2)`, `Push(3)`, `Pop()`,
`Push(4)` on a queue of capacity 3: full, with the window wrapped. -/
theorem StaticQueue.reachable_wrapped :
    (StaticQueue.mk ![4, 2, 3] 1 1 3 : StaticQueue Nat 3).Reachable (MovedFrom.copy Nat) :=
  ⟨fun _ => 0, [Call.Push 1, Call.Push 2, Call.Push 3, Call.PopPtr, Call.PushMove 4],
    [Ret.pushed true, Ret.pushed true, Ret.pushed true, Ret.ptr (some 1), Ret.pushed true],
    by
      simp [StaticQueue.calls, StaticQueue.call, StaticQueue.Push, StaticQueue.PushMove,
        StaticQueue.PopPtr, StaticQueue.construct, MovedFrom.copy]
      funext j
      fin_cases j <;> rfl⟩

theorem StaticQueue.Iterator.SetValue_realIdElement (q : StaticQueue T SIZE)
    (it : StaticQueue.Iterator) (desired : Nat) :
    (StaticQueue.Iterator.SetValue q it desired).realIdElement_
      = (q.first_ + desired) % sizeMod % SIZE := by
  show (if (q.first_ + desired) % sizeMod ≥ SIZE then (q.first_ + desired) % sizeMod % SIZE
      else (q.first_ + desired) % sizeMod) = _
  split
  · rfl
  · rename_i h
    exact (Nat.mod_eq_of_lt (Nat.lt_of_not_ge h)).symm

theorem sizeMod_succ_pred {i : Nat} (hi : i < sizeMod) :
    ((i + 1) % sizeMod + sizeMod - 1) % sizeMod = i := by
  have h64 : sizeMod = 18446744073709551616 := by norm_num [sizeMod]
  rw [h64] at hi ⊢
  omega

theorem sizeMod_pred_succ {i : Nat} (hi : i < sizeMod) :
    ((i + sizeMod - 1) % sizeMod + 1) % sizeMod = i := by
  have h64 : sizeMod = 18446744073709551616 := by norm_num [sizeMod]
  rw [h64] at hi ⊢
  omega

theorem StaticQueue.Iterator.SetValue_aquireObject (q : StaticQueue T SIZE)
    (it : StaticQueue.Iterator) (desired : Nat) :
    (StaticQueue.Iterator.SetValue q it desired).aquireObject_ = it.aquireObject_ := rfl

theorem StaticQueue.Iterator.SetValue_desiredId (q : StaticQueue T SIZE)
    (it : StaticQueue.Iterator) (desired : Nat) :
    (StaticQueue.Iterator.SetValue q it desired).desiredId_ = desired := rfl

theorem StaticQueue.Iterator.eq_of_fields {a b : StaticQueue.Iterator}
    (h1 : a.desiredId_ = b.desiredId_) (h2 : a.realIdElement_ = b.realIdElement_)
    (h3 : a.aquireObject_ = b.aquireObject_) : a = b := by
  cases a
  cases b
  simp only at h1 h2 h3
  subst h1 h2 h3
  rfl

end Lemmas

/-! ## Auxiliary lemmas on the pool -/

section PoolLemmas

variable {R E : Type}

theorem ThreadPool.initial_queueInv (n : Nat) : (ThreadPool.initial n : ThreadPool R E).QueueInv := by
  refine ⟨StaticQueue.construct_inv (by decide) _, ?_⟩
  intro task h
  cases h

theorem ThreadPool.AsyncAdder_queueInv {s s1 : ThreadPool R E} (hs : s.QueueInv)
    (h : s.AsyncAdder = Step.next s1) : s1.QueueInv := by
  obtain ⟨hq, hroom⟩ := hs
  unfold ThreadPool.AsyncAdder at h
  split at h
  · split at h
    · split at h
      · cases h
        exact ⟨hq, fun task ht => by cases ht⟩
      · split at h
        · cases h
        · cases h
          exact ⟨hq, fun task ht => by cases ht⟩
    · cases h
  · rename_i task hpc
    split at h
    · rename_i hcmp
      cases h
      refine ⟨hq, fun _ _ => ?_⟩
      have hnf : s.queue_.Filled = false := by
        simp only [ThreadPool.compare, Bool.and_eq_true, Bool.not_eq_true'] at hcmp
        exact hcmp.2
      have hne : s.queue_.count_ ≠ 32 := by
        simpa [StaticQueue.Filled] using hnf
      have := hq.1
      show s.queue_.count_ < 32
      omega
    · cases h
  · rename_i task hpc
    have hroom' := hroom task hpc
    rw [StaticQueue.PushMove_eq_Push,
      StaticQueue.Push_eq_of_lt hroom' (hq.last_lt (by decide)) task] at h
    cases h
    exact ⟨StaticQueue.pushed_inv hq hroom' _ task, fun task ht => by cases ht⟩
  · cases h

theorem ThreadPool.Runnable_queueInv {s s1 : ThreadPool R E} (i : Nat) (hs : s.QueueInv)
    (h : s.Runnable i = Step.next s1) : s1.QueueInv := by
  obtain ⟨hq, hroom⟩ := hs
  unfold ThreadPool.Runnable at h
  split at h
  · cases h
  · split at h
    · split at h
      · cases h; exact ⟨hq, hroom⟩
      · by_cases hc : s.queue_.count_ = 0
        · rw [StaticQueue.PopPtr_eq_of_zero _ hc] at h
          cases h
          exact ⟨hq, hroom⟩
        · rw [StaticQueue.PopPtr_eq_of_ne _ hc hq.2.1] at h
          cases h
          refine ⟨StaticQueue.popped_inv (by decide) hq hc hq.2.1 _, fun task ht => ?_⟩
          have := hroom task ht
          show s.queue_.count_ - 1 < 32
          omega
    · cases h
  · cases h; exact ⟨hq, hroom⟩
  · cases h
  · split at h
    · cases h
    · cases h; exact ⟨hq, hroom⟩
  · cases h; exact ⟨hq, hroom⟩
  · cases h

theorem ThreadPool.step_queueInv {s s1 : ThreadPool R E} (a : Action R E) (hs : s.QueueInv)
    (h : s.step a = Step.next s1) : s1.QueueInv := by
  cases a with
  | AddTask callable =>
    simp only [ThreadPool.step, ThreadPool.AddTask] at h
    split at h
    · cases h
    · rename_i heq
      split at heq
      · cases heq; cases h; exact hs
      · cases heq
  | AsyncAdder => exact ThreadPool.AsyncAdder_queueInv hs h
  | Runnable i => exact ThreadPool.Runnable_queueInv i hs h
  | destructor =>
    simp only [ThreadPool.step, ThreadPool.destructor] at h
    split at h
    · cases h; exact hs
    · cases h; exact hs
    · cases h; exact hs
    · split at h
      · cases h
        exact ⟨StaticQueue.construct_inv (by decide) _, fun _ _ => Nat.zero_lt_succ 31⟩
      · cases h
    · cases h

theorem ThreadPool.run_cons_of_next {s s1 : ThreadPool R E} {a : Action R E}
    (acts : List (Action R E)) (h : s.step a = Step.next s1) :
    s.run (a :: acts) = s1.run acts := by
  simp [ThreadPool.run, h]

/-- An execution that takes `a` first takes it to some state and goes on from
there. -/
theorem ThreadPool.run_cons_eq_some {s s2 : ThreadPool R E} {a : Action R E}
    {acts : List (Action R E)} (h : s.run (a :: acts) = some s2) :
    ∃ s1, s.step a = Step.next s1 ∧ s1.run acts = some s2 := by
  simp only [ThreadPool.run] at h
  split at h
  · rename_i s1 hstep
    exact ⟨s1, hstep, h⟩
  · cases h

theorem ThreadPool.run_queueInv (acts : List (Action R E)) :
    ∀ {s s1 : ThreadPool R E}, s.QueueInv → s.run acts = some s1 → s1.QueueInv := by
  induction acts with
  | nil => intro s s1 hs h; cases h; exact hs
  | cons a acts ih =>
    intro s s1 hs h
    obtain ⟨s', hstep, hrest⟩ := ThreadPool.run_cons_eq_some h
    exact ih (ThreadPool.step_queueInv a hs hstep) hrest

theorem ThreadPool.ReachableFrom.queueInv {n : Nat} {s : ThreadPool R E}
    (h : s.ReachableFrom n) : s.QueueInv := by
  obtain ⟨acts, hrun⟩ := h
  exact ThreadPool.run_queueInv acts (ThreadPool.initial_queueInv n) hrun

/-- A step taken before the destructor is entered and while the gate is closed
for `task` (the `AsyncAdder` thread does not hold it in front of an open gate)
leaves `task` in the admission stage. -/
theorem ThreadPool.step_awaitsAdmission {s s1 : ThreadPool R E} {a : Action R E}
    {task : PackagedTask R E} (h : s.step a = Step.next s1)
    (halive : s.owner = OwnerState.alive) (ht : s.AwaitsAdmission task)
    (hgate : s.asyncAdderWaiter_ = AdderState.waitingForCapacity task → s.compare = false) :
    s1.AwaitsAdmission task := by
  cases a with
  | AddTask callable =>
    simp only [ThreadPool.step, ThreadPool.AddTask] at h
    split at h
    · cases h
    · rename_i heq
      split at heq
      · cases heq; cases h
        rcases ht with ht | ht
        · exact Or.inl (List.mem_append_left _ ht)
        · exact Or.inr ht
      · cases heq
  | AsyncAdder =>
    simp only [ThreadPool.step] at h
    unfold ThreadPool.AsyncAdder at h
    split at h
    · rename_i hpc
      have hconv : task ∈ s.conveyer_ := by
        rcases ht with ht | ht
        · exact ht
        · rw [hpc] at ht; cases ht
      split at h
      · split at h
        · cases h
          exact Or.inl hconv
        · split at h
          · cases h
          · rename_i front rest hfront
            cases h
            rw [hfront] at hconv
            rcases List.mem_cons.1 hconv with hm | hm
            · exact Or.inr (by rw [hm])
            · exact Or.inl hm
      · cases h
    · rename_i held hpc
      split at h
      · rename_i hcmp
        cases h
        rcases ht with ht | ht
        · exact Or.inl ht
        · rw [hpc] at ht
          have := hgate (by rw [hpc, ht])
          rw [this] at hcmp
          cases hcmp
      · cases h
    · rename_i held hpc
      have hconv : task ∈ s.conveyer_ := by
        rcases ht with ht | ht
        · exact ht
        · rw [hpc] at ht; cases ht
      split at h
      · cases h
      · cases h
        exact Or.inl hconv
    · cases h
  | Runnable i =>
    simp only [ThreadPool.step] at h
    unfold ThreadPool.Runnable at h
    split at h
    · cases h
    · split at h
      · split at h
        · cases h; exact ht
        · split at h
          · cases h
          · cases h; exact ht
      · cases h
    · cases h; exact ht
    · cases h
    · split at h
      · cases h
      · cases h; exact ht
    · cases h; exact ht
    · cases h
  | destructor =>
    simp only [ThreadPool.step, ThreadPool.destructor, halive] at h
    cases h
    exact ht

/-- The owner of a pool does not come back to life. -/
theorem ThreadPool.step_owner_alive {s s1 : ThreadPool R E} {a : Action R E}
    (h : s.step a = Step.next s1) (halive : s1.owner = OwnerState.alive) :
    s.owner = OwnerState.alive := by
  cases a with
  | AddTask callable =>
    simp only [ThreadPool.step, ThreadPool.AddTask] at h
    split at h
    · cases h
    · rename_i heq
      split at heq
      · rename_i ho
        exact ho
      · cases heq
  | AsyncAdder =>
    simp only [ThreadPool.step] at h
    unfold ThreadPool.AsyncAdder at h
    split at h
    · split at h
      · split at h
        · cases h; exact halive
        · split at h
          · cases h
          · cases h; exact halive
      · cases h
    · split at h
      · cases h; exact halive
      · cases h
    · split at h
      · cases h
      · cases h; exact halive
    · cases h
  | Runnable i =>
    simp only [ThreadPool.step] at h
    unfold ThreadPool.Runnable at h
    split at h
    · cases h
    · split at h
      · split at h
        · cases h; exact halive
        · split at h
          · cases h
          · cases h; exact halive
      · cases h
    · cases h; exact halive
    · cases h
    · split at h
      · cases h
      · cases h; exact halive
    · cases h; exact halive
    · cases h
  | destructor =>
    simp only [ThreadPool.step, ThreadPool.destructor] at h
    split at h
    · cases h; cases halive
    · cases h; cases halive
    · cases h; cases halive
    · split at h
      · cases h; cases halive
      · cases h
    · cases h

theorem ThreadPool.run_owner_alive (acts : List (Action R E)) :
    ∀ {s s1 : ThreadPool R E}, s.run acts = some s1 → s1.owner = OwnerState.alive →
      s.owner = OwnerState.alive := by
  induction acts with
  | nil => intro s s1 h ha; cases h; exact ha
  | cons a acts ih =>
    intro s s1 h ha
    obtain ⟨s', hstep, hrest⟩ := ThreadPool.run_cons_eq_some h
    exact ThreadPool.step_owner_alive hstep (ih hrest ha)

/-- A task that is in the admission stage before an execution and not after it,
the destructor not being entered, was at some point of the execution in the
hand of the `AsyncAdder` thread in front of an open gate. -/
theorem ThreadPool.run_leaves_admission (acts : List (Action R E)) :
    ∀ {s s1 : ThreadPool R E} {task : PackagedTask R E}, s.run acts = some s1 →
      s1.owner = OwnerState.alive →
      s.AwaitsAdmission task → ¬ s1.AwaitsAdmission task →
      ∃ (pre post : List (Action R E)) (mid : ThreadPool R E),
        acts = pre ++ post ∧ s.run pre = some mid
        ∧ mid.asyncAdderWaiter_ = AdderState.waitingForCapacity task
        ∧ mid.compare = true := by
  induction acts with
  | nil =>
    intro s s1 task h _ ht hnot
    cases h
    exact absurd ht hnot
  | cons a acts ih =>
    intro s s1 task h halive ht hnot
    obtain ⟨s', hstep, hrest⟩ := ThreadPool.run_cons_eq_some h
    have halive' := ThreadPool.run_owner_alive acts hrest halive
    have halive0 := ThreadPool.step_owner_alive hstep halive'
    by_cases hopen : s.asyncAdderWaiter_ = AdderState.waitingForCapacity task
        ∧ s.compare = true
    · exact ⟨[], a :: acts, s, rfl, rfl, hopen.1, hopen.2⟩
    · have hgate : s.asyncAdderWaiter_ = AdderState.waitingForCapacity task
          → s.compare = false := by
        intro hpc
        cases hc : s.compare
        · rfl
        · exact absurd ⟨hpc, hc⟩ hopen
      have ht' := ThreadPool.step_awaitsAdmission hstep halive0 ht hgate
      obtain ⟨pre, post, mid, hsplit, hpre, hpc, hcmp⟩ := ih hrest halive ht' hnot
      refine ⟨a :: pre, post, mid, by rw [hsplit]; rfl, ?_, hpc, hcmp⟩
      rw [ThreadPool.run_cons_of_next pre hstep]
      exact hpre

theorem sum_map_set {α : Type} (g : α → Nat) (x a : α) :
    ∀ (l : List α) (i : Nat), l.get? i = some a →
      ((l.set i x).map g).sum + g a = (l.map g).sum + g x := by
  intro l
  induction l with
  | nil => intro i h; cases h
  | cons b l ih =>
    intro i h
    cases i with
    | zero =>
      simp only [List.get?_cons_zero, Option.some.injEq] at h
      subst h
      simp only [List.set_cons_zero, List.map_cons, List.sum_cons]
      omega
    | succ i =>
      simp only [List.get?_cons_succ] at h
      have := ih i h
      simp only [List.set_cons_succ, List.map_cons, List.sum_cons]
      omega

theorem any_fst_eq_false_iff (l : List (Nat × Except E R)) (h : Nat) :
    l.any (fun p => p.1 == h) = false ↔ (l.map Prod.fst).count h = 0 := by
  induction l with
  | nil => simp
  | cons p l ih =>
    simp only [List.any_cons, Bool.or_eq_false_iff, List.map_cons, List.count_cons]
    rw [ih]
    by_cases hp : p.1 = h
    · simp [hp]
    · simp [hp]

theorem ThreadPool.initial_handlesInv (n : Nat) :
    (ThreadPool.initial n : ThreadPool R E).HandlesInv := by
  refine ⟨StaticQueue.construct_inv (by decide) _, fun h => ?_⟩
  have hz : (ThreadPool.initial n : ThreadPool R E).occ h = 0 := by
    simp only [ThreadPool.occ, ThreadPool.initial, StaticQueue.construct_contents,
      AdderState.occ, List.map_nil, List.sum_nil, List.count_nil, List.map_replicate,
      WorkerState.occ]
    simp
  rw [hz]
  exact ⟨Nat.zero_le _, fun _ => rfl⟩

theorem ThreadPool.AsyncAdder_occ {s s1 : ThreadPool R E} (hq : s.queue_.Inv)
    (h : s.AsyncAdder = Step.next s1) :
    s1.queue_.Inv ∧ s1.nextHandle = s.nextHandle ∧ ∀ k, s1.occ k ≤ s.occ k := by
  unfold ThreadPool.AsyncAdder at h
  split at h
  · rename_i hpc
    split at h
    · split at h
      · cases h
        refine ⟨hq, rfl, fun k => ?_⟩
        simp only [ThreadPool.occ, hpc, AdderState.occ]
        exact Nat.le_refl _
      · split at h
        · cases h
        · rename_i front rest hfront
          cases h
          refine ⟨hq, rfl, fun k => ?_⟩
          simp only [ThreadPool.occ, hpc, hfront, AdderState.occ, List.map_cons, List.sum_cons]
          omega
    · cases h
  · rename_i held hpc
    split at h
    · cases h
      refine ⟨hq, rfl, fun k => ?_⟩
      simp only [ThreadPool.occ, hpc, AdderState.occ]
      exact Nat.le_refl _
    · cases h
  · rename_i held hpc
    by_cases hroom : s.queue_.count_ < 32
    · have hl := hq.last_lt (by decide)
      rw [StaticQueue.PushMove_eq_Push, StaticQueue.Push_eq_of_lt hroom hl held] at h
      cases h
      refine ⟨StaticQueue.pushed_inv hq hroom hl held, rfl, fun k => ?_⟩
      simp only [ThreadPool.occ, hpc, AdderState.occ,
        StaticQueue.pushed_contents (by decide) hq hroom hl held, List.map_append,
        List.sum_append, List.map_cons, List.map_nil, List.sum_cons, List.sum_nil]
      omega
    · rw [StaticQueue.PushMove_eq_Push, StaticQueue.Push_eq_of_full hroom held] at h
      cases h
      refine ⟨hq, rfl, fun k => ?_⟩
      simp only [ThreadPool.occ, hpc, AdderState.occ]
      omega
  · cases h

theorem ThreadPool.Runnable_occ {s s1 : ThreadPool R E} (i : Nat) (hq : s.queue_.Inv)
    (h : s.Runnable i = Step.next s1) :
    s1.queue_.Inv ∧ s1.nextHandle = s.nextHandle ∧ ∀ k, s1.occ k ≤ s.occ k := by
  unfold ThreadPool.Runnable at h
  split at h
  · cases h
  · rename_i hpc
    split at h
    · split at h
      · cases h
        refine ⟨hq, rfl, fun k => ?_⟩
        have := sum_map_set (WorkerState.occ k) WorkerState.terminated _ s.threads_ i hpc
        simp only [ThreadPool.occ, WorkerState.occ] at this ⊢
        omega
      · by_cases hc : s.queue_.count_ = 0
        · rw [StaticQueue.PopPtr_eq_of_zero _ hc] at h
          cases h
          refine ⟨hq, rfl, fun k => ?_⟩
          have := sum_map_set (WorkerState.occ k) (WorkerState.markingBusy none) _
            s.threads_ i hpc
          simp only [ThreadPool.occ, WorkerState.occ] at this ⊢
          omega
        · rw [StaticQueue.PopPtr_eq_of_ne _ hc hq.2.1] at h
          cases h
          refine ⟨StaticQueue.popped_inv (by decide) hq hc hq.2.1 _, rfl, fun k => ?_⟩
          have := sum_map_set (WorkerState.occ k)
            (WorkerState.markingBusy (some (s.queue_.internalArray_ ⟨s.queue_.first_, hq.2.1⟩)))
            _ s.threads_ i hpc
          have hcont := StaticQueue.popped_contents (by decide) hq hc hq.2.1
            (PackagedTask.movedFrom R E).constructed
          simp only [ThreadPool.occ, WorkerState.occ, hcont, List.map_cons,
            List.sum_cons] at this ⊢
          omega
    · cases h
  · rename_i task hpc
    cases h
    refine ⟨hq, rfl, fun k => ?_⟩
    have := sum_map_set (WorkerState.occ k) (WorkerState.executing task) _ s.threads_ i hpc
    cases task with
    | none =>
      simp only [ThreadPool.occ, WorkerState.occ] at this ⊢
      omega
    | some t =>
      simp only [ThreadPool.occ, WorkerState.occ] at this ⊢
      omega
  · cases h
  · rename_i task hpc
    split at h
    · cases h
    · rename_i states hinv
      cases h
      refine ⟨hq, rfl, fun k => ?_⟩
      have := sum_map_set (WorkerState.occ k) WorkerState.markingReady _ s.threads_ i hpc
      cases task with
      | empty => cases hinv
      | bound handle callable =>
        simp only [PackagedTask.invoke] at hinv
        split at hinv
        · cases hinv
        · cases hinv
          simp only [ThreadPool.occ, WorkerState.occ, PackagedTask.occ, PackagedTask.handles,
            List.map_append, List.map_cons, List.map_nil, List.count_append] at this ⊢
          omega
  · rename_i hpc
    cases h
    refine ⟨hq, rfl, fun k => ?_⟩
    have := sum_map_set (WorkerState.occ k) WorkerState.waitingForTask _ s.threads_ i hpc
    simp only [ThreadPool.occ, WorkerState.occ] at this ⊢
    omega
  · cases h

theorem ThreadPool.step_handlesInv {s s1 : ThreadPool R E} (a : Action R E)
    (hs : s.HandlesInv) (h : s.step a = Step.next s1) : s1.HandlesInv := by
  obtain ⟨hq, hocc⟩ := hs
  have hle : ∀ {s2 : ThreadPool R E}, (s2.queue_.Inv ∧ s2.nextHandle = s.nextHandle
      ∧ ∀ k, s2.occ k ≤ s.occ k) → s2.HandlesInv := by
    intro s2 h2
    refine ⟨h2.1, fun k => ?_⟩
    have h3 := h2.2.2 k
    have h4 := hocc k
    rw [h2.2.1]
    exact ⟨by omega, fun hk => by have := h4.2 hk; omega⟩
  cases a with
  | AddTask callable =>
    simp only [ThreadPool.step, ThreadPool.AddTask] at h
    split at h
    · cases h
    · rename_i heq
      split at heq
      · cases heq; cases h
        refine ⟨hq, fun k => ?_⟩
        have h4 := hocc k
        have hk : ({ s with conveyer_ := s.conveyer_ ++ [PackagedTask.bound s.nextHandle callable]
                            nextHandle := s.nextHandle + 1 } : ThreadPool R E).occ k
            = s.occ k + [s.nextHandle].count k := by
          simp only [ThreadPool.occ, List.map_append, List.sum_append, List.map_cons,
            List.map_nil, List.sum_cons, List.sum_nil, PackagedTask.occ, PackagedTask.handles]
          omega
        rw [hk]
        show s.occ k + [s.nextHandle].count k ≤ 1
          ∧ (s.nextHandle + 1 ≤ k → s.occ k + [s.nextHandle].count k = 0)
        by_cases hkn : s.nextHandle = k
        · subst hkn
          have := h4.2 (Nat.le_refl _)
          simp [this]
        · have hc : [s.nextHandle].count k = 0 :=
            List.count_eq_zero_of_not_mem (fun hm => hkn (List.mem_singleton.1 hm).symm)
          rw [hc]
          exact ⟨h4.1, fun hk => h4.2 (by omega)⟩
      · cases heq
  | AsyncAdder => exact hle (ThreadPool.AsyncAdder_occ hq h)
  | Runnable i => exact hle (ThreadPool.Runnable_occ i hq h)
  | destructor =>
    simp only [ThreadPool.step, ThreadPool.destructor] at h
    split at h
    · cases h; exact ⟨hq, hocc⟩
    · cases h; exact ⟨hq, hocc⟩
    · cases h
      refine hle ⟨hq, rfl, fun k => ?_⟩
      simp only [ThreadPool.occ, List.map_nil, List.sum_nil]
      omega
    · split at h
      · cases h
        refine hle ⟨StaticQueue.construct_inv (by decide) _, rfl, fun k => ?_⟩
        simp only [ThreadPool.occ, StaticQueue.construct_contents, List.map_nil, List.sum_nil]
        omega
      · cases h
    · cases h

theorem ThreadPool.run_handlesInv (acts : List (Action R E)) :
    ∀ {s s1 : ThreadPool R E}, s.HandlesInv → s.run acts = some s1 → s1.HandlesInv := by
  induction acts with
  | nil => intro s s1 hs h; cases h; exact hs
  | cons a acts ih =>
    intro s s1 hs h
    obtain ⟨s', hstep, hrest⟩ := ThreadPool.run_cons_eq_some h
    exact ih (ThreadPool.step_handlesInv a hs hstep) hrest

/-- In a reachable state the shared state of a task that a worker is about to
invoke has not been made ready. -/
theorem ThreadPool.ReachableFrom.not_ready {n : Nat} {s : ThreadPool R E}
    (hreach : s.ReachableFrom n) {i handle : Nat} {callable : Except E R}
    (hpc : s.threads_.get? i
      = some (WorkerState.executing (some (PackagedTask.bound handle callable)))) :
    s.sharedStates.any (fun p => p.1 == handle) = false := by
  obtain ⟨acts, hrun⟩ := hreach
  have hinv := ThreadPool.run_handlesInv acts (ThreadPool.initial_handlesInv n) hrun
  have h1 := (hinv.2 handle).1
  have := sum_map_set (WorkerState.occ handle) WorkerState.markingReady _ s.threads_ i hpc
  rw [any_fst_eq_false_iff]
  simp only [ThreadPool.occ, WorkerState.occ, PackagedTask.occ, PackagedTask.handles,
    List.count_singleton_self] at this h1
  omega

theorem mem_assignFlag (id : Nat) (value : Bool) :
    ∀ flags : List (Nat × Bool), (id, value) ∈ assignFlag id value flags := by
  intro flags
  induction flags with
  | nil => simp [assignFlag]
  | cons p rest ih =>
    obtain ⟨k, b⟩ := p
    simp only [assignFlag]
    split
    · exact List.mem_cons_self _ _
    · exact List.mem_cons_of_mem _ ih

theorem get?_set_self {α : Type} (x : α) :
    ∀ (l : List α) (i : Nat) (a : α), l.get? i = some a → (l.set i x).get? i = some x := by
  intro l
  induction l with
  | nil => intro i a h; cases h
  | cons b l ih =>
    intro i a h
    cases i with
    | zero => rfl
    | succ i =>
      simp only [List.get?_cons_succ] at h
      simpa using ih i a h

theorem ThreadPool.initial_zero_idle : (ThreadPool.initial 0 : ThreadPool R E).Idle :=
  ⟨rfl, rfl, rfl, rfl, fun _ h => by cases h⟩

theorem ThreadPool.step_idle {s s1 : ThreadPool R E} (a : Action R E) (hs : s.Idle)
    (h : s.step a = Step.next s1) : s1.Idle := by
  obtain ⟨ht, hf, hc, hr, hpc⟩ := hs
  cases a with
  | AddTask callable =>
    simp only [ThreadPool.step, ThreadPool.AddTask] at h
    split at h
    · cases h
    · rename_i heq
      split at heq
      · cases heq; cases h; exact ⟨ht, hf, hc, hr, hpc⟩
      · cases heq
  | AsyncAdder =>
    simp only [ThreadPool.step] at h
    unfold ThreadPool.AsyncAdder at h
    split at h
    · split at h
      · split at h
        · cases h
          exact ⟨ht, hf, hc, hr, fun _ h => by cases h⟩
        · split at h
          · cases h
          · cases h
            exact ⟨ht, hf, hc, hr, fun _ h => by cases h⟩
      · cases h
    · split at h
      · rename_i hcmp
        simp [ThreadPool.compare, hf] at hcmp
      · cases h
    · rename_i held hheld
      exact absurd hheld (hpc held)
    · cases h
  | Runnable i =>
    simp only [ThreadPool.step, ThreadPool.Runnable, ht, List.get?_nil] at h
    cases h
  | destructor =>
    simp only [ThreadPool.step, ThreadPool.destructor] at h
    split at h
    · cases h; exact ⟨ht, hf, hc, hr, hpc⟩
    · cases h; exact ⟨ht, hf, hc, hr, hpc⟩
    · cases h; exact ⟨ht, rfl, hc, hr, hpc⟩
    · split at h
      · rename_i hterm
        cases h
        exact ⟨ht, hf, rfl, hr, fun task hh => hpc task hh⟩
      · cases h
    · cases h

theorem ThreadPool.run_idle (acts : List (Action R E)) :
    ∀ {s s1 : ThreadPool R E}, s.Idle → s.run acts = some s1 → s1.Idle := by
  induction acts with
  | nil => intro s s1 hs h; cases h; exact hs
  | cons a acts ih =>
    intro s s1 hs h
    obtain ⟨s', hstep, hrest⟩ := ThreadPool.run_cons_eq_some h
    exact ih (ThreadPool.step_idle a hs hstep) hrest

/-- The predicate `compare` spelled out: some entry of `readyFlags_` is true
and `queue_` does not hold 32 tasks. -/
theorem ThreadPool.compare_eq_true_iff (s : ThreadPool R E) :
    s.compare = true ↔ (∃ p ∈ s.readyFlags_, p.2 = true) ∧ s.queue_.Size ≠ 32 := by
  simp only [ThreadPool.compare, StaticQueue.Filled, StaticQueue.Size, Bool.and_eq_true,
    List.any_eq_true, Bool.not_eq_true', beq_eq_false_iff_ne, ne_eq]

theorem ThreadPool.compare_eq_false_iff (s : ThreadPool R E) :
    s.compare = false ↔ (∀ p ∈ s.readyFlags_, p.2 = false) ∨ s.queue_.Size = 32 := by
  rw [← Bool.not_eq_true, ThreadPool.compare_eq_true_iff]
  constructor
  · intro h
    by_cases hfull : s.queue_.Size = 32
    · exact Or.inr hfull
    · left
      intro p hp
      cases hb : p.2
      · rfl
      · exact absurd ⟨⟨p, hp, hb⟩, hfull⟩ h
  · rintro (h | h) ⟨⟨p, hp, hb⟩, hfull⟩
    · rw [h p hp] at hb
      cases hb
    · exact hfull h

theorem ThreadPool.run_append (acts1 acts2 : List (Action R E)) :
    ∀ {s s1 : ThreadPool R E}, s.run acts1 = some s1 →
      s.run (acts1 ++ acts2) = s1.run acts2 := by
  induction acts1 with
  | nil => intro s s1 h; cases h; rfl
  | cons a acts1 ih =>
    intro s s1 h
    obtain ⟨s', hstep, hrest⟩ := ThreadPool.run_cons_eq_some h
    rw [List.cons_append, ThreadPool.run_cons_of_next _ hstep]
    exact ih hrest

/-- An execution from a reachable state leads to a reachable state. -/
theorem ThreadPool.ReachableFrom.run {n : Nat} {s s1 : ThreadPool R E}
    (hreach : s.ReachableFrom n) (acts : List (Action R E)) (h : s.run acts = some s1) :
    s1.ReachableFrom n := by
  obtain ⟨acts0, h0⟩ := hreach
  exact ⟨acts0 ++ acts, by rw [ThreadPool.run_append acts0 acts h0]; exact h⟩

/-- Every step of the test is one of the eight moves. -/
theorem ThreadPool.testStep_moves {tasks : Nat} {s s1 : ThreadPool Nat E} {c : Choice}
    (hq : s.QueueInv) (hexit : s.exitflag_ = false)
    (hadd : s.doAdd_ = true) (h : s.testStep tasks c = Step.next s1) :
    ThreadPool.Moves tasks s s1 := by
  cases c with
  | submit =>
    simp only [ThreadPool.testStep] at h
    split at h
    · rename_i hlt
      simp only [ThreadPool.step, ThreadPool.AddTask] at h
      split at h
      · cases h
      · rename_i heq
        split at heq
        · cases heq
          cases h
          exact ThreadPool.Moves.submit hlt
        · cases heq
    · cases h
  | AsyncAdder =>
    simp only [ThreadPool.testStep, ThreadPool.step] at h
    unfold ThreadPool.AsyncAdder at h
    split at h
    · rename_i hpc
      split at h
      · split at h
        · rename_i hfalse
          rw [hadd] at hfalse
          cases hfalse
        · split at h
          · cases h
          · rename_i task rest hconv
            cases h
            exact ThreadPool.Moves.take task rest hpc hconv
      · cases h
    · rename_i task hpc
      split at h
      · rename_i hcmp
        cases h
        exact ThreadPool.Moves.pass task hpc hcmp
      · cases h
    · rename_i task hpc
      have hroom := hq.2 task hpc
      have hl := hq.1.last_lt (by decide)
      rw [StaticQueue.PushMove_eq_Push, StaticQueue.Push_eq_of_lt hroom hl task] at h
      cases h
      exact ThreadPool.Moves.push task hl hpc hroom
    · cases h
  | Runnable i =>
    simp only [ThreadPool.testStep, ThreadPool.step] at h
    unfold ThreadPool.Runnable at h
    split at h
    · cases h
    · rename_i hpc
      split at h
      · rename_i hguard
        split at h
        · rename_i htrue
          rw [hexit] at htrue
          cases htrue
        · have hc : s.queue_.count_ ≠ 0 := by
            simpa [StaticQueue.Empty, hexit] using hguard
          rw [StaticQueue.PopPtr_eq_of_ne _ hc hq.1.2.1] at h
          cases h
          exact ThreadPool.Moves.pop i hq.1.2.1 hpc hc
      · cases h
    · rename_i task hpc
      cases h
      exact ThreadPool.Moves.markBusy i task hpc
    · cases h
    · rename_i task hpc
      split at h
      · cases h
      · rename_i states hinv
        cases h
        cases task with
        | empty => cases hinv
        | bound handle callable =>
          simp only [PackagedTask.invoke] at hinv
          split at hinv
          · cases hinv
          · rename_i hfresh
            cases hinv
            exact ThreadPool.Moves.call i handle callable hpc (Bool.eq_false_iff.2 hfresh)
    · rename_i hpc
      cases h
      exact ThreadPool.Moves.markReady i hpc
    · cases h

theorem get?_set_eq {α : Type} (x a : α) :
    ∀ (l : List α) (i j : Nat), l.get? i = some a →
      (l.set i x).get? j = if j = i then some x else l.get? j := by
  intro l
  induction l with
  | nil => intro i j h; cases h
  | cons b l ih =>
    intro i j h
    cases i with
    | zero =>
      cases j with
      | zero => rfl
      | succ j => simp
    | succ i =>
      cases j with
      | zero => simp
      | succ j =>
        simp only [List.get?_cons_succ] at h
        simpa using ih i j h

theorem mem_assignFlag_of_ne {id j : Nat} (value b : Bool) (hne : j ≠ id) :
    ∀ flags : List (Nat × Bool), (j, b) ∈ flags → (j, b) ∈ assignFlag id value flags := by
  intro flags
  induction flags with
  | nil => intro h; cases h
  | cons p rest ih =>
    obtain ⟨k, c⟩ := p
    intro h
    simp only [assignFlag]
    split
    · rename_i hk
      rcases List.mem_cons.1 h with h | h
      · cases h
        exact absurd hk hne
      · exact List.mem_cons_of_mem _ h
    · rcases List.mem_cons.1 h with h | h
      · rw [h]
        exact List.mem_cons_self _ _
      · exact List.mem_cons_of_mem _ (ih h)

/-- A step of the test is a step of the pool. -/
theorem ThreadPool.testStep_eq_step {tasks : Nat} {s s1 : ThreadPool Nat E} {c : Choice}
    (h : s.testStep tasks c = Step.next s1) : ∃ a, s.step a = Step.next s1 := by
  cases c with
  | submit =>
    simp only [ThreadPool.testStep] at h
    split at h
    · exact ⟨_, h⟩
    · cases h
  | AsyncAdder => exact ⟨Action.AsyncAdder, h⟩
  | Runnable i => exact ⟨Action.Runnable i, h⟩

theorem get?_set_cases {α : Type} {l : List α} {i j : Nat} {a x y : α}
    (hi : l.get? i = some a) (h : (l.set i x).get? j = some y) :
    (j = i ∧ y = x) ∨ (j ≠ i ∧ l.get? j = some y) := by
  rw [get?_set_eq x a l i j hi] at h
  split at h
  · rename_i hji
    cases h
    exact Or.inl ⟨hji, rfl⟩
  · rename_i hji
    exact Or.inr ⟨hji, h⟩

/-- A move of a thread of the pool keeps every shared state where it is or
takes it to the next place: the number of its occurrences does not change. -/
theorem ThreadPool.Moves.occ_eq {tasks : Nat} {s s1 : ThreadPool Nat E}
    (hq : s.queue_.Inv) (hm : ThreadPool.Moves tasks s s1)
    (hsame : s1.nextHandle = s.nextHandle) (k : Nat) : s1.occ k = s.occ k := by
  cases hm with
  | submit hlt =>
    exfalso
    have : s.nextHandle + 1 = s.nextHandle := hsame
    omega
  | take task rest hpc hconv =>
    simp only [ThreadPool.occ, hpc, hconv, AdderState.occ, List.map_cons, List.sum_cons]
    omega
  | pass task hpc hcmp =>
    simp only [ThreadPool.occ, hpc, AdderState.occ]
  | push task hl hpc hroom =>
    simp only [ThreadPool.occ, hpc, AdderState.occ,
      StaticQueue.pushed_contents (by decide) hq hroom hl task, List.map_append,
      List.sum_append, List.map_cons, List.map_nil, List.sum_cons, List.sum_nil]
    omega
  | pop i hf hpc hc =>
    have := sum_map_set (WorkerState.occ k)
      (WorkerState.markingBusy (some (s.queue_.internalArray_ ⟨s.queue_.first_, hf⟩)))
      _ s.threads_ i hpc
    have hcont := StaticQueue.popped_contents (by decide) hq hc hf
      (PackagedTask.movedFrom Nat E).constructed
    simp only [ThreadPool.occ, WorkerState.occ, hcont, List.map_cons, List.sum_cons] at this ⊢
    omega
  | markBusy i task hpc =>
    have := sum_map_set (WorkerState.occ k) (WorkerState.executing task) _ s.threads_ i hpc
    cases task with
    | none =>
      simp only [ThreadPool.occ, WorkerState.occ] at this ⊢
      omega
    | some t =>
      simp only [ThreadPool.occ, WorkerState.occ] at this ⊢
      omega
  | call i handle callable hpc hfresh =>
    have := sum_map_set (WorkerState.occ k) WorkerState.markingReady _ s.threads_ i hpc
    simp only [ThreadPool.occ, WorkerState.occ, PackagedTask.occ, PackagedTask.handles,
      List.map_append, List.map_cons, List.map_nil, List.count_append] at this ⊢
    omega
  | markReady i hpc =>
    have := sum_map_set (WorkerState.occ k) WorkerState.waitingForTask _ s.threads_ i hpc
    simp only [ThreadPool.occ, WorkerState.occ] at this ⊢
    omega

theorem ThreadPool.TestInv.initial (n tasks : Nat) :
    (ThreadPool.initial n : ThreadPool Nat E).TestInv n tasks := by
  have hthreads : ∀ i pc, (ThreadPool.initial n : ThreadPool Nat E).threads_.get? i = some pc →
      i < n ∧ pc = WorkerState.waitingForTask := by
    intro i pc h
    have h' : (List.replicate n (WorkerState.waitingForTask : WorkerState Nat E)).get? i
        = some pc := h
    rw [List.get?_eq_some] at h'
    obtain ⟨hi, hget⟩ := h'
    simp only [List.length_replicate] at hi
    refine ⟨hi, ?_⟩
    rw [← hget]
    simp
  have hflags : ∀ m i, i < m →
      (i, true) ∈ (List.range m).foldl (fun flags i => assignFlag i true flags) [] := by
    intro m
    induction m with
    | zero => intro i hi; omega
    | succ m ih =>
      intro i hi
      rw [List.range_succ, List.foldl_append]
      simp only [List.foldl_cons, List.foldl_nil]
      by_cases him : i = m
      · subst him
        exact mem_assignFlag i true _
      · exact mem_assignFlag_of_ne true true him _ (ih i (by omega))
  exact
    { queue := ThreadPool.initial_queueInv n
      alive := rfl
      exitflag := rfl
      doAdd := rfl
      adder := fun h => by cases h
      workers := fun i h => by
        have := (hthreads i _ h).2
        cases this
      count := List.length_replicate _ _
      flags := fun i h => by
        have hi : i < n := by
          rcases h with h | ⟨task, h⟩
          · exact (hthreads i _ h).1
          · exact (hthreads i _ h).1
        exact hflags n i hi
      conveyer := fun task h => by cases h
      hand := fun task h => by
        rcases h with h | h <;> cases h
      queued := fun task h => by
        rw [show (ThreadPool.initial n : ThreadPool Nat E).queue_.contents (by decide) = []
          from StaticQueue.construct_contents _ _] at h
        cases h
      popped := fun i x h => by
        rcases h with h | h
        · have := (hthreads i _ h).2
          cases this
        · have := (hthreads i _ h).2
          cases this
      ready := fun p h => by cases h
      once := fun h => by
        have hz := ((ThreadPool.initial_handlesInv n : (ThreadPool.initial n :
          ThreadPool Nat E).HandlesInv).2 h).2 (Nat.zero_le _)
        rw [hz]
        simp [ThreadPool.initial]
      submitted := Nat.zero_le _ }

/-- Every step of the test keeps what holds throughout the test. -/
theorem ThreadPool.TestInv.next {n tasks : Nat} {s s1 : ThreadPool Nat E} {c : Choice}
    (hs : s.TestInv n tasks) (h : s.testStep tasks c = Step.next s1) :
    s1.TestInv n tasks := by
  obtain ⟨a, hstep⟩ := ThreadPool.testStep_eq_step h
  have hq1 := ThreadPool.step_queueInv a hs.queue hstep
  have hm := ThreadPool.testStep_moves hs.queue hs.exitflag hs.doAdd h
  have hS : 0 < 32 := by decide
  have hocc : s1.nextHandle = s.nextHandle →
      ∀ k, s1.occ k = if k < s1.nextHandle then 1 else 0 := by
    intro hsame k
    rw [ThreadPool.Moves.occ_eq hs.queue.1 hm hsame k, hsame]
    exact hs.once k
  cases hm with
  | submit hlt =>
    exact
      { queue := hq1, alive := hs.alive, exitflag := hs.exitflag, doAdd := hs.doAdd
        adder := hs.adder, workers := hs.workers, count := hs.count, flags := hs.flags
        conveyer := fun task ht => by
          rcases List.mem_append.1 ht with ht | ht
          · exact hs.conveyer task ht
          · rw [List.mem_singleton.1 ht]
            exact ⟨s.nextHandle, rfl⟩
        hand := hs.hand, queued := hs.queued, popped := hs.popped, ready := hs.ready
        once := fun k => by
          have h4 := hs.once k
          have hk : ({ s with
              conveyer_ := s.conveyer_
                ++ [PackagedTask.bound s.nextHandle (Except.ok s.nextHandle)]
              nextHandle := s.nextHandle + 1 } : ThreadPool Nat E).occ k
              = s.occ k + [s.nextHandle].count k := by
            simp only [ThreadPool.occ, List.map_append, List.sum_append, List.map_cons,
              List.map_nil, List.sum_cons, List.sum_nil, PackagedTask.occ,
              PackagedTask.handles]
            omega
          rw [hk, h4]
          show _ = if k < s.nextHandle + 1 then 1 else 0
          by_cases hkn : s.nextHandle = k
          · subst hkn
            simp
          · have hc : [s.nextHandle].count k = 0 :=
              List.count_eq_zero_of_not_mem (fun hm => hkn (List.mem_singleton.1 hm).symm)
            rw [hc]
            by_cases hlt' : k < s.nextHandle
            · simp [hlt', Nat.lt_succ_of_lt hlt']
            · have : ¬ k < s.nextHandle + 1 := by omega
              simp [hlt', this]
        submitted := hlt }
  | take task rest hpc hconv =>
    exact
      { queue := hq1, alive := hs.alive, exitflag := hs.exitflag, doAdd := hs.doAdd
        adder := fun hh => by cases hh
        workers := hs.workers, count := hs.count, flags := hs.flags
        conveyer := fun t ht => hs.conveyer t (by rw [hconv]; exact List.mem_cons_of_mem _ ht)
        hand := fun t ht => by
          rcases ht with ht | ht
          · cases ht
            exact hs.conveyer _ (by rw [hconv]; exact List.mem_cons_self _ _)
          · cases ht
        queued := hs.queued, popped := hs.popped, ready := hs.ready
        once := hocc rfl, submitted := hs.submitted }
  | pass task hpc hcmp =>
    exact
      { queue := hq1, alive := hs.alive, exitflag := hs.exitflag, doAdd := hs.doAdd
        adder := fun hh => by cases hh
        workers := hs.workers, count := hs.count, flags := hs.flags
        conveyer := hs.conveyer
        hand := fun t ht => by
          rcases ht with ht | ht
          · cases ht
          · cases ht
            exact hs.hand _ (Or.inl hpc)
        queued := hs.queued, popped := hs.popped, ready := hs.ready
        once := hocc rfl, submitted := hs.submitted }
  | push task hl hpc hroom =>
    exact
      { queue := hq1, alive := hs.alive, exitflag := hs.exitflag, doAdd := hs.doAdd
        adder := fun hh => by cases hh
        workers := hs.workers, count := hs.count, flags := hs.flags
        conveyer := hs.conveyer
        hand := fun t ht => by
          rcases ht with ht | ht <;> cases ht
        queued := fun t ht => by
          have hcont := StaticQueue.pushed_contents hS hs.queue.1 hroom hl task
          have ht' : t ∈ s.queue_.contents hS ++ [task] := by
            rw [← hcont]
            exact ht
          rcases List.mem_append.1 ht' with ht' | ht'
          · exact hs.queued t ht'
          · rw [List.mem_singleton.1 ht']
            exact hs.hand task (Or.inr hpc)
        popped := hs.popped, ready := hs.ready
        once := hocc rfl, submitted := hs.submitted }
  | pop i hf hpc hc =>
    have hcont := StaticQueue.popped_contents hS hs.queue.1 hc hf
      (PackagedTask.movedFrom Nat E).constructed
    exact
      { queue := hq1, alive := hs.alive, exitflag := hs.exitflag, doAdd := hs.doAdd
        adder := hs.adder
        workers := fun j hj => by
          rcases get?_set_cases hpc hj with ⟨_, hx⟩ | ⟨_, hx⟩
          · cases hx
          · exact hs.workers j hx
        count := (List.length_set _ _ _).trans hs.count
        flags := fun j hj => by
          by_cases hji : j = i
          · subst hji
            exact hs.flags j (Or.inl hpc)
          · apply hs.flags j
            rcases hj with hj | ⟨t, hj⟩
            · rcases get?_set_cases hpc hj with ⟨h1, _⟩ | ⟨_, hx⟩
              · exact absurd h1 hji
              · exact Or.inl hx
            · rcases get?_set_cases hpc hj with ⟨h1, _⟩ | ⟨_, hx⟩
              · exact absurd h1 hji
              · exact Or.inr ⟨t, hx⟩
        conveyer := hs.conveyer, hand := hs.hand
        queued := fun t ht => hs.queued t (by rw [hcont]; exact List.mem_cons_of_mem _ ht)
        popped := fun j x hj => by
          have hhead : (s.queue_.internalArray_ ⟨s.queue_.first_, hf⟩).IsTest :=
            hs.queued _ (by rw [hcont]; exact List.mem_cons_self _ _)
          rcases hj with hj | hj
          · rcases get?_set_cases hpc hj with ⟨_, hx⟩ | ⟨_, hx⟩
            · cases hx
              exact ⟨_, rfl, hhead⟩
            · exact hs.popped j x (Or.inl hx)
          · rcases get?_set_cases hpc hj with ⟨_, hx⟩ | ⟨_, hx⟩
            · cases hx
            · exact hs.popped j x (Or.inr hx)
        ready := hs.ready
        once := hocc rfl, submitted := hs.submitted }
  | markBusy i task hpc =>
    exact
      { queue := hq1, alive := hs.alive, exitflag := hs.exitflag, doAdd := hs.doAdd
        adder := hs.adder
        workers := fun j hj => by
          rcases get?_set_cases hpc hj with ⟨_, hx⟩ | ⟨_, hx⟩
          · cases hx
          · exact hs.workers j hx
        count := (List.length_set _ _ _).trans hs.count
        flags := fun j hj => by
          by_cases hji : j = i
          · subst hji
            rcases hj with hj | ⟨t, hj⟩
            · rcases get?_set_cases hpc hj with ⟨_, hx⟩ | ⟨h1, _⟩
              · cases hx
              · exact absurd rfl h1
            · rcases get?_set_cases hpc hj with ⟨_, hx⟩ | ⟨h1, _⟩
              · cases hx
              · exact absurd rfl h1
          · apply mem_assignFlag_of_ne false true hji
            apply hs.flags j
            rcases hj with hj | ⟨t, hj⟩
            · rcases get?_set_cases hpc hj with ⟨h1, _⟩ | ⟨_, hx⟩
              · exact absurd h1 hji
              · exact Or.inl hx
            · rcases get?_set_cases hpc hj with ⟨h1, _⟩ | ⟨_, hx⟩
              · exact absurd h1 hji
              · exact Or.inr ⟨t, hx⟩
        conveyer := hs.conveyer, hand := hs.hand, queued := hs.queued
        popped := fun j x hj => by
          rcases hj with hj | hj
          · rcases get?_set_cases hpc hj with ⟨_, hx⟩ | ⟨_, hx⟩
            · cases hx
            · exact hs.popped j x (Or.inl hx)
          · rcases get?_set_cases hpc hj with ⟨_, hx⟩ | ⟨_, hx⟩
            · cases hx
              exact hs.popped i _ (Or.inl hpc)
            · exact hs.popped j x (Or.inr hx)
        ready := hs.ready
        once := hocc rfl, submitted := hs.submitted }
  | call i handle callable hpc hfresh =>
    exact
      { queue := hq1, alive := hs.alive, exitflag := hs.exitflag, doAdd := hs.doAdd
        adder := hs.adder
        workers := fun j hj => by
          rcases get?_set_cases hpc hj with ⟨_, hx⟩ | ⟨_, hx⟩
          · cases hx
          · exact hs.workers j hx
        count := (List.length_set _ _ _).trans hs.count
        flags := fun j hj => by
          apply hs.flags j
          rcases hj with hj | ⟨t, hj⟩
          · rcases get?_set_cases hpc hj with ⟨_, hx⟩ | ⟨_, hx⟩
            · cases hx
            · exact Or.inl hx
          · rcases get?_set_cases hpc hj with ⟨_, hx⟩ | ⟨_, hx⟩
            · cases hx
            · exact Or.inr ⟨t, hx⟩
        conveyer := hs.conveyer, hand := hs.hand, queued := hs.queued
        popped := fun j x hj => by
          rcases hj with hj | hj
          · rcases get?_set_cases hpc hj with ⟨_, hx⟩ | ⟨_, hx⟩
            · cases hx
            · exact hs.popped j x (Or.inl hx)
          · rcases get?_set_cases hpc hj with ⟨_, hx⟩ | ⟨_, hx⟩
            · cases hx
            · exact hs.popped j x (Or.inr hx)
        ready := fun p hp => by
          rcases List.mem_append.1 hp with hp | hp
          · exact hs.ready p hp
          · rw [List.mem_singleton.1 hp]
            obtain ⟨t, ht, k, hk⟩ := hs.popped i _ (Or.inr hpc)
            cases ht
            cases hk
            rfl
        once := hocc rfl, submitted := hs.submitted }
  | markReady i hpc =>
    exact
      { queue := hq1, alive := hs.alive, exitflag := hs.exitflag, doAdd := hs.doAdd
        adder := hs.adder
        workers := fun j hj => by
          rcases get?_set_cases hpc hj with ⟨_, hx⟩ | ⟨_, hx⟩
          · cases hx
          · exact hs.workers j hx
        count := (List.length_set _ _ _).trans hs.count
        flags := fun j hj => by
          by_cases hji : j = i
          · subst hji
            exact mem_assignFlag j true _
          · apply mem_assignFlag_of_ne true true hji
            apply hs.flags j
            rcases hj with hj | ⟨t, hj⟩
            · rcases get?_set_cases hpc hj with ⟨h1, _⟩ | ⟨_, hx⟩
              · exact absurd h1 hji
              · exact Or.inl hx
            · rcases get?_set_cases hpc hj with ⟨h1, _⟩ | ⟨_, hx⟩
              · exact absurd h1 hji
              · exact Or.inr ⟨t, hx⟩
        conveyer := hs.conveyer, hand := hs.hand, queued := hs.queued
        popped := fun j x hj => by
          rcases hj with hj | hj
          · rcases get?_set_cases hpc hj with ⟨_, hx⟩ | ⟨_, hx⟩
            · cases hx
            · exact hs.popped j x (Or.inl hx)
          · rcases get?_set_cases hpc hj with ⟨_, hx⟩ | ⟨_, hx⟩
            · cases hx
            · exact hs.popped j x (Or.inr hx)
        ready := hs.ready
        once := hocc rfl, submitted := hs.submitted }

/-- Every move of the test takes one step off what the test still has to do. -/
theorem ThreadPool.Moves.potential_succ {tasks : Nat} {s s1 : ThreadPool Nat E}
    (hm : ThreadPool.Moves tasks s s1) : s1.potential tasks + 1 = s.potential tasks := by
  cases hm with
  | submit hlt =>
    simp only [ThreadPool.potential, ThreadPool.work, List.length_append,
      List.length_singleton]
    omega
  | take task rest hpc hconv =>
    simp only [ThreadPool.potential, ThreadPool.work, hpc, hconv, AdderState.work,
      List.length_cons]
    omega
  | pass task hpc hcmp =>
    simp only [ThreadPool.potential, ThreadPool.work, hpc, AdderState.work]
    omega
  | push task hl hpc hroom =>
    simp only [ThreadPool.potential, ThreadPool.work, hpc, AdderState.work,
      StaticQueue.pushed]
    omega
  | pop i hf hpc hc =>
    have := sum_map_set (WorkerState.work)
      (WorkerState.markingBusy (some (s.queue_.internalArray_ ⟨s.queue_.first_, hf⟩)))
      _ s.threads_ i hpc
    simp only [ThreadPool.potential, ThreadPool.work, WorkerState.work,
      StaticQueue.popped] at this ⊢
    omega
  | markBusy i task hpc =>
    have := sum_map_set (WorkerState.work) (WorkerState.executing task) _ s.threads_ i hpc
    simp only [ThreadPool.potential, ThreadPool.work, WorkerState.work] at this ⊢
    omega
  | call i handle callable hpc hfresh =>
    have := sum_map_set (WorkerState.work) (WorkerState.markingReady : WorkerState Nat E)
      _ s.threads_ i hpc
    simp only [ThreadPool.potential, ThreadPool.work, WorkerState.work] at this ⊢
    omega
  | markReady i hpc =>
    have := sum_map_set (WorkerState.work) (WorkerState.waitingForTask : WorkerState Nat E)
      _ s.threads_ i hpc
    simp only [ThreadPool.potential, ThreadPool.work, WorkerState.work] at this ⊢
    omega

theorem exists_get?_of_sum_pos {α : Type} (g : α → Nat) :
    ∀ l : List α, 0 < (l.map g).sum → ∃ i a, l.get? i = some a ∧ 0 < g a := by
  intro l
  induction l with
  | nil => intro h; simp at h
  | cons b l ih =>
    intro h
    by_cases hb : 0 < g b
    · exact ⟨0, b, rfl, hb⟩
    · have hl : 0 < (l.map g).sum := by
        simp only [List.map_cons, List.sum_cons] at h
        omega
      obtain ⟨i, a, hi, ha⟩ := ih hl
      exact ⟨i + 1, a, hi, ha⟩

theorem get?_of_sum_eq_zero {α : Type} (g : α → Nat) :
    ∀ (l : List α) (i : Nat) (a : α), (l.map g).sum = 0 → l.get? i = some a → g a = 0 := by
  intro l
  induction l with
  | nil => intro i a _ hi; cases hi
  | cons b l ih =>
    intro i a h hi
    simp only [List.map_cons, List.sum_cons] at h
    cases i with
    | zero =>
      cases hi
      omega
    | succ i => exact ih i a (by omega) hi

/-- A worker that has nothing left to do is in its wait (in the test no worker
has ended). -/
theorem ThreadPool.TestInv.waiting_of_work {n tasks : Nat} {s : ThreadPool Nat E}
    (hs : s.TestInv n tasks) {i : Nat} {st : WorkerState Nat E}
    (hi : s.threads_.get? i = some st) (hw : st.work = 0) :
    s.threads_.get? i = some WorkerState.waitingForTask := by
  cases st with
  | waitingForTask => exact hi
  | markingBusy task => simp [WorkerState.work] at hw
  | executing task => simp [WorkerState.work] at hw
  | markingReady => simp [WorkerState.work] at hw
  | terminated => exact absurd hi (hs.workers i)

/-- The test of a pool with at least one worker does not get stuck: as long as
something is left to do, some thread can take its next step. -/
theorem ThreadPool.TestInv.enabled {n tasks : Nat} {s : ThreadPool Nat E}
    (hs : s.TestInv n tasks) (hn : 0 < n) (hpos : 0 < s.potential tasks) :
    ∃ c s1, s.testStep tasks c = Step.next s1 := by
  by_cases hlt : s.nextHandle < tasks
  · refine ⟨Choice.submit, ?_⟩
    simp only [ThreadPool.testStep, hlt, if_true, ThreadPool.step, ThreadPool.AddTask,
      hs.alive]
    exact ⟨_, rfl⟩
  have hwork : 0 < s.work := by
    simp only [ThreadPool.potential] at hpos
    omega
  by_cases hthreads : 0 < (s.threads_.map WorkerState.work).sum
  · obtain ⟨i, st, hi, hw⟩ := exists_get?_of_sum_pos WorkerState.work s.threads_ hthreads
    refine ⟨Choice.Runnable i, ?_⟩
    cases st with
    | waitingForTask => simp [WorkerState.work] at hw
    | terminated => simp [WorkerState.work] at hw
    | markingBusy task =>
      simp only [ThreadPool.testStep, ThreadPool.step, ThreadPool.Runnable, hi]
      exact ⟨_, rfl⟩
    | markingReady =>
      simp only [ThreadPool.testStep, ThreadPool.step, ThreadPool.Runnable, hi]
      exact ⟨_, rfl⟩
    | executing x =>
      obtain ⟨task, hx, h, hh⟩ := hs.popped i x (Or.inr hi)
      subst hx
      subst hh
      have hfresh : s.sharedStates.any (fun p => p.1 == h) = false := by
        have h1 := hs.once h
        have := sum_map_set (WorkerState.occ h) (WorkerState.markingReady : WorkerState Nat E)
          _ s.threads_ i hi
        rw [any_fst_eq_false_iff]
        simp only [ThreadPool.occ, WorkerState.occ, PackagedTask.occ, PackagedTask.handles,
          List.count_singleton_self] at this h1
        split at h1 <;> omega
      simp only [ThreadPool.testStep, ThreadPool.step, ThreadPool.Runnable, hi,
        PackagedTask.invoke, hfresh, Bool.false_eq_true, if_false]
      exact ⟨_, rfl⟩
  have hzero : (s.threads_.map WorkerState.work).sum = 0 := by omega
  have h0lt : 0 < s.threads_.length := by rw [hs.count]; exact hn
  obtain ⟨st, hst⟩ : ∃ st, s.threads_.get? 0 = some st :=
    ⟨s.threads_.get ⟨0, h0lt⟩, List.get?_eq_get h0lt⟩
  have hwait := hs.waiting_of_work hst
    (get?_of_sum_eq_zero WorkerState.work s.threads_ 0 st hzero hst)
  by_cases hc : s.queue_.count_ = 0
  · cases hpc : s.asyncAdderWaiter_ with
    | terminated => exact absurd hpc hs.adder
    | waitingForItem =>
      cases hconv : s.conveyer_ with
      | nil =>
        simp only [ThreadPool.work, hconv, hpc, hc, hzero, AdderState.work,
          List.length_nil] at hwork
        omega
      | cons task rest =>
        refine ⟨Choice.AsyncAdder, ?_⟩
        simp only [ThreadPool.testStep, ThreadPool.step, ThreadPool.AsyncAdder, hpc, hconv,
          hs.doAdd]
        exact ⟨_, rfl⟩
    | waitingForCapacity task =>
      have hcmp : s.compare = true := by
        rw [ThreadPool.compare_eq_true_iff]
        refine ⟨⟨(0, true), hs.flags 0 (Or.inl hwait), rfl⟩, ?_⟩
        simp only [StaticQueue.Size, hc]
        decide
      refine ⟨Choice.AsyncAdder, ?_⟩
      simp only [ThreadPool.testStep, ThreadPool.step, ThreadPool.AsyncAdder, hpc, hcmp,
        if_true]
      exact ⟨_, rfl⟩
    | enqueuing task =>
      have hroom := hs.queue.2 task hpc
      have hl := hs.queue.1.last_lt (by decide)
      refine ⟨Choice.AsyncAdder, ?_⟩
      simp only [ThreadPool.testStep, ThreadPool.step, ThreadPool.AsyncAdder, hpc,
        StaticQueue.PushMove_eq_Push, StaticQueue.Push_eq_of_lt hroom hl task]
      exact ⟨_, rfl⟩
  · refine ⟨Choice.Runnable 0, ?_⟩
    have hempty : s.queue_.Empty = false := by
      simp [StaticQueue.Empty, hc]
    simp only [ThreadPool.testStep, ThreadPool.step, ThreadPool.Runnable, hwait, hempty,
      hs.exitflag, Bool.not_false, Bool.true_or, if_true, Bool.false_eq_true, if_false,
      StaticQueue.PopPtr_eq_of_ne _ hc hs.queue.1.2.1]
    exact ⟨_, rfl⟩

/-- No step of the test has undefined behaviour or ends the process. -/
theorem ThreadPool.TestInv.safe {n tasks : Nat} {s : ThreadPool Nat E}
    (hs : s.TestInv n tasks) (c : Choice) :
    s.testStep tasks c ≠ Step.undefined ∧ s.testStep tasks c ≠ Step.terminate := by
  cases c with
  | submit =>
    simp only [ThreadPool.testStep, ThreadPool.step, ThreadPool.AddTask, hs.alive]
    split
    · exact ⟨fun h => Step.noConfusion h, fun h => Step.noConfusion h⟩
    · exact ⟨fun h => Step.noConfusion h, fun h => Step.noConfusion h⟩
  | AsyncAdder =>
    simp only [ThreadPool.testStep, ThreadPool.step]
    cases hpc : s.asyncAdderWaiter_ with
    | terminated => exact absurd hpc hs.adder
    | waitingForItem =>
      cases hconv : s.conveyer_ with
      | nil =>
        simp only [ThreadPool.AsyncAdder, hpc, hconv, hs.doAdd]
        exact ⟨fun h => Step.noConfusion h, fun h => Step.noConfusion h⟩
      | cons task rest =>
        simp only [ThreadPool.AsyncAdder, hpc, hconv, hs.doAdd]
        exact ⟨fun h => Step.noConfusion h, fun h => Step.noConfusion h⟩
    | waitingForCapacity task =>
      simp only [ThreadPool.AsyncAdder, hpc]
      split
      · exact ⟨fun h => Step.noConfusion h, fun h => Step.noConfusion h⟩
      · exact ⟨fun h => Step.noConfusion h, fun h => Step.noConfusion h⟩
    | enqueuing task =>
      have hroom := hs.queue.2 task hpc
      have hl := hs.queue.1.last_lt (by decide)
      simp only [ThreadPool.AsyncAdder, hpc, StaticQueue.PushMove_eq_Push,
        StaticQueue.Push_eq_of_lt hroom hl task]
      exact ⟨fun h => Step.noConfusion h, fun h => Step.noConfusion h⟩
  | Runnable i =>
    simp only [ThreadPool.testStep, ThreadPool.step]
    cases hi : s.threads_.get? i with
    | none =>
      simp only [ThreadPool.Runnable, hi]
      exact ⟨fun h => Step.noConfusion h, fun h => Step.noConfusion h⟩
    | some st =>
      cases st with
      | terminated => exact absurd hi (hs.workers i)
      | waitingForTask =>
        by_cases hc : s.queue_.count_ = 0
        · have hempty : s.queue_.Empty = true := by
            simp [StaticQueue.Empty, hc]
          simp only [ThreadPool.Runnable, hi, hempty, hs.exitflag]
          exact ⟨fun h => Step.noConfusion h, fun h => Step.noConfusion h⟩
        · have hempty : s.queue_.Empty = false := by
            simp [StaticQueue.Empty, hc]
          simp only [ThreadPool.Runnable, hi, hempty, hs.exitflag, Bool.not_false,
            Bool.true_or, if_true, Bool.false_eq_true, if_false,
            StaticQueue.PopPtr_eq_of_ne _ hc hs.queue.1.2.1]
          exact ⟨fun h => Step.noConfusion h, fun h => Step.noConfusion h⟩
      | markingBusy task =>
        simp only [ThreadPool.Runnable, hi]
        exact ⟨fun h => Step.noConfusion h, fun h => Step.noConfusion h⟩
      | markingReady =>
        simp only [ThreadPool.Runnable, hi]
        exact ⟨fun h => Step.noConfusion h, fun h => Step.noConfusion h⟩
      | executing x =>
        obtain ⟨task, hx, h, hh⟩ := hs.popped i x (Or.inr hi)
        subst hx
        subst hh
        have hfresh : s.sharedStates.any (fun p => p.1 == h) = false := by
          have h1 := hs.once h
          have := sum_map_set (WorkerState.occ h)
            (WorkerState.markingReady : WorkerState Nat E) _ s.threads_ i hi
          rw [any_fst_eq_false_iff]
          simp only [ThreadPool.occ, WorkerState.occ, PackagedTask.occ, PackagedTask.handles,
            List.count_singleton_self] at this h1
          split at h1 <;> omega
        simp only [ThreadPool.Runnable, hi, PackagedTask.invoke, hfresh, Bool.false_eq_true,
          if_false]
        exact ⟨fun h => Step.noConfusion h, fun h => Step.noConfusion h⟩

theorem sum_map_occ_of_work (h : Nat) :
    ∀ l : List (WorkerState Nat E), (l.map WorkerState.work).sum = 0 →
      (l.map (WorkerState.occ h)).sum = 0 := by
  intro l
  induction l with
  | nil => intro _; rfl
  | cons b l ih =>
    intro hsum
    simp only [List.map_cons, List.sum_cons] at hsum ⊢
    have hb : b.work = 0 := by omega
    have hl : (l.map WorkerState.work).sum = 0 := by omega
    rw [ih hl]
    cases b with
    | waitingForTask => rfl
    | terminated => rfl
    | markingReady => rfl
    | markingBusy task => simp [WorkerState.work] at hb
    | executing task => simp [WorkerState.work] at hb

/-- When nothing is left to do, every task has been submitted and every shared
state handed out has been made ready by exactly one call. -/
theorem ThreadPool.TestInv.count_ready {n tasks : Nat} {s : ThreadPool Nat E}
    (hs : s.TestInv n tasks) (h0 : s.potential tasks = 0) (h : Nat) :
    (s.sharedStates.map Prod.fst).count h = if h < tasks then 1 else 0 := by
  simp only [ThreadPool.potential, ThreadPool.work] at h0
  have hsub := hs.submitted
  have hnext : s.nextHandle = tasks := by omega
  have hconv : s.conveyer_ = [] := List.eq_nil_of_length_eq_zero (by omega)
  have hc : s.queue_.count_ = 0 := by omega
  have hcont : s.queue_.contents (by decide) = [] := by
    simp [StaticQueue.contents, hc]
  have hthreads := sum_map_occ_of_work h s.threads_ (by omega)
  have hadder : s.asyncAdderWaiter_.occ h = 0 := by
    have hw : s.asyncAdderWaiter_.work = 0 := by omega
    cases hpc : s.asyncAdderWaiter_ with
    | waitingForItem => rfl
    | terminated => rfl
    | waitingForCapacity task => rw [hpc] at hw; simp [AdderState.work] at hw
    | enqueuing task => rw [hpc] at hw; simp [AdderState.work] at hw
  have h1 := hs.once h
  simp only [ThreadPool.occ, hconv, hcont, hthreads, hadder, List.map_nil, List.sum_nil,
    hnext] at h1
  omega

theorem count_range (n h : Nat) : (List.range n).count h = if h < n then 1 else 0 := by
  rw [List.count_eq_of_nodup (List.nodup_range n)]
  simp only [List.mem_range]

/-- When nothing is left to do, the shared states made ready are those of the
`tasks` tasks, each holding the number that its task returns. -/
theorem ThreadPool.TestInv.resolved {n tasks : Nat} {s : ThreadPool Nat E}
    (hs : s.TestInv n tasks) (h0 : s.potential tasks = 0) :
    s.sharedStates.Perm ((List.range tasks).map (fun h => (h, Except.ok h))) := by
  have hperm : (s.sharedStates.map Prod.fst).Perm (List.range tasks) := by
    rw [List.perm_iff_count]
    intro h
    rw [hs.count_ready h0 h, count_range]
  have hmap : (s.sharedStates.map Prod.fst).map (fun h => ((h, Except.ok h) : Nat × Except E Nat))
      = s.sharedStates := by
    rw [List.map_map]
    conv_rhs => rw [← List.map_id s.sharedStates]
    apply List.map_congr_left
    intro p hp
    obtain ⟨a, b⟩ := p
    have hb : b = Except.ok a := hs.ready (a, b) hp
    subst hb
    rfl
  rw [← hmap]
  exact hperm.map _

/-- No shared state is made ready twice, and none that has not been handed
out. -/
theorem ThreadPool.TestInv.nodup {n tasks : Nat} {s : ThreadPool Nat E}
    (hs : s.TestInv n tasks) :
    (s.sharedStates.map Prod.fst).Nodup ∧ ∀ p ∈ s.sharedStates, p.1 < s.nextHandle := by
  have hle : ∀ h, (s.sharedStates.map Prod.fst).count h ≤ s.occ h := by
    intro h
    simp only [ThreadPool.occ]
    omega
  constructor
  · rw [List.nodup_iff_count_le_one]
    intro h
    have h1 := hs.once h
    have h2 := hle h
    split at h1 <;> omega
  · intro p hp
    have h1 := hs.once p.1
    have h2 := hle p.1
    have h3 : 0 < (s.sharedStates.map Prod.fst).count p.1 :=
      List.count_pos_iff.2 (List.mem_map_of_mem Prod.fst hp)
    split at h1
    · assumption
    · omega

theorem ThreadPool.testRun_cons_eq_some {tasks : Nat} {s s1 : ThreadPool Nat E} {c : Choice}
    {cs : List Choice} (h : s.testRun tasks (c :: cs) = some s1) :
    ∃ s0, s.testStep tasks c = Step.next s0 ∧ s0.testRun tasks cs = some s1 := by
  simp only [ThreadPool.testRun] at h
  split at h
  · rename_i s0 hstep
    exact ⟨s0, hstep, h⟩
  · cases h

/-- Every execution of the test is an execution of the pool; it keeps what
holds throughout the test and takes as many steps off what is left to do as it
is long. -/
theorem ThreadPool.TestInv.testRun {n tasks : Nat} (cs : List Choice) :
    ∀ {s s1 : ThreadPool Nat E}, s.TestInv n tasks → s.testRun tasks cs = some s1 →
      s1.TestInv n tasks ∧ cs.length + s1.potential tasks = s.potential tasks
        ∧ ∃ acts : List (Action Nat E), s.run acts = some s1 := by
  induction cs with
  | nil =>
    intro s s1 hs h
    cases h
    exact ⟨hs, by simp, [], rfl⟩
  | cons c cs ih =>
    intro s s1 hs h
    obtain ⟨s0, hstep, hrest⟩ := ThreadPool.testRun_cons_eq_some h
    have hm := ThreadPool.testStep_moves hs.queue hs.exitflag hs.doAdd hstep
    obtain ⟨hinv, hpot, acts, hacts⟩ := ih (hs.next hstep) hrest
    obtain ⟨a, ha⟩ := ThreadPool.testStep_eq_step hstep
    refine ⟨hinv, ?_, a :: acts, ?_⟩
    · have := hm.potential_succ
      simp only [List.length_cons]
      omega
    · rw [ThreadPool.run_cons_of_next _ ha]
      exact hacts

end PoolLemmas

/-! ## The claims -/

section Claims

variable {T : Type} {SIZE : Nat}

/-- C1. For every capacity `SIZE ≥ 1` and all values `v1..vk` with `k ≤ SIZE`:
from a freshly constructed queue (whatever its slots hold), the `k` calls
`Push(v1)..Push(vk)` all return `true`, with either overload and the same
resulting queue; the following `k` calls of `Pop()` return pointers to
`v1, ..., vk` in that order, the following `k` calls of `Pop(value)` return
`true` with `v1, ..., vk` in that order, and in both cases `Size()` is `0`
afterwards. -/
theorem C1_push_then_pop_is_fifo (m : MovedFrom T) (hS : 1 ≤ SIZE) (arr : Fin SIZE → T)
    (vs outs : List T) (hk : vs.length ≤ SIZE) (ho : outs.length = vs.length) :
    ∃ q1 : StaticQueue T SIZE,
      StaticQueue.calls m (StaticQueue.construct arr) (vs.map Call.Push)
          = some (vs.map (fun _ => Ret.pushed true), q1)
      ∧ StaticQueue.calls m (StaticQueue.construct arr) (vs.map Call.PushMove)
          = some (vs.map (fun _ => Ret.pushed true), q1)
      ∧ (∃ q2, StaticQueue.calls m q1 (List.replicate vs.length Call.PopPtr)
            = some (vs.map (fun v => Ret.ptr (some v)), q2) ∧ q2.Size = 0)
      ∧ (∃ q3, StaticQueue.calls m q1 (outs.map Call.Pop)
            = some (vs.map (fun v => Ret.popped true v), q3) ∧ q3.Size = 0) := by
  have h0 := StaticQueue.construct_inv hS arr
  have hlen : (StaticQueue.construct arr).count_ + vs.length ≤ SIZE := by
    show 0 + vs.length ≤ SIZE
    omega
  obtain ⟨q1, hpush, hq1, hcont⟩ :=
    StaticQueue.calls_push_all hS m Call.Push (Or.inl rfl) vs h0 hlen
  obtain ⟨q1', hpush', _, hcont'⟩ :=
    StaticQueue.calls_push_all hS m Call.PushMove (Or.inr rfl) vs h0 hlen
  have hsame := StaticQueue.calls_map_PushMove m vs (StaticQueue.construct arr)
  rw [StaticQueue.construct_contents hS arr, List.nil_append] at hcont
  have hcnt : q1.count_ = vs.length := by
    rw [← StaticQueue.contents_length hS q1, hcont]
  obtain ⟨q2, hpop2, _, hz2⟩ := StaticQueue.calls_popPtr_all hS m vs.length hq1 hcnt
  obtain ⟨q3, hpop3, _, hz3⟩ := StaticQueue.calls_pop_all hS m outs hq1 (hcnt.trans ho.symm)
  rw [hcont] at hpop2 hpop3
  exact ⟨q1, hpush, hsame.trans hpush, ⟨q2, hpop2, hz2⟩, ⟨q3, hpop3, hz3⟩⟩

/-- Witness for C1: capacity 3, the values 10, 20, 30. -/
theorem C1_push_then_pop_is_fifo_witness :
    ([10, 20, 30] : List Nat).length ≤ 3 ∧
    ∃ q1 : StaticQueue Nat 3,
      StaticQueue.calls (MovedFrom.copy Nat) (StaticQueue.construct (fun _ => 0))
          [Call.Push 10, Call.Push 20, Call.Push 30]
          = some ([Ret.pushed true, Ret.pushed true, Ret.pushed true], q1)
      ∧ StaticQueue.calls (MovedFrom.copy Nat) (StaticQueue.construct (fun _ => 0))
          [Call.PushMove 10, Call.PushMove 20, Call.PushMove 30]
          = some ([Ret.pushed true, Ret.pushed true, Ret.pushed true], q1)
      ∧ (∃ q2, StaticQueue.calls (MovedFrom.copy Nat) q1
            [Call.PopPtr, Call.PopPtr, Call.PopPtr]
            = some ([Ret.ptr (some 10), Ret.ptr (some 20), Ret.ptr (some 30)], q2)
          ∧ q2.Size = 0)
      ∧ (∃ q3, StaticQueue.calls (MovedFrom.copy Nat) q1
            [Call.Pop 7, Call.Pop 8, Call.Pop 9]
            = some ([Ret.popped true 10, Ret.popped true 20, Ret.popped true 30], q3)
          ∧ q3.Size = 0) :=
  ⟨by decide,
    C1_push_then_pop_is_fifo (MovedFrom.copy Nat) (by decide) (fun _ => 0)
      [10, 20, 30] [7, 8, 9] (by decide) (by decide)⟩

/-- C2. For every capacity `SIZE ≥ 1`, every finite sequence of `Push` and `Pop`
calls (either overload of each, successful or not) applied to a freshly
constructed queue runs to its end, and the state it reaches satisfies
`count_ ≤ SIZE`, `first_ < SIZE` and `last_ < SIZE`; in particular `Size()` is
at most `SIZE`.  (The count is a natural number, and `Pop` decrements it only
behind its guard `if(count_)`, so it cannot fall below zero.) -/
theorem C2_reachable_states_are_bounded (m : MovedFrom T) (hS : 1 ≤ SIZE)
    (arr : Fin SIZE → T) (cs : List (Call T)) :
    ∃ (rs : List (Ret T)) (q : StaticQueue T SIZE),
      StaticQueue.calls m (StaticQueue.construct arr) cs = some (rs, q)
      ∧ q.count_ ≤ SIZE ∧ q.first_ < SIZE ∧ q.last_ < SIZE ∧ q.Size ≤ SIZE := by
  obtain ⟨rs, q, hrun, hq⟩ :=
    StaticQueue.calls_inv hS m cs (StaticQueue.construct_inv hS arr)
  exact ⟨rs, q, hrun, hq.1, hq.2.1, hq.last_lt hS, hq.1⟩

/-- Witness for C2: capacity 2, a run with a rejected push and a rejected pop. -/
theorem C2_reachable_states_are_bounded_witness :
    1 ≤ 2 ∧
    ∃ (rs : List (Ret Nat)) (q : StaticQueue Nat 2),
      StaticQueue.calls (MovedFrom.copy Nat) (StaticQueue.construct (fun _ => 0))
          [Call.PopPtr, Call.Push 1, Call.PushMove 2, Call.Push 3, Call.Pop 0, Call.Push 4]
        = some (rs, q)
      ∧ q.count_ ≤ 2 ∧ q.first_ < 2 ∧ q.last_ < 2 ∧ q.Size ≤ 2 :=
  ⟨by decide,
    C2_reachable_states_are_bounded (MovedFrom.copy Nat) (by decide) (fun _ => 0)
      [Call.PopPtr, Call.Push 1, Call.PushMove 2, Call.Push 3, Call.Pop 0, Call.Push 4]⟩

/-- C3. In every state with `count_ = SIZE`, both `Push` overloads return
`false` and leave the whole state (every slot, `first_`, `last_`, `count_`) as
it was. -/
theorem C3_push_on_full_is_rejected (q : StaticQueue T SIZE) (v : T)
    (hfull : q.count_ = SIZE) :
    q.Push v = some (false, q) ∧ q.PushMove v = some (false, q) := by
  have hc : ¬ q.count_ < SIZE := by omega
  exact ⟨StaticQueue.Push_eq_of_full hc v, StaticQueue.Push_eq_of_full hc v⟩

/-- Witness for C3: a full queue of capacity 2. -/
theorem C3_push_on_full_is_rejected_witness :
    (StaticQueue.mk (fun _ => 5) 1 1 2 : StaticQueue Nat 2).count_ = 2 ∧
    (StaticQueue.mk (fun _ => 5) 1 1 2 : StaticQueue Nat 2).Push 9
      = some (false, StaticQueue.mk (fun _ => 5) 1 1 2) ∧
    (StaticQueue.mk (fun _ => 5) 1 1 2 : StaticQueue Nat 2).PushMove 9
      = some (false, StaticQueue.mk (fun _ => 5) 1 1 2) :=
  ⟨rfl, C3_push_on_full_is_rejected (StaticQueue.mk (fun _ => 5) 1 1 2) 9 rfl⟩

/-- C4. In every state with `count_ = 0`, `Pop(value)` returns `false` and
leaves the caller's `value` as it was, `Pop()` returns a null pointer, and both
leave the whole state (every slot, `first_`, `last_`, `count_`) as it was. -/
theorem C4_pop_on_empty_is_rejected (m : MovedFrom T) (q : StaticQueue T SIZE) (value : T)
    (hempty : q.count_ = 0) :
    q.Pop m value = some (false, value, q) ∧ q.PopPtr m = some (none, q) :=
  ⟨StaticQueue.Pop_eq_of_zero m hempty value, StaticQueue.PopPtr_eq_of_zero m hempty⟩

/-- Witness for C4: an empty queue of capacity 2 whose indices are at slot 1. -/
theorem C4_pop_on_empty_is_rejected_witness :
    (StaticQueue.mk (fun _ => 5) 1 1 0 : StaticQueue Nat 2).count_ = 0 ∧
    (StaticQueue.mk (fun _ => 5) 1 1 0 : StaticQueue Nat 2).Pop (MovedFrom.copy Nat) 7
      = some (false, 7, StaticQueue.mk (fun _ => 5) 1 1 0) ∧
    (StaticQueue.mk (fun _ => 5) 1 1 0 : StaticQueue Nat 2).PopPtr (MovedFrom.copy Nat)
      = some (none, StaticQueue.mk (fun _ => 5) 1 1 0) :=
  ⟨rfl, C4_pop_on_empty_is_rejected (MovedFrom.copy Nat) (StaticQueue.mk (fun _ => 5) 1 1 0) 7 rfl⟩

/-- C5. In every state with `count_ < SIZE` and `last_ < SIZE`, both `Push`
overloads return `true` and produce the same new state: slot `last_` holds `v`,
every other slot is unchanged, `last_` becomes `(last_ + 1) % SIZE`, `count_`
becomes `count_ + 1`, and `first_` is unchanged. -/
theorem C5_push_stores_at_tail (q : StaticQueue T SIZE) (v : T)
    (hc : q.count_ < SIZE) (hl : q.last_ < SIZE) :
    ∃ q1 : StaticQueue T SIZE,
      q.Push v = some (true, q1) ∧ q.PushMove v = some (true, q1)
      ∧ q1.internalArray_ ⟨q.last_, hl⟩ = v
      ∧ (∀ j : Fin SIZE, j.val ≠ q.last_ → q1.internalArray_ j = q.internalArray_ j)
      ∧ q1.last_ = (q.last_ + 1) % SIZE
      ∧ q1.count_ = q.count_ + 1
      ∧ q1.first_ = q.first_ := by
  refine ⟨q.pushed hl v, StaticQueue.Push_eq_of_lt hc hl v,
    StaticQueue.Push_eq_of_lt hc hl v, ?_, ?_, rfl, rfl, rfl⟩
  · show Function.update q.internalArray_ ⟨q.last_, hl⟩ v ⟨q.last_, hl⟩ = v
    exact Function.update_same _ _ _
  · intro j hj
    show Function.update q.internalArray_ ⟨q.last_, hl⟩ v j = q.internalArray_ j
    exact Function.update_noteq (fun h => hj (congrArg Fin.val h)) _ _

/-- Witness for C5: one element in a queue of capacity 2, tail at slot 1. -/
theorem C5_push_stores_at_tail_witness :
    (StaticQueue.mk (fun _ => 5) 0 1 1 : StaticQueue Nat 2).count_ < 2 ∧
    ∃ (hl : (StaticQueue.mk (fun _ => 5) 0 1 1 : StaticQueue Nat 2).last_ < 2)
      (q1 : StaticQueue Nat 2),
      (StaticQueue.mk (fun _ => 5) 0 1 1 : StaticQueue Nat 2).Push 9 = some (true, q1)
      ∧ (StaticQueue.mk (fun _ => 5) 0 1 1 : StaticQueue Nat 2).PushMove 9 = some (true, q1)
      ∧ q1.internalArray_ ⟨1, hl⟩ = 9
      ∧ (∀ j : Fin 2, j.val ≠ 1 → q1.internalArray_ j = 5)
      ∧ q1.last_ = (1 + 1) % 2
      ∧ q1.count_ = 1 + 1
      ∧ q1.first_ = 0 :=
  ⟨by decide, by decide,
    C5_push_stores_at_tail (StaticQueue.mk (fun _ => 5) 0 1 1) 9 (by decide) (by decide)⟩

/-- C6. In every state with `count_ > 0` and `first_ < SIZE`, `Pop(value)`
returns `true` with `value` set to the element that was in slot `first_`, and
`Pop()` returns a non-null pointer to that same element; both move `first_` to
`(first_ + 1) % SIZE`, decrement `count_`, leave `last_` unchanged, and leave
every slot other than `first_` unchanged. -/
theorem C6_pop_takes_from_head (m : MovedFrom T) (q : StaticQueue T SIZE) (value : T)
    (hc : 0 < q.count_) (hf : q.first_ < SIZE) :
    ∃ q1 q2 : StaticQueue T SIZE,
      q.Pop m value = some (true, q.internalArray_ ⟨q.first_, hf⟩, q1)
      ∧ q.PopPtr m = some (some (q.internalArray_ ⟨q.first_, hf⟩), q2)
      ∧ q1.first_ = (q.first_ + 1) % SIZE ∧ q2.first_ = (q.first_ + 1) % SIZE
      ∧ q1.count_ = q.count_ - 1 ∧ q2.count_ = q.count_ - 1
      ∧ q1.last_ = q.last_ ∧ q2.last_ = q.last_
      ∧ (∀ j : Fin SIZE, j.val ≠ q.first_ →
          q1.internalArray_ j = q.internalArray_ j ∧ q2.internalArray_ j = q.internalArray_ j) := by
  have hc' : q.count_ ≠ 0 := by omega
  refine ⟨q.popped hf m.assigned, q.popped hf m.constructed,
    StaticQueue.Pop_eq_of_ne m hc' hf value, StaticQueue.PopPtr_eq_of_ne m hc' hf,
    rfl, rfl, rfl, rfl, rfl, rfl, ?_⟩
  intro j hj
  have hne : j ≠ ⟨q.first_, hf⟩ := fun h => hj (congrArg Fin.val h)
  exact ⟨Function.update_noteq hne _ _, Function.update_noteq hne _ _⟩

/-- Witness for C6: two elements in a queue of capacity 2, head at slot 1. -/
theorem C6_pop_takes_from_head_witness :
    0 < (StaticQueue.mk (fun j => j.val + 3) 1 1 2 : StaticQueue Nat 2).count_ ∧
    ∃ q1 q2 : StaticQueue Nat 2,
      (StaticQueue.mk (fun j => j.val + 3) 1 1 2 : StaticQueue Nat 2).Pop (MovedFrom.copy Nat) 7
        = some (true, 4, q1)
      ∧ (StaticQueue.mk (fun j => j.val + 3) 1 1 2 : StaticQueue Nat 2).PopPtr (MovedFrom.copy Nat)
        = some (some 4, q2)
      ∧ q1.first_ = (1 + 1) % 2 ∧ q2.first_ = (1 + 1) % 2
      ∧ q1.count_ = 2 - 1 ∧ q2.count_ = 2 - 1
      ∧ q1.last_ = 1 ∧ q2.last_ = 1
      ∧ (∀ j : Fin 2, j.val ≠ 1 →
          q1.internalArray_ j = j.val + 3 ∧ q2.internalArray_ j = j.val + 3) :=
  ⟨by decide,
    C6_pop_takes_from_head (MovedFrom.copy Nat) (StaticQueue.mk (fun j => j.val + 3) 1 1 2) 7
      (by decide) (by decide)⟩

/-- C7. For every capacity `1 ≤ SIZE ≤ 2 ^ 63` (an array of more slots does not
fit the address space that `size_t` indexes) and every state `q` reachable by
`Push` and `Pop` calls, the loop from `begin()` by `operator++` until the
position compares equal to `end()` stops, given more fuel than `Size()`, after
visiting exactly `Size()` positions; the `i`-th visited position is physical
slot `(first_ + i) % SIZE` and reads that slot; and the visited values are, in
the same order, what `Size()` successive calls of `Pop()` (or of `Pop(value)`)
return.  Instance: after pushing `a`, `b`, `c` into a fresh queue of capacity 3
the traversal visits `a`, `b`, `c`. -/
theorem C7_traversal_visits_the_window :
    (∀ (T : Type) (SIZE : Nat) (m : MovedFrom T) (self : Nat) (q : StaticQueue T SIZE),
      1 ≤ SIZE → SIZE ≤ 2 ^ 63 → q.Reachable m →
      ∃ visited : List (Nat × T),
        (∀ fuel, q.Size < fuel → q.traverse self fuel = some visited)
        ∧ visited.length = q.Size
        ∧ (∀ (i : Nat) (h : i < visited.length),
            (visited.get ⟨i, h⟩).1 = (q.first_ + i) % SIZE
            ∧ ∃ hs : (q.first_ + i) % SIZE < SIZE,
                (visited.get ⟨i, h⟩).2 = q.internalArray_ ⟨(q.first_ + i) % SIZE, hs⟩)
        ∧ (∃ q1, StaticQueue.calls m q (List.replicate q.Size Call.PopPtr)
            = some (visited.map (fun p => Ret.ptr (some p.2)), q1))
        ∧ (∀ outs : List T, outs.length = q.Size →
            ∃ q1, StaticQueue.calls m q (outs.map Call.Pop)
              = some (visited.map (fun p => Ret.popped true p.2), q1)))
    ∧ (∀ (T : Type) (m : MovedFrom T) (self : Nat) (arr : Fin 3 → T) (a b c : T),
        ∃ q : StaticQueue T 3,
          StaticQueue.calls m (StaticQueue.construct arr)
              [Call.Push a, Call.Push b, Call.Push c]
            = some ([Ret.pushed true, Ret.pushed true, Ret.pushed true], q)
          ∧ ∀ fuel, 3 < fuel →
              (q.traverse self fuel).map (List.map Prod.snd) = some [a, b, c]) := by
  constructor
  · intro T SIZE m self q hS hB hreach
    have hq := hreach.inv hS
    refine ⟨_, fun fuel hfuel => StaticQueue.traverse_eq hS hB self hq fuel hfuel,
      by simp [StaticQueue.Size], ?_, ?_, ?_⟩
    · intro i h
      have hi : i < q.count_ := by simpa using h
      simp only [List.get_eq_getElem, List.getElem_map, List.getElem_range]
      exact ⟨trivial, Nat.mod_lt _ hS, trivial⟩
    · obtain ⟨q1, h1, _, _⟩ := StaticQueue.calls_popPtr_all hS m q.count_ hq rfl
      refine ⟨q1, ?_⟩
      show StaticQueue.calls m q (List.replicate q.count_ Call.PopPtr) = _
      rw [List.map_map, h1]
      simp only [StaticQueue.contents, List.map_map]
      rfl
    · intro outs ho
      obtain ⟨q1, h1, _, _⟩ := StaticQueue.calls_pop_all hS m outs hq ho.symm
      refine ⟨q1, ?_⟩
      rw [List.map_map, h1]
      simp only [StaticQueue.contents, List.map_map]
      rfl
  · intro T m self arr a b c
    have hS : 0 < 3 := by decide
    obtain ⟨q, hrun, hq, hcont⟩ :=
      StaticQueue.calls_push_all hS m Call.Push (Or.inl rfl) [a, b, c]
        (StaticQueue.construct_inv hS arr) (Nat.le_refl 3)
    refine ⟨q, hrun, ?_⟩
    intro fuel hfuel
    rw [StaticQueue.construct_contents hS arr, List.nil_append] at hcont
    have hcnt : q.count_ = 3 := by
      rw [← StaticQueue.contents_length hS q, hcont]; rfl
    rw [StaticQueue.traverse_eq hS (by norm_num) self hq fuel (by omega), Option.map_some',
      List.map_map, ← hcont]
    rfl

/-- Witness for C7: the wrapped window of a queue of capacity 3 after the calls
`Push(1)`, `Push(2)`, `Push(3)`, `Pop()`, `Push(4)`. -/
theorem C7_traversal_visits_the_window_witness :
    1 ≤ 3 ∧ 3 ≤ 2 ^ 63 ∧
    (StaticQueue.mk ![4, 2, 3] 1 1 3 : StaticQueue Nat 3).Reachable (MovedFrom.copy Nat) ∧
    ∃ visited : List (Nat × Nat),
      (∀ fuel, 3 < fuel →
        (StaticQueue.mk ![4, 2, 3] 1 1 3 : StaticQueue Nat 3).traverse 0 fuel = some visited)
      ∧ visited.length = 3
      ∧ (∀ (i : Nat) (h : i < visited.length),
          (visited.get ⟨i, h⟩).1 = (1 + i) % 3
          ∧ ∃ hs : (1 + i) % 3 < 3, (visited.get ⟨i, h⟩).2 = ![4, 2, 3] ⟨(1 + i) % 3, hs⟩)
      ∧ (∃ q1, StaticQueue.calls (MovedFrom.copy Nat)
            (StaticQueue.mk ![4, 2, 3] 1 1 3 : StaticQueue Nat 3)
            (List.replicate 3 Call.PopPtr)
          = some (visited.map (fun p => Ret.ptr (some p.2)), q1))
      ∧ (∀ outs : List Nat, outs.length = 3 →
          ∃ q1, StaticQueue.calls (MovedFrom.copy Nat)
              (StaticQueue.mk ![4, 2, 3] 1 1 3 : StaticQueue Nat 3) (outs.map Call.Pop)
            = some (visited.map (fun p => Ret.popped true p.2), q1)) :=
  have hreach : (StaticQueue.mk ![4, 2, 3] 1 1 3 : StaticQueue Nat 3).Reachable
      (MovedFrom.copy Nat) :=
    ⟨fun _ => 0, [Call.Push 1, Call.Push 2, Call.Push 3, Call.PopPtr, Call.PushMove 4],
      [Ret.pushed true, Ret.pushed true, Ret.pushed true, Ret.ptr (some 1), Ret.pushed true],
      by
        simp [StaticQueue.calls, StaticQueue.call, StaticQueue.Push, StaticQueue.PushMove,
          StaticQueue.PopPtr, StaticQueue.construct, MovedFrom.copy]
        funext j
        fin_cases j <;> rfl⟩
  ⟨by decide, by norm_num, hreach,
    C7_traversal_visits_the_window.1 Nat 3 (MovedFrom.copy Nat) 0
      (StaticQueue.mk ![4, 2, 3] 1 1 3) (by decide) (by norm_num) hreach⟩

/-- C8. Capacity cycling on `StaticQueue<int, 3>` from a fresh queue (whatever
its slots hold): `Push(1)`, `Push(2)`, `Push(3)` return `true`, `Push(4)`
returns `false`, `Pop` returns `1` (as a pointer from `Pop()`, as `true` and the
out-parameter from `Pop(value)`), `Push(4)` returns `true`, and the traversal
from `begin()` to `end()` then visits the physical slots 1, 2, 0 holding
2, 3, 4: the window wraps around the end of the array. -/
theorem C8_capacity_cycling (m : MovedFrom Int) (self : Nat) (arr : Fin 3 → Int)
    (value : Int) (extra : Nat) :
    StaticQueue.calls m (StaticQueue.construct arr)
        [Call.Push 1, Call.Push 2, Call.Push 3, Call.Push 4, Call.PopPtr, Call.Push 4]
      = some ([Ret.pushed true, Ret.pushed true, Ret.pushed true, Ret.pushed false,
          Ret.ptr (some 1), Ret.pushed true], StaticQueue.mk ![4, 2, 3] 1 1 3)
    ∧ StaticQueue.calls m (StaticQueue.construct arr)
        [Call.Push 1, Call.Push 2, Call.Push 3, Call.Push 4, Call.Pop value, Call.Push 4]
      = some ([Ret.pushed true, Ret.pushed true, Ret.pushed true, Ret.pushed false,
          Ret.popped true 1, Ret.pushed true], StaticQueue.mk ![4, 2, 3] 1 1 3)
    ∧ (StaticQueue.mk ![4, 2, 3] 1 1 3 : StaticQueue Int 3).traverse self (4 + extra)
      = some [(1, 2), (2, 3), (0, 4)] := by
  refine ⟨?_, ?_, ?_⟩
  · simp [StaticQueue.calls, StaticQueue.call, StaticQueue.Push, StaticQueue.PopPtr,
      StaticQueue.construct]
    funext j
    fin_cases j <;> rfl
  · simp [StaticQueue.calls, StaticQueue.call, StaticQueue.Push, StaticQueue.Pop,
      StaticQueue.construct]
    funext j
    fin_cases j <;> rfl
  · have hq : (StaticQueue.mk ![4, 2, 3] 1 1 3 : StaticQueue Int 3).Inv :=
      ⟨Nat.le_refl 3, by decide, by decide⟩
    rw [StaticQueue.traverse_eq (by decide) (by norm_num) self hq (4 + extra)
      (by show 3 < 4 + extra; omega)]
    rfl

/-- C9. In every state within the bounds `count_ ≤ SIZE`, `first_ < SIZE`,
`last_ < SIZE` (they hold in every state a queue can be in), each `Push`
overload returns `true` exactly when `Filled()` was `false`, that is when
`count_ < SIZE`, and each `Pop` overload returns `true` (a non-null pointer)
exactly when `Empty()` was `false`, that is when `count_ > 0`.  Moreover
`Size()` is `count_`, `Empty()` holds iff `Size() = 0`, `Filled()` holds iff
`Size() = SIZE`, and two states with the same `count_` agree on all three
queries, whatever their indices and slots. -/
theorem C9_success_conditions_and_queries (m : MovedFrom T) (q : StaticQueue T SIZE)
    (v value : T) (hc : q.count_ ≤ SIZE) (hf : q.first_ < SIZE) (hl : q.last_ < SIZE) :
    (∃ b q1, q.Push v = some (b, q1)
        ∧ (b = true ↔ q.Filled = false) ∧ (b = true ↔ q.count_ < SIZE))
    ∧ (∃ b q1, q.PushMove v = some (b, q1)
        ∧ (b = true ↔ q.Filled = false) ∧ (b = true ↔ q.count_ < SIZE))
    ∧ (∃ b out q1, q.Pop m value = some (b, out, q1)
        ∧ (b = true ↔ q.Empty = false) ∧ (b = true ↔ 0 < q.count_))
    ∧ (∃ p q1, q.PopPtr m = some (p, q1)
        ∧ (p.isSome = true ↔ q.Empty = false) ∧ (p.isSome = true ↔ 0 < q.count_))
    ∧ q.Size = q.count_
    ∧ (q.Empty = true ↔ q.Size = 0)
    ∧ (q.Filled = true ↔ q.Size = SIZE)
    ∧ (∀ q2 : StaticQueue T SIZE, q2.count_ = q.count_ →
        q2.Size = q.Size ∧ q2.Empty = q.Empty ∧ q2.Filled = q.Filled) := by
  have hpush : ∃ b q1, q.Push v = some (b, q1)
      ∧ (b = true ↔ q.Filled = false) ∧ (b = true ↔ q.count_ < SIZE) := by
    by_cases h : q.count_ < SIZE
    · refine ⟨true, q.pushed hl v, StaticQueue.Push_eq_of_lt h hl v, ?_, by simp [h]⟩
      have : q.count_ ≠ SIZE := by omega
      simp [StaticQueue.Filled, this]
    · refine ⟨false, q, StaticQueue.Push_eq_of_full h v, ?_, by simp [h]⟩
      have : q.count_ = SIZE := by omega
      simp [StaticQueue.Filled, this]
  refine ⟨hpush, hpush, ?_, ?_, rfl, by simp [StaticQueue.Empty, StaticQueue.Size],
    by simp [StaticQueue.Filled, StaticQueue.Size], ?_⟩
  · by_cases h : q.count_ = 0
    · exact ⟨false, value, q, StaticQueue.Pop_eq_of_zero m h value,
        by simp [StaticQueue.Empty, h], by simp [h]⟩
    · exact ⟨true, q.internalArray_ ⟨q.first_, hf⟩, q.popped hf m.assigned,
        StaticQueue.Pop_eq_of_ne m h hf value, by simp [StaticQueue.Empty, h],
        by simp; omega⟩
  · by_cases h : q.count_ = 0
    · exact ⟨none, q, StaticQueue.PopPtr_eq_of_zero m h,
        by simp [StaticQueue.Empty, h], by simp [h]⟩
    · exact ⟨some (q.internalArray_ ⟨q.first_, hf⟩), q.popped hf m.constructed,
        StaticQueue.PopPtr_eq_of_ne m h hf, by simp [StaticQueue.Empty, h],
        by simp; omega⟩
  · intro q2 h2
    simp [StaticQueue.Size, StaticQueue.Empty, StaticQueue.Filled, h2]

/-- Witness for C9: a full queue of capacity 2. -/
theorem C9_success_conditions_and_queries_witness :
    (StaticQueue.mk (fun _ => 5) 1 1 2 : StaticQueue Nat 2).count_ ≤ 2 ∧
    (StaticQueue.mk (fun _ => 5) 1 1 2 : StaticQueue Nat 2).first_ < 2 ∧
    (StaticQueue.mk (fun _ => 5) 1 1 2 : StaticQueue Nat 2).last_ < 2 ∧
    ((∃ b q1, (StaticQueue.mk (fun _ => 5) 1 1 2 : StaticQueue Nat 2).Push 9 = some (b, q1)
        ∧ (b = true ↔ (StaticQueue.mk (fun _ => 5) 1 1 2 : StaticQueue Nat 2).Filled = false)
        ∧ (b = true ↔ 2 < 2))
    ∧ (∃ b q1, (StaticQueue.mk (fun _ => 5) 1 1 2 : StaticQueue Nat 2).PushMove 9 = some (b, q1)
        ∧ (b = true ↔ (StaticQueue.mk (fun _ => 5) 1 1 2 : StaticQueue Nat 2).Filled = false)
        ∧ (b = true ↔ 2 < 2))
    ∧ (∃ b out q1,
        (StaticQueue.mk (fun _ => 5) 1 1 2 : StaticQueue Nat 2).Pop (MovedFrom.copy Nat) 7
          = some (b, out, q1)
        ∧ (b = true ↔ (StaticQueue.mk (fun _ => 5) 1 1 2 : StaticQueue Nat 2).Empty = false)
        ∧ (b = true ↔ 0 < 2))
    ∧ (∃ p q1,
        (StaticQueue.mk (fun _ => 5) 1 1 2 : StaticQueue Nat 2).PopPtr (MovedFrom.copy Nat)
          = some (p, q1)
        ∧ (p.isSome = true ↔ (StaticQueue.mk (fun _ => 5) 1 1 2 : StaticQueue Nat 2).Empty = false)
        ∧ (p.isSome = true ↔ 0 < 2))
    ∧ (StaticQueue.mk (fun _ => 5) 1 1 2 : StaticQueue Nat 2).Size = 2
    ∧ ((StaticQueue.mk (fun _ => 5) 1 1 2 : StaticQueue Nat 2).Empty = true
        ↔ (StaticQueue.mk (fun _ => 5) 1 1 2 : StaticQueue Nat 2).Size = 0)
    ∧ ((StaticQueue.mk (fun _ => 5) 1 1 2 : StaticQueue Nat 2).Filled = true
        ↔ (StaticQueue.mk (fun _ => 5) 1 1 2 : StaticQueue Nat 2).Size = 2)
    ∧ (∀ q2 : StaticQueue Nat 2, q2.count_ = 2 →
        q2.Size = (StaticQueue.mk (fun _ => 5) 1 1 2 : StaticQueue Nat 2).Size
        ∧ q2.Empty = (StaticQueue.mk (fun _ => 5) 1 1 2 : StaticQueue Nat 2).Empty
        ∧ q2.Filled = (StaticQueue.mk (fun _ => 5) 1 1 2 : StaticQueue Nat 2).Filled)) :=
  ⟨by decide, by decide, by decide,
    C9_success_conditions_and_queries (MovedFrom.copy Nat) (StaticQueue.mk (fun _ => 5) 1 1 2)
      9 7 (by decide) (by decide) (by decide)⟩

/-- C10. Two positions compare equal under `operator==` exactly when they have
the same logical index `desiredId_` and refer to the same queue, and
`operator!=` is its negation; the physical slot `realIdElement_` plays no part.
So for a full queue (`count_ = SIZE`, `1 ≤ SIZE ≤ 2 ^ 63`, `first_ < SIZE`)
`begin() != end()` although both are at the same physical slot, and for an
empty queue `begin() == end()`. -/
theorem C10_position_equality :
    (∀ lhs rhs : StaticQueue.Iterator,
      StaticQueue.Iterator.opEq lhs rhs = true
        ↔ lhs.desiredId_ = rhs.desiredId_ ∧ lhs.aquireObject_ = rhs.aquireObject_)
    ∧ (∀ lhs rhs : StaticQueue.Iterator,
      StaticQueue.Iterator.opNe lhs rhs = !(StaticQueue.Iterator.opEq lhs rhs))
    ∧ (∀ (lhs rhs : StaticQueue.Iterator) (r1 r2 : Nat),
      StaticQueue.Iterator.opEq
          { desiredId_ := lhs.desiredId_, realIdElement_ := r1,
            aquireObject_ := lhs.aquireObject_ }
          { desiredId_ := rhs.desiredId_, realIdElement_ := r2,
            aquireObject_ := rhs.aquireObject_ }
        = StaticQueue.Iterator.opEq lhs rhs)
    ∧ (∀ (T : Type) (SIZE : Nat) (self : Nat) (q : StaticQueue T SIZE),
      1 ≤ SIZE → SIZE ≤ 2 ^ 63 → q.first_ < SIZE → q.count_ = SIZE →
      StaticQueue.Iterator.opNe (q.begin self) (q.end_ self) = true
      ∧ StaticQueue.Iterator.opEq (q.begin self) (q.end_ self) = false
      ∧ (q.begin self).realIdElement_ = (q.end_ self).realIdElement_)
    ∧ (∀ (T : Type) (SIZE : Nat) (self : Nat) (q : StaticQueue T SIZE),
      q.count_ = 0 →
      StaticQueue.Iterator.opEq (q.begin self) (q.end_ self) = true
      ∧ StaticQueue.Iterator.opNe (q.begin self) (q.end_ self) = false) := by
  refine ⟨?_, fun _ _ => rfl, fun _ _ _ _ => rfl, ?_, ?_⟩
  · intro lhs rhs
    simp [StaticQueue.Iterator.opEq]
  · intro T SIZE self q hS hB hf hfull
    have h64 : (2 : Nat) ^ 64 = 2 * 2 ^ 63 := by norm_num
    have hne : (0 : Nat) ≠ q.count_ := by omega
    have hb := StaticQueue.Iterator.construct_realIdElement self q 0
      (by unfold sizeMod; omega)
    have he := StaticQueue.Iterator.construct_realIdElement self q q.count_
      (by unfold sizeMod; omega)
    refine ⟨?_, ?_, ?_⟩
    · simp [StaticQueue.begin, StaticQueue.end_, StaticQueue.Iterator.opNe,
        StaticQueue.Iterator.opEq, StaticQueue.Iterator.construct_desiredId, hne]
    · simp [StaticQueue.begin, StaticQueue.end_,
        StaticQueue.Iterator.opEq, StaticQueue.Iterator.construct_desiredId, hne]
    · show (StaticQueue.Iterator.construct self q 0).realIdElement_
        = (StaticQueue.Iterator.construct self q q.count_).realIdElement_
      rw [hb, he, hfull, Nat.add_zero, Nat.add_mod_right]
  · intro T SIZE self q hempty
    simp [StaticQueue.begin, StaticQueue.end_, StaticQueue.Iterator.opNe,
      StaticQueue.Iterator.opEq, StaticQueue.Iterator.construct_desiredId,
      StaticQueue.Iterator.construct_aquireObject, hempty]

/-- Witness for C10: a full queue of capacity 2 whose head is at slot 1, and
the empty queue with the same indices. -/
theorem C10_position_equality_witness :
    (1 ≤ 2 ∧ 2 ≤ 2 ^ 63
      ∧ (StaticQueue.mk (fun _ => 5) 1 1 2 : StaticQueue Nat 2).first_ < 2
      ∧ (StaticQueue.mk (fun _ => 5) 1 1 2 : StaticQueue Nat 2).count_ = 2
      ∧ StaticQueue.Iterator.opNe
          ((StaticQueue.mk (fun _ => 5) 1 1 2 : StaticQueue Nat 2).begin 0)
          ((StaticQueue.mk (fun _ => 5) 1 1 2 : StaticQueue Nat 2).end_ 0) = true
      ∧ StaticQueue.Iterator.opEq
          ((StaticQueue.mk (fun _ => 5) 1 1 2 : StaticQueue Nat 2).begin 0)
          ((StaticQueue.mk (fun _ => 5) 1 1 2 : StaticQueue Nat 2).end_ 0) = false
      ∧ ((StaticQueue.mk (fun _ => 5) 1 1 2 : StaticQueue Nat 2).begin 0).realIdElement_
          = ((StaticQueue.mk (fun _ => 5) 1 1 2 : StaticQueue Nat 2).end_ 0).realIdElement_)
    ∧ ((StaticQueue.mk (fun _ => 5) 1 1 0 : StaticQueue Nat 2).count_ = 0
      ∧ StaticQueue.Iterator.opEq
          ((StaticQueue.mk (fun _ => 5) 1 1 0 : StaticQueue Nat 2).begin 0)
          ((StaticQueue.mk (fun _ => 5) 1 1 0 : StaticQueue Nat 2).end_ 0) = true
      ∧ StaticQueue.Iterator.opNe
          ((StaticQueue.mk (fun _ => 5) 1 1 0 : StaticQueue Nat 2).begin 0)
          ((StaticQueue.mk (fun _ => 5) 1 1 0 : StaticQueue Nat 2).end_ 0) = false) :=
  ⟨⟨by decide, by norm_num, by decide, rfl,
      C10_position_equality.2.2.2.1 Nat 2 0 (StaticQueue.mk (fun _ => 5) 1 1 2)
        (by decide) (by norm_num) (by decide) rfl⟩,
    ⟨rfl, C10_position_equality.2.2.2.2 Nat 2 0 (StaticQueue.mk (fun _ => 5) 1 1 0) rfl⟩⟩

/-- C11. `black_box::static_queue<T, SIZE>` is `BlackBox::StaticQueue<T, SIZE>`
under the renaming `push`/`Push`, `pop`/`Pop`, `empty`/`Empty`, `full`/`Filled`,
`size`/`Size`, `iterator`/`Iterator`: the constructors give the same state, each
operation (both overloads of `push` and of `pop`, the three queries, and every
operation of the iterator) gives the same result on the same state, and every
sequence of calls applied to both from their constructors yields, call by
call, the same return value and the same state (`internalArray_`, `first_`,
`last_`, `count_`). -/
theorem C11_static_queue_is_StaticQueue_renamed (m : MovedFrom T) :
    (∀ arr : Fin SIZE → T,
      (black_box.static_queue.construct arr).toStaticQueue = StaticQueue.construct arr)
    ∧ (∀ (q : black_box.static_queue T SIZE) (v : T),
      (q.push v).map (fun r => (r.1, r.2.toStaticQueue)) = q.toStaticQueue.Push v
      ∧ (q.pushMove v).map (fun r => (r.1, r.2.toStaticQueue)) = q.toStaticQueue.PushMove v
      ∧ (q.pop m v).map (fun r => (r.1, r.2.1, r.2.2.toStaticQueue)) = q.toStaticQueue.Pop m v
      ∧ (q.popPtr m).map (fun r => (r.1, r.2.toStaticQueue)) = q.toStaticQueue.PopPtr m
      ∧ q.empty = q.toStaticQueue.Empty
      ∧ q.full = q.toStaticQueue.Filled
      ∧ q.size = q.toStaticQueue.Size)
    ∧ (∀ (q : black_box.static_queue T SIZE) (self id : Nat)
        (it lhs rhs : black_box.static_queue.iterator),
      (black_box.static_queue.iterator.construct self q id).toIterator
          = StaticQueue.Iterator.construct self q.toStaticQueue id
      ∧ (black_box.static_queue.iterator.SetValue q it id).toIterator
          = StaticQueue.Iterator.SetValue q.toStaticQueue it.toIterator id
      ∧ black_box.static_queue.iterator.deref q it
          = StaticQueue.Iterator.deref q.toStaticQueue it.toIterator
      ∧ black_box.static_queue.iterator.opEq lhs rhs
          = StaticQueue.Iterator.opEq lhs.toIterator rhs.toIterator
      ∧ black_box.static_queue.iterator.opNe lhs rhs
          = StaticQueue.Iterator.opNe lhs.toIterator rhs.toIterator
      ∧ (black_box.static_queue.iterator.opInc q it).toIterator
          = StaticQueue.Iterator.opInc q.toStaticQueue it.toIterator
      ∧ (black_box.static_queue.iterator.opDec q it).toIterator
          = StaticQueue.Iterator.opDec q.toStaticQueue it.toIterator
      ∧ (q.begin self).toIterator = q.toStaticQueue.begin self
      ∧ (q.end_ self).toIterator = q.toStaticQueue.end_ self)
    ∧ (∀ (arr : Fin SIZE → T) (cs : List (Call T)),
      ((black_box.static_queue.construct arr).callsTrace m cs).map
          (List.map (fun r => (r.1, r.2.toStaticQueue)))
        = (StaticQueue.construct arr).callsTrace m cs) := by
  refine ⟨fun _ => rfl, ?_, ?_, ?_⟩
  · intro q v
    refine ⟨?_, ?_, ?_, ?_, rfl, rfl, rfl⟩
    · simp only [black_box.static_queue.push, StaticQueue.Push,
        black_box.static_queue.toStaticQueue]
      split
      · split <;> rfl
      · rfl
    · simp only [black_box.static_queue.pushMove, StaticQueue.PushMove,
        black_box.static_queue.toStaticQueue]
      split
      · split <;> rfl
      · rfl
    · simp only [black_box.static_queue.pop, StaticQueue.Pop,
        black_box.static_queue.toStaticQueue]
      split
      · split <;> rfl
      · rfl
    · simp only [black_box.static_queue.popPtr, StaticQueue.PopPtr,
        black_box.static_queue.toStaticQueue]
      split
      · split <;> rfl
      · rfl
  · intro q self id it lhs rhs
    exact ⟨rfl, rfl, rfl, rfl, rfl, rfl, rfl, rfl, rfl⟩
  · intro arr cs
    exact static_queue_callsTrace_toStaticQueue m cs (black_box.static_queue.construct arr)

/-- C12. Backpressure without loss, in the step model of the pool (producers
calling `AddTask`, the `AsyncAdder` thread and the `Runnable` workers
interleaved arbitrarily).  In every reachable state in which the `AsyncAdder`
thread is about to execute `queue_.Push(task)`, `queue_` holds fewer than 32
tasks, the `Push` returns `true` and appends the task to the contents of the
queue, and that is the step the thread takes.  The thread passes its capacity
wait exactly when some entry of `readyFlags_` is true and `queue_` does not
hold 32 tasks, and is blocked exactly when every entry of `readyFlags_` is
false or `queue_` holds 32 tasks.  Before shutdown, a task that is in the
admission stage (in `conveyer_`, or in the hand of the `AsyncAdder` thread at
its capacity wait) stays there across every step taken in a state where every
readiness flag is false or `queue_` is full; and whenever an execution takes a
task out of the admission stage, it went through a state where the thread held
that task, some readiness flag was true and `queue_` was not full. -/
theorem C12_backpressure_without_loss (R E : Type) :
    (∀ (n : Nat) (s : ThreadPool R E) (task : PackagedTask R E),
      s.ReachableFrom n → s.asyncAdderWaiter_ = AdderState.enqueuing task →
      s.queue_.Size < 32
      ∧ ∃ q : StaticQueue (PackagedTask R E) 32,
          s.queue_.PushMove task = some (true, q)
          ∧ q.contents (by decide) = s.queue_.contents (by decide) ++ [task]
          ∧ s.step Action.AsyncAdder
              = Step.next { s with queue_ := q
                                   asyncAdderWaiter_ := AdderState.waitingForItem })
    ∧ (∀ (s : ThreadPool R E) (task : PackagedTask R E),
      s.asyncAdderWaiter_ = AdderState.waitingForCapacity task →
      (((∃ p ∈ s.readyFlags_, p.2 = true) ∧ s.queue_.Size ≠ 32)
        ∧ s.step Action.AsyncAdder
            = Step.next { s with asyncAdderWaiter_ := AdderState.enqueuing task })
      ∨ (((∀ p ∈ s.readyFlags_, p.2 = false) ∨ s.queue_.Size = 32)
        ∧ s.step Action.AsyncAdder = Step.blocked))
    ∧ (∀ (s s1 : ThreadPool R E) (a : Action R E) (task : PackagedTask R E),
      s.step a = Step.next s1 → s.owner = OwnerState.alive →
      ((∀ p ∈ s.readyFlags_, p.2 = false) ∨ s.queue_.Size = 32) →
      s.AwaitsAdmission task → s1.AwaitsAdmission task)
    ∧ (∀ (s s1 : ThreadPool R E) (acts : List (Action R E)) (task : PackagedTask R E),
      s.run acts = some s1 → s1.owner = OwnerState.alive →
      s.AwaitsAdmission task → ¬ s1.AwaitsAdmission task →
      ∃ (pre post : List (Action R E)) (mid : ThreadPool R E),
        acts = pre ++ post ∧ s.run pre = some mid
        ∧ mid.asyncAdderWaiter_ = AdderState.waitingForCapacity task
        ∧ (∃ p ∈ mid.readyFlags_, p.2 = true) ∧ mid.queue_.Size ≠ 32) := by
  refine ⟨?_, ?_, ?_, ?_⟩
  · intro n s task hreach hpc
    obtain ⟨hq, hroom⟩ := hreach.queueInv
    have hlt := hroom task hpc
    have hl := hq.last_lt (by decide)
    have hpush : s.queue_.PushMove task = some (true, s.queue_.pushed hl task) := by
      rw [StaticQueue.PushMove_eq_Push]
      exact StaticQueue.Push_eq_of_lt hlt hl task
    refine ⟨hlt, s.queue_.pushed hl task, hpush,
      StaticQueue.pushed_contents (by decide) hq hlt hl task, ?_⟩
    simp only [ThreadPool.step, ThreadPool.AsyncAdder, hpc, hpush]
  · intro s task hpc
    cases hcmp : s.compare
    · right
      refine ⟨(ThreadPool.compare_eq_false_iff s).1 hcmp, ?_⟩
      simp only [ThreadPool.step, ThreadPool.AsyncAdder, hpc, hcmp]
      rfl
    · left
      refine ⟨(ThreadPool.compare_eq_true_iff s).1 hcmp, ?_⟩
      simp only [ThreadPool.step, ThreadPool.AsyncAdder, hpc, hcmp]
      rfl
  · intro s s1 a task hstep halive hclosed ht
    exact ThreadPool.step_awaitsAdmission hstep halive ht
      (fun _ => (ThreadPool.compare_eq_false_iff s).2 hclosed)
  · intro s s1 acts task hrun halive ht hnot
    obtain ⟨pre, post, mid, hsplit, hpre, hpc, hcmp⟩ :=
      ThreadPool.run_leaves_admission acts hrun halive ht hnot
    obtain ⟨hready, hroom⟩ := (ThreadPool.compare_eq_true_iff mid).1 hcmp
    exact ⟨pre, post, mid, hsplit, hpre, hpc, hready, hroom⟩

set_option maxHeartbeats 1600000 in
/-- Witness for C12: a pool of one worker that is busy with a first task (its
readiness flag is false), and a second task just submitted.  The `AsyncAdder`
thread takes the second task from `conveyer_` and stays blocked with it; once
the worker has finished and set its flag, the thread passes the gate and is
about to push the task, and the push succeeds. -/
theorem C12_backpressure_without_loss_witness :
    ∃ s s1 s2 s3 : ThreadPool Nat String,
      (ThreadPool.initial 1).run
          [Action.AddTask (Except.ok 1), Action.AsyncAdder, Action.AsyncAdder,
            Action.AsyncAdder, Action.Runnable 0, Action.Runnable 0,
            Action.AddTask (Except.ok 2)] = some s
      ∧ s.owner = OwnerState.alive
      ∧ s.readyFlags_ = [(0, false)]
      ∧ s.conveyer_ = [PackagedTask.bound 1 (Except.ok 2)]
      ∧ s.step Action.AsyncAdder = Step.next s1
      ∧ s1.AwaitsAdmission (PackagedTask.bound 1 (Except.ok 2))
      ∧ s1.step Action.AsyncAdder = Step.blocked
      ∧ s.run [Action.AsyncAdder, Action.Runnable 0, Action.Runnable 0, Action.AsyncAdder]
          = some s2
      ∧ s2.asyncAdderWaiter_ = AdderState.enqueuing (PackagedTask.bound 1 (Except.ok 2))
      ∧ s2.queue_.Size < 32
      ∧ (∃ q : StaticQueue (PackagedTask Nat String) 32,
          s2.queue_.PushMove (PackagedTask.bound 1 (Except.ok 2)) = some (true, q)
          ∧ q.contents (by decide)
              = s2.queue_.contents (by decide) ++ [PackagedTask.bound 1 (Except.ok 2)]
          ∧ s2.step Action.AsyncAdder
              = Step.next { s2 with queue_ := q
                                    asyncAdderWaiter_ := AdderState.waitingForItem })
      ∧ s2.step Action.AsyncAdder = Step.next s3
      ∧ s3.owner = OwnerState.alive
      ∧ ¬ s3.AwaitsAdmission (PackagedTask.bound 1 (Except.ok 2))
      ∧ ∃ (pre post : List (Action Nat String)) (mid : ThreadPool Nat String),
          [Action.AsyncAdder, Action.Runnable 0, Action.Runnable 0, Action.AsyncAdder,
              Action.AsyncAdder] = pre ++ post
          ∧ s.run pre = some mid
          ∧ mid.asyncAdderWaiter_
              = AdderState.waitingForCapacity (PackagedTask.bound 1 (Except.ok 2))
          ∧ (∃ p ∈ mid.readyFlags_, p.2 = true) ∧ mid.queue_.Size ≠ 32 := by
  have hnot : ∀ s3 : ThreadPool Nat String, s3.conveyer_ = [] →
      s3.asyncAdderWaiter_ = AdderState.waitingForItem →
      ¬ s3.AwaitsAdmission (PackagedTask.bound 1 (Except.ok 2)) := by
    intro s3 hc hpc h
    rcases h with h | h
    · rw [hc] at h
      cases h
    · rw [hpc] at h
      cases h
  have hflags : ∀ p ∈ ([(0, false)] : List (Nat × Bool)), p.2 = false := by
    decide
  let s : ThreadPool Nat String :=
    ((ThreadPool.initial 1).run
      [Action.AddTask (Except.ok 1), Action.AsyncAdder, Action.AsyncAdder,
        Action.AsyncAdder, Action.Runnable 0, Action.Runnable 0,
        Action.AddTask (Except.ok 2)]).get rfl
  let s1 : ThreadPool Nat String := (s.run [Action.AsyncAdder]).get rfl
  let s2 : ThreadPool Nat String :=
    (s.run [Action.AsyncAdder, Action.Runnable 0, Action.Runnable 0, Action.AsyncAdder]).get
      rfl
  let s3 : ThreadPool Nat String := (s2.run [Action.AsyncAdder]).get rfl
  have hreach0 : s.ReachableFrom 1 :=
    ⟨[Action.AddTask (Except.ok 1), Action.AsyncAdder, Action.AsyncAdder,
        Action.AsyncAdder, Action.Runnable 0, Action.Runnable 0,
        Action.AddTask (Except.ok 2)], rfl⟩
  have hreach : s2.ReachableFrom 1 :=
    hreach0.run
      [Action.AsyncAdder, Action.Runnable 0, Action.Runnable 0, Action.AsyncAdder] rfl
  have hrun3 : s.run [Action.AsyncAdder, Action.Runnable 0, Action.Runnable 0,
      Action.AsyncAdder, Action.AsyncAdder] = some s3 := rfl
  refine ⟨s, s1, s2, s3, rfl, rfl, rfl, rfl, rfl, ?_, ?_, rfl, rfl, ?_, ?_, rfl, rfl, ?_, ?_⟩
  · exact (C12_backpressure_without_loss Nat String).2.2.1 s s1 Action.AsyncAdder
      (PackagedTask.bound 1 (Except.ok 2)) rfl rfl (Or.inl hflags)
      (Or.inl (List.mem_singleton.2 rfl))
  · refine (((C12_backpressure_without_loss Nat String).2.1 s1
      (PackagedTask.bound 1 (Except.ok 2)) rfl).resolve_left ?_).2
    rintro ⟨⟨⟨p, hp, hb⟩, _⟩, _⟩
    rw [hflags p hp] at hb
    cases hb
  · exact ((C12_backpressure_without_loss Nat String).1 1 s2
      (PackagedTask.bound 1 (Except.ok 2)) hreach rfl).1
  · exact ((C12_backpressure_without_loss Nat String).1 1 s2
      (PackagedTask.bound 1 (Except.ok 2)) hreach rfl).2
  · exact hnot s3 rfl rfl
  · exact (C12_backpressure_without_loss Nat String).2.2.2 s s3
      [Action.AsyncAdder, Action.Runnable 0, Action.Runnable 0, Action.AsyncAdder,
        Action.AsyncAdder] (PackagedTask.bound 1 (Except.ok 2)) hrun3 rfl
      (Or.inl (List.mem_singleton.2 rfl)) (hnot s3 rfl rfl)

/-- C13. Pool correctness, in the step model of the pool and for every
interleaving.  A pool is constructed with 2 workers; a producer submits 5 tasks
through `AddTask`, the task of the `i`-th call returning `i`; the `AsyncAdder`
thread and the two workers take their steps in any order among the submissions
(`cs` is the schedule, `testStep 5` the step function of the pool with the
producer so restricted); the destructor is not entered while the futures are
awaited.  Let `s` be the state after the schedule `cs`.  Then `s` is a
reachable state of the pool; no step from `s` has undefined behaviour or ends
the process; every shared state handed out occurs exactly once in the pool (in
`conveyer_`, in the hand of a thread, in `queue_`, or made ready), so no task
is dropped and none duplicated; no shared state has been made ready by two
calls, and each one made ready holds the number of its task; the schedule has
at most 40 steps; as long as it has fewer than 40 some thread can take a step,
so that no execution gets stuck or goes on for ever; and after 40 steps the
five futures are ready with the values 0, 1, 2, 3, 4, each made ready by one
call of a worker. -/
theorem C13_pool_correctness (E : Type) (cs : List Choice) (s : ThreadPool Nat E)
    (hrun : (ThreadPool.initial 2).testRun 5 cs = some s) :
    s.ReachableFrom 2
    ∧ (∀ c, s.testStep 5 c ≠ Step.undefined ∧ s.testStep 5 c ≠ Step.terminate)
    ∧ (∀ h, s.occ h = if h < s.nextHandle then 1 else 0)
    ∧ (s.sharedStates.map Prod.fst).Nodup
    ∧ (∀ p ∈ s.sharedStates, p.1 < s.nextHandle ∧ p.2 = Except.ok p.1)
    ∧ cs.length ≤ 40
    ∧ (cs.length < 40 → ∃ c s1, s.testStep 5 c = Step.next s1)
    ∧ (cs.length = 40 →
        s.nextHandle = 5
        ∧ s.sharedStates.Perm
          [(0, Except.ok 0), (1, Except.ok 1), (2, Except.ok 2), (3, Except.ok 3),
            (4, Except.ok 4)]) := by
  obtain ⟨hinv, hpot, hreach⟩ :=
    ThreadPool.TestInv.testRun cs (ThreadPool.TestInv.initial 2 5) hrun
  have hinit : (ThreadPool.initial 2 : ThreadPool Nat E).potential 5 = 40 := rfl
  rw [hinit] at hpot
  refine ⟨hreach, hinv.safe, hinv.once, hinv.nodup.1,
    fun p hp => ⟨hinv.nodup.2 p hp, hinv.ready p hp⟩, by omega,
    fun hlt => hinv.enabled (by decide) (by omega), fun hlen => ?_⟩
  have h0 : s.potential 5 = 0 := by omega
  refine ⟨?_, hinv.resolved h0⟩
  have hsub := hinv.submitted
  simp only [ThreadPool.potential] at h0
  omega

/-- C13, witness: a schedule of 40 steps in which the two workers run side by
side.  The futures become ready in the order 1, 0, 2, 3, 4, and the theorem
gives the five values. -/
theorem C13_pool_correctness_witness :
    ∃ s : ThreadPool Nat String,
      (ThreadPool.initial 2).testRun 5
        [Choice.submit, Choice.submit, Choice.AsyncAdder, Choice.AsyncAdder,
          Choice.AsyncAdder, Choice.Runnable 0, Choice.AsyncAdder, Choice.submit,
          Choice.AsyncAdder, Choice.AsyncAdder, Choice.Runnable 1, Choice.Runnable 0,
          Choice.Runnable 1, Choice.submit, Choice.AsyncAdder, Choice.Runnable 1,
          Choice.Runnable 1, Choice.AsyncAdder, Choice.AsyncAdder, Choice.Runnable 0,
          Choice.Runnable 1, Choice.submit, Choice.Runnable 1, Choice.AsyncAdder,
          Choice.Runnable 1, Choice.Runnable 1, Choice.Runnable 0, Choice.AsyncAdder,
          Choice.AsyncAdder, Choice.AsyncAdder, Choice.Runnable 1, Choice.Runnable 1,
          Choice.Runnable 1, Choice.AsyncAdder, Choice.AsyncAdder, Choice.Runnable 1,
          Choice.Runnable 1, Choice.Runnable 1, Choice.Runnable 1, Choice.Runnable 1]
        = some s
      ∧ s.sharedStates.map Prod.fst = [1, 0, 2, 3, 4]
      ∧ s.nextHandle = 5
      ∧ s.sharedStates.Perm
          [(0, Except.ok 0), (1, Except.ok 1), (2, Except.ok 2), (3, Except.ok 3),
            (4, Except.ok 4)] := by
  let cs : List Choice :=
        [Choice.submit, Choice.submit, Choice.AsyncAdder, Choice.AsyncAdder,
          Choice.AsyncAdder, Choice.Runnable 0, Choice.AsyncAdder, Choice.submit,
          Choice.AsyncAdder, Choice.AsyncAdder, Choice.Runnable 1, Choice.Runnable 0,
          Choice.Runnable 1, Choice.submit, Choice.AsyncAdder, Choice.Runnable 1,
          Choice.Runnable 1, Choice.AsyncAdder, Choice.AsyncAdder, Choice.Runnable 0,
          Choice.Runnable 1, Choice.submit, Choice.Runnable 1, Choice.AsyncAdder,
          Choice.Runnable 1, Choice.Runnable 1, Choice.Runnable 0, Choice.AsyncAdder,
          Choice.AsyncAdder, Choice.AsyncAdder, Choice.Runnable 1, Choice.Runnable 1,
          Choice.Runnable 1, Choice.AsyncAdder, Choice.AsyncAdder, Choice.Runnable 1,
          Choice.Runnable 1, Choice.Runnable 1, Choice.Runnable 1, Choice.Runnable 1]
  let s : ThreadPool Nat String := ((ThreadPool.initial 2).testRun 5 cs).get rfl
  have hrun : (ThreadPool.initial 2).testRun 5 cs = some s := (Option.some_get _).symm
  have hlen : cs.length = 40 := rfl
  have horder : ((((ThreadPool.initial 2 : ThreadPool Nat String).testRun 5
        [Choice.submit, Choice.submit, Choice.AsyncAdder, Choice.AsyncAdder,
          Choice.AsyncAdder, Choice.Runnable 0, Choice.AsyncAdder, Choice.submit,
          Choice.AsyncAdder, Choice.AsyncAdder, Choice.Runnable 1, Choice.Runnable 0,
          Choice.Runnable 1, Choice.submit, Choice.AsyncAdder, Choice.Runnable 1,
          Choice.Runnable 1, Choice.AsyncAdder, Choice.AsyncAdder, Choice.Runnable 0,
          Choice.Runnable 1, Choice.submit, Choice.Runnable 1, Choice.AsyncAdder,
          Choice.Runnable 1, Choice.Runnable 1, Choice.Runnable 0, Choice.AsyncAdder,
          Choice.AsyncAdder, Choice.AsyncAdder, Choice.Runnable 1, Choice.Runnable 1,
          Choice.Runnable 1, Choice.AsyncAdder, Choice.AsyncAdder, Choice.Runnable 1,
          Choice.Runnable 1, Choice.Runnable 1, Choice.Runnable 1, Choice.Runnable 1]).get rfl).sharedStates.map Prod.fst) = [1, 0, 2, 3, 4] := by
    decide!
  have h := C13_pool_correctness String cs s hrun
  exact ⟨s, hrun, horder, (h.2.2.2.2.2.2.2 hlen).1, (h.2.2.2.2.2.2.2 hlen).2⟩

/-- C14. Failure propagation.  In every reachable state in which a worker is
about to invoke a task, whatever the outcome of its callable and in particular
when the callable raises an error `e`: the call does not throw, so the worker
is not ended; the outcome (the error `e`) is stored in the shared state that
the future of the task refers to; the worker then sets its own readiness flag
to `true` and is back in its wait, with `queue_`, `conveyer_` and the
`AsyncAdder` thread untouched by these two steps.  A worker that is back in its
wait pops the next task as soon as `queue_` is not empty (and shutdown has not
been requested), as it did before. -/
theorem C14_failure_propagation (R E : Type) :
    (∀ (n : Nat) (s : ThreadPool R E) (i handle : Nat) (callable : Except E R),
      s.ReachableFrom n →
      s.threads_.get? i
        = some (WorkerState.executing (some (PackagedTask.bound handle callable))) →
      ∃ s1 s2 : ThreadPool R E,
        s.step (Action.Runnable i) = Step.next s1
        ∧ s1.sharedStates = s.sharedStates ++ [(handle, callable)]
        ∧ s1.threads_.get? i = some WorkerState.markingReady
        ∧ s1.step (Action.Runnable i) = Step.next s2
        ∧ s.run [Action.Runnable i, Action.Runnable i] = some s2
        ∧ s2.sharedStates = s.sharedStates ++ [(handle, callable)]
        ∧ s2.readyFlags_ = assignFlag i true s.readyFlags_
        ∧ (i, true) ∈ s2.readyFlags_
        ∧ s2.threads_.get? i = some WorkerState.waitingForTask
        ∧ s2.queue_ = s.queue_ ∧ s2.conveyer_ = s.conveyer_
        ∧ s2.asyncAdderWaiter_ = s.asyncAdderWaiter_)
    ∧ (∀ (s : ThreadPool R E) (i : Nat),
      s.threads_.get? i = some WorkerState.markingReady →
      s.step (Action.Runnable i)
        = Step.next { s with readyFlags_ := assignFlag i true s.readyFlags_
                             threads_ := s.threads_.set i WorkerState.waitingForTask })
    ∧ (∀ (n : Nat) (s : ThreadPool R E) (i : Nat),
      s.ReachableFrom n → s.threads_.get? i = some WorkerState.waitingForTask →
      s.queue_.Empty = false → s.exitflag_ = false →
      ∃ (task : PackagedTask R E) (q : StaticQueue (PackagedTask R E) 32),
        s.queue_.PopPtr (PackagedTask.movedFrom R E) = some (some task, q)
        ∧ s.step (Action.Runnable i)
          = Step.next { s with queue_ := q
                               threads_ := s.threads_.set i
                                 (WorkerState.markingBusy (some task)) }) := by
  refine ⟨?_, ?_, ?_⟩
  · intro n s i handle callable hreach hpc
    have hfresh := hreach.not_ready hpc
    have hstep1 : s.step (Action.Runnable i)
        = Step.next { s with sharedStates := s.sharedStates ++ [(handle, callable)]
                             threads_ := s.threads_.set i WorkerState.markingReady } := by
      simp only [ThreadPool.step, ThreadPool.Runnable, hpc, PackagedTask.invoke, hfresh]
      rfl
    have hpc1 := get?_set_self WorkerState.markingReady s.threads_ i _ hpc
    have hstep2 : ({ s with sharedStates := s.sharedStates ++ [(handle, callable)]
                            threads_ := s.threads_.set i WorkerState.markingReady }
          : ThreadPool R E).step (Action.Runnable i)
        = Step.next { s with sharedStates := s.sharedStates ++ [(handle, callable)]
                             readyFlags_ := assignFlag i true s.readyFlags_
                             threads_ := (s.threads_.set i WorkerState.markingReady).set i
                               WorkerState.waitingForTask } := by
      simp only [ThreadPool.step, ThreadPool.Runnable, hpc1]
    refine ⟨_, _, hstep1, rfl, hpc1, hstep2, ?_, rfl, rfl, mem_assignFlag i true _,
      get?_set_self _ _ i _ hpc1, rfl, rfl, rfl⟩
    simp only [ThreadPool.run, hstep1, hstep2]
  · intro s i hpc
    simp only [ThreadPool.step, ThreadPool.Runnable, hpc]
  · intro n s i hreach hpc hne hexit
    obtain ⟨hq, _⟩ := hreach.queueInv
    have hc : s.queue_.count_ ≠ 0 := by
      simpa [StaticQueue.Empty] using hne
    have hpop := StaticQueue.PopPtr_eq_of_ne (PackagedTask.movedFrom R E) hc hq.2.1
    refine ⟨_, _, hpop, ?_⟩
    simp only [ThreadPool.step, ThreadPool.Runnable, hpc, hne, hexit, hpop]
    rfl

/-- Witness for C14: a pool of one worker that has popped a task whose callable
raises `"boom"`. -/
theorem C14_failure_propagation_witness :
    ∃ s : ThreadPool Nat String,
      (ThreadPool.initial 1).run
          [Action.AddTask (Except.error "boom"), Action.AsyncAdder, Action.AsyncAdder,
            Action.AsyncAdder, Action.Runnable 0, Action.Runnable 0] = some s
      ∧ s.threads_.get? 0
          = some (WorkerState.executing (some (PackagedTask.bound 0 (Except.error "boom"))))
      ∧ ∃ s1 s2 : ThreadPool Nat String,
        s.step (Action.Runnable 0) = Step.next s1
        ∧ s1.sharedStates = s.sharedStates ++ [(0, Except.error "boom")]
        ∧ s1.threads_.get? 0 = some WorkerState.markingReady
        ∧ s1.step (Action.Runnable 0) = Step.next s2
        ∧ s.run [Action.Runnable 0, Action.Runnable 0] = some s2
        ∧ s2.sharedStates = s.sharedStates ++ [(0, Except.error "boom")]
        ∧ s2.readyFlags_ = assignFlag 0 true s.readyFlags_
        ∧ (0, true) ∈ s2.readyFlags_
        ∧ s2.threads_.get? 0 = some WorkerState.waitingForTask
        ∧ s2.queue_ = s.queue_ ∧ s2.conveyer_ = s.conveyer_
        ∧ s2.asyncAdderWaiter_ = s.asyncAdderWaiter_ :=
  ⟨_, rfl, rfl,
    (C14_failure_propagation Nat String).1 1 _ 0 0 (Except.error "boom")
      ⟨[Action.AddTask (Except.error "boom"), Action.AsyncAdder, Action.AsyncAdder,
          Action.AsyncAdder, Action.Runnable 0, Action.Runnable 0], rfl⟩ rfl⟩

/-- C15. The capacity wait of `AsyncAdder` looks at the readiness flags and at
`queue_` only: the thread leaves the wait exactly when `compare` holds, and
`compare` does not depend on `exitflag_` or `doAdd_`.  So a request for
shutdown does not release the wait.  Evaluated on a pool of one worker: the
worker is busy with a first task, the `AsyncAdder` thread holds a second task
at its capacity wait, and the destructor has set both flags; `compare` is
false and the thread stays blocked. -/
theorem C15_capacity_wait_ignores_shutdown :
    (∀ (s : ThreadPool Nat String) (task : PackagedTask Nat String),
      ({ s with asyncAdderWaiter_ := AdderState.waitingForCapacity task }
          : ThreadPool Nat String).AsyncAdder
        = if s.compare then Step.next { s with asyncAdderWaiter_ := AdderState.enqueuing task }
          else Step.blocked)
    ∧ (∀ (s : ThreadPool Nat String) (b1 b2 : Bool),
      ({ s with exitflag_ := b1, doAdd_ := b2 } : ThreadPool Nat String).compare = s.compare)
    ∧ ∃ s : ThreadPool Nat String,
      (ThreadPool.initial 1).run
          [Action.AddTask (Except.ok 1), Action.AsyncAdder, Action.AsyncAdder,
            Action.AsyncAdder, Action.Runnable 0, Action.Runnable 0,
            Action.AddTask (Except.ok 2), Action.AsyncAdder,
            Action.destructor, Action.destructor] = some s
      ∧ s.exitflag_ = true ∧ s.doAdd_ = false ∧ s.owner = OwnerState.stopped
      ∧ s.asyncAdderWaiter_
          = AdderState.waitingForCapacity (PackagedTask.bound 1 (Except.ok 2))
      ∧ s.readyFlags_ = [(0, false)]
      ∧ s.compare = false
      ∧ s.step Action.AsyncAdder = Step.blocked := by
  refine ⟨?_, ?_, ?_⟩
  · intro s task
    simp only [ThreadPool.AsyncAdder, ThreadPool.compare]
  · intro s b1 b2
    rfl
  · exact ⟨_, rfl, rfl, rfl, rfl, rfl, rfl, rfl, rfl⟩

/-- C16, the claim refuted at `concurrency = 0`: the constructor returns a
pool; the pool has no worker; it accepts a task, which the `AsyncAdder` thread
takes from `conveyer_` and then holds at its capacity wait, blocked, while no
worker exists to run anything. -/
theorem C16_zero_workers_counterexample :
    (ThreadPool.construct 0 : Option (ThreadPool Nat String)) = some (ThreadPool.initial 0)
    ∧ (ThreadPool.initial 0 : ThreadPool Nat String).threads_ = []
    ∧ ∃ s : ThreadPool Nat String,
      (ThreadPool.initial 0).run [Action.AddTask (Except.ok 1), Action.AsyncAdder] = some s
      ∧ s.asyncAdderWaiter_
          = AdderState.waitingForCapacity (PackagedTask.bound 0 (Except.ok 1))
      ∧ s.step Action.AsyncAdder = Step.blocked
      ∧ s.step (Action.Runnable 0) = Step.blocked
      ∧ s.sharedStates = [] :=
  ⟨rfl, rfl, _, rfl, rfl, rfl, rfl, rfl⟩

/-- C16 as amended.  Constructing a `ThreadPool` with zero workers is not
rejected: the constructor returns a pool, and that pool has no worker thread.
It silently never executes the tasks submitted to it: while it is alive
`AddTask` accepts every task and returns its future, and in every state the
pool can reach, its destruction included, no worker can take a step and no
task has been called. -/
theorem C16_zero_workers_pool_never_executes (R E : Type) :
    (ThreadPool.construct 0 : Option (ThreadPool R E)) = some (ThreadPool.initial 0)
    ∧ ∀ s : ThreadPool R E, s.ReachableFrom 0 →
      s.threads_ = []
      ∧ (∀ i, s.step (Action.Runnable i) = Step.blocked)
      ∧ s.sharedStates = []
      ∧ (∀ callable, s.owner = OwnerState.alive →
          ∃ s1, s.AddTask callable = some (s.nextHandle, s1)
            ∧ s.step (Action.AddTask callable) = Step.next s1) := by
  refine ⟨rfl, ?_⟩
  intro s hreach
  obtain ⟨acts, hrun⟩ := hreach
  obtain ⟨ht, _, _, hr, _⟩ := ThreadPool.run_idle acts ThreadPool.initial_zero_idle hrun
  refine ⟨ht, ?_, hr, ?_⟩
  · intro i
    simp only [ThreadPool.step, ThreadPool.Runnable, ht, List.get?_nil]
  · intro callable halive
    simp only [ThreadPool.step, ThreadPool.AddTask, halive]
    exact ⟨_, rfl, rfl⟩

/-- Witness for C16 as amended: the pool without workers after two `AddTask`,
one step of the `AsyncAdder` thread, and its destruction as far as it goes.
The first task is in the hand of the `AsyncAdder` thread, the promise of the
second was broken when `conveyer_` was destroyed, and no task has been
called. -/
theorem C16_zero_workers_pool_never_executes_witness :
    ∃ s : ThreadPool Nat String,
      (ThreadPool.initial 0).run
          [Action.AddTask (Except.ok 1), Action.AsyncAdder, Action.AddTask (Except.ok 2),
            Action.destructor, Action.destructor, Action.destructor] = some s
      ∧ s.brokenPromises = [1]
      ∧ s.step Action.destructor = Step.blocked
      ∧ s.threads_ = []
      ∧ (∀ i, s.step (Action.Runnable i) = Step.blocked)
      ∧ s.sharedStates = []
      ∧ (∀ callable, s.owner = OwnerState.alive →
          ∃ s1, s.AddTask callable = some (s.nextHandle, s1)
            ∧ s.step (Action.AddTask callable) = Step.next s1) :=
  ⟨_, rfl, rfl, rfl,
    (C16_zero_workers_pool_never_executes Nat String).2 _
      ⟨[Action.AddTask (Except.ok 1), Action.AsyncAdder, Action.AddTask (Except.ok 2),
          Action.destructor, Action.destructor, Action.destructor], rfl⟩⟩

/-- C17. Shutdown steps leave the queues untouched.  A worker that leaves its
wait with `exitflag_` set ends without popping: the step changes nothing but
the state of that worker, so `queue_` and `readyFlags_` are as before, whether
or not `queue_` is empty.  The `AsyncAdder` thread that leaves its first wait
with `doAdd_` false ends without dequeuing: the step changes nothing but the
state of that thread, so `conveyer_` and `queue_` are as before, whether or not
`conveyer_` is empty. -/
theorem C17_shutdown_steps_leave_queues (R E : Type) :
    (∀ (s : ThreadPool R E) (i : Nat),
      s.threads_.get? i = some WorkerState.waitingForTask → s.exitflag_ = true →
      ∃ s1, s.step (Action.Runnable i) = Step.next s1
        ∧ s1 = { s with threads_ := s.threads_.set i WorkerState.terminated }
        ∧ s1.threads_.get? i = some WorkerState.terminated
        ∧ s1.queue_ = s.queue_ ∧ s1.readyFlags_ = s.readyFlags_
        ∧ s1.conveyer_ = s.conveyer_ ∧ s1.sharedStates = s.sharedStates)
    ∧ (∀ s : ThreadPool R E,
      s.asyncAdderWaiter_ = AdderState.waitingForItem → s.doAdd_ = false →
      ∃ s1, s.step Action.AsyncAdder = Step.next s1
        ∧ s1 = { s with asyncAdderWaiter_ := AdderState.terminated }
        ∧ s1.conveyer_ = s.conveyer_ ∧ s1.queue_ = s.queue_
        ∧ s1.readyFlags_ = s.readyFlags_ ∧ s1.sharedStates = s.sharedStates) := by
  refine ⟨?_, ?_⟩
  · intro s i hpc hexit
    refine ⟨_, ?_, rfl, get?_set_self _ _ i _ hpc, rfl, rfl, rfl, rfl⟩
    simp only [ThreadPool.step, ThreadPool.Runnable, hpc, hexit]
    simp
  · intro s hpc hadd
    refine ⟨_, ?_, rfl, rfl, rfl, rfl, rfl⟩
    simp only [ThreadPool.step, ThreadPool.AsyncAdder, hpc, hadd]
    simp

/-- Witness for C17: a pool of one worker with one task in `queue_`, one task
in `conveyer_`, and both shutdown flags set. -/
theorem C17_shutdown_steps_leave_queues_witness :
    ∃ s : ThreadPool Nat String,
      (ThreadPool.initial 1).run
          [Action.AddTask (Except.ok 1), Action.AsyncAdder, Action.AsyncAdder,
            Action.AsyncAdder, Action.AddTask (Except.ok 2),
            Action.destructor, Action.destructor] = some s
      ∧ s.queue_.Size = 1 ∧ s.conveyer_ = [PackagedTask.bound 1 (Except.ok 2)]
      ∧ s.threads_.get? 0 = some WorkerState.waitingForTask ∧ s.exitflag_ = true
      ∧ s.asyncAdderWaiter_ = AdderState.waitingForItem ∧ s.doAdd_ = false
      ∧ (∃ s1, s.step (Action.Runnable 0) = Step.next s1
          ∧ s1 = { s with threads_ := s.threads_.set 0 WorkerState.terminated }
          ∧ s1.threads_.get? 0 = some WorkerState.terminated
          ∧ s1.queue_ = s.queue_ ∧ s1.readyFlags_ = s.readyFlags_
          ∧ s1.conveyer_ = s.conveyer_ ∧ s1.sharedStates = s.sharedStates)
      ∧ (∃ s1, s.step Action.AsyncAdder = Step.next s1
          ∧ s1 = { s with asyncAdderWaiter_ := AdderState.terminated }
          ∧ s1.conveyer_ = s.conveyer_ ∧ s1.queue_ = s.queue_
          ∧ s1.readyFlags_ = s.readyFlags_ ∧ s1.sharedStates = s.sharedStates) :=
  ⟨_, rfl, rfl, rfl, rfl, rfl, rfl, rfl,
    (C17_shutdown_steps_leave_queues Nat String).1 _ 0 rfl rfl,
    (C17_shutdown_steps_leave_queues Nat String).2 _ rfl rfl⟩

/-- C18. Advancing and retreating a position only change its logical index.
For every queue state with `first_ < SIZE` and every position at a logical
index `i` (a `size_t`, arithmetic modulo `2 ^ 64`): `operator++` yields the
index `i + 1` and `operator--` the index `i - 1` (modulo `2 ^ 64`), in the prefix
and in the postfix form; the position still refers to the same queue, which
the operators only read; the physical slot is recomputed from `first_` and the
new index and addresses a slot of the array; retreating after advancing, and
advancing after retreating, give a position that compares equal to the
original, at the physical slot that `first_` and `i` determine, so that it is
the original position whenever the original was at that slot. -/
theorem C18_advancing_and_retreating (q : StaticQueue T SIZE) (it : StaticQueue.Iterator)
    (hf : q.first_ < SIZE) (hi : it.desiredId_ < sizeMod) :
    (StaticQueue.Iterator.opInc q it).desiredId_ = (it.desiredId_ + 1) % sizeMod
    ∧ (StaticQueue.Iterator.opDec q it).desiredId_ = (it.desiredId_ + sizeMod - 1) % sizeMod
    ∧ (it.desiredId_ + 1 < sizeMod →
        (StaticQueue.Iterator.opInc q it).desiredId_ = it.desiredId_ + 1)
    ∧ (0 < it.desiredId_ → (StaticQueue.Iterator.opDec q it).desiredId_ = it.desiredId_ - 1)
    ∧ StaticQueue.Iterator.opIncPost q it = StaticQueue.Iterator.opInc q it
    ∧ StaticQueue.Iterator.opDecPost q it = StaticQueue.Iterator.opDec q it
    ∧ (StaticQueue.Iterator.opInc q it).aquireObject_ = it.aquireObject_
    ∧ (StaticQueue.Iterator.opDec q it).aquireObject_ = it.aquireObject_
    ∧ (StaticQueue.Iterator.opInc q it).realIdElement_
        = (q.first_ + (it.desiredId_ + 1) % sizeMod) % sizeMod % SIZE
    ∧ (StaticQueue.Iterator.opDec q it).realIdElement_
        = (q.first_ + (it.desiredId_ + sizeMod - 1) % sizeMod) % sizeMod % SIZE
    ∧ (StaticQueue.Iterator.opInc q it).realIdElement_ < SIZE
    ∧ (StaticQueue.Iterator.opDec q it).realIdElement_ < SIZE
    ∧ StaticQueue.Iterator.opEq
        (StaticQueue.Iterator.opDec q (StaticQueue.Iterator.opInc q it)) it = true
    ∧ StaticQueue.Iterator.opEq
        (StaticQueue.Iterator.opInc q (StaticQueue.Iterator.opDec q it)) it = true
    ∧ (StaticQueue.Iterator.opDec q (StaticQueue.Iterator.opInc q it)).realIdElement_
        = (q.first_ + it.desiredId_) % sizeMod % SIZE
    ∧ (StaticQueue.Iterator.opInc q (StaticQueue.Iterator.opDec q it)).realIdElement_
        = (q.first_ + it.desiredId_) % sizeMod % SIZE
    ∧ (it.realIdElement_ = (q.first_ + it.desiredId_) % sizeMod % SIZE →
        StaticQueue.Iterator.opDec q (StaticQueue.Iterator.opInc q it) = it
        ∧ StaticQueue.Iterator.opInc q (StaticQueue.Iterator.opDec q it) = it) := by
  have hS : 0 < SIZE := by omega
  have h64 : sizeMod = 18446744073709551616 := by norm_num [sizeMod]
  have hdi : (StaticQueue.Iterator.opDec q (StaticQueue.Iterator.opInc q it)).desiredId_
      = it.desiredId_ := by
    simp only [StaticQueue.Iterator.opDec, StaticQueue.Iterator.opInc,
      StaticQueue.Iterator.SetValue_desiredId]
    exact sizeMod_succ_pred hi
  have hid : (StaticQueue.Iterator.opInc q (StaticQueue.Iterator.opDec q it)).desiredId_
      = it.desiredId_ := by
    simp only [StaticQueue.Iterator.opDec, StaticQueue.Iterator.opInc,
      StaticQueue.Iterator.SetValue_desiredId]
    exact sizeMod_pred_succ hi
  have hrdi : (StaticQueue.Iterator.opDec q (StaticQueue.Iterator.opInc q it)).realIdElement_
      = (q.first_ + it.desiredId_) % sizeMod % SIZE := by
    simp only [StaticQueue.Iterator.opDec, StaticQueue.Iterator.opInc,
      StaticQueue.Iterator.SetValue_realIdElement, StaticQueue.Iterator.SetValue_desiredId]
    rw [sizeMod_succ_pred hi]
  have hrid : (StaticQueue.Iterator.opInc q (StaticQueue.Iterator.opDec q it)).realIdElement_
      = (q.first_ + it.desiredId_) % sizeMod % SIZE := by
    simp only [StaticQueue.Iterator.opDec, StaticQueue.Iterator.opInc,
      StaticQueue.Iterator.SetValue_realIdElement, StaticQueue.Iterator.SetValue_desiredId]
    rw [sizeMod_pred_succ hi]
  refine ⟨StaticQueue.Iterator.SetValue_desiredId q it _,
    StaticQueue.Iterator.SetValue_desiredId q it _, ?_, ?_, rfl, rfl,
    StaticQueue.Iterator.SetValue_aquireObject q it _,
    StaticQueue.Iterator.SetValue_aquireObject q it _,
    StaticQueue.Iterator.SetValue_realIdElement q it _,
    StaticQueue.Iterator.SetValue_realIdElement q it _, ?_, ?_, ?_, ?_, hrdi, hrid, ?_⟩
  · intro h
    simp only [StaticQueue.Iterator.opInc, StaticQueue.Iterator.SetValue_desiredId]
    exact Nat.mod_eq_of_lt h
  · intro h
    simp only [StaticQueue.Iterator.opDec, StaticQueue.Iterator.SetValue_desiredId]
    rw [h64] at hi ⊢
    omega
  · simp only [StaticQueue.Iterator.opInc, StaticQueue.Iterator.SetValue_realIdElement]
    exact Nat.mod_lt _ hS
  · simp only [StaticQueue.Iterator.opDec, StaticQueue.Iterator.SetValue_realIdElement]
    exact Nat.mod_lt _ hS
  · have ha : (StaticQueue.Iterator.opDec q (StaticQueue.Iterator.opInc q it)).aquireObject_
        = it.aquireObject_ :=
      (StaticQueue.Iterator.SetValue_aquireObject q _ _).trans
        (StaticQueue.Iterator.SetValue_aquireObject q _ _)
    simp only [StaticQueue.Iterator.opEq, hdi, ha, beq_self_eq_true, Bool.and_self]
  · have ha : (StaticQueue.Iterator.opInc q (StaticQueue.Iterator.opDec q it)).aquireObject_
        = it.aquireObject_ :=
      (StaticQueue.Iterator.SetValue_aquireObject q _ _).trans
        (StaticQueue.Iterator.SetValue_aquireObject q _ _)
    simp only [StaticQueue.Iterator.opEq, hid, ha, beq_self_eq_true, Bool.and_self]
  · intro hreal
    exact ⟨StaticQueue.Iterator.eq_of_fields hdi (hrdi.trans hreal.symm)
        ((StaticQueue.Iterator.SetValue_aquireObject q _ _).trans
          (StaticQueue.Iterator.SetValue_aquireObject q _ _)),
      StaticQueue.Iterator.eq_of_fields hid (hrid.trans hreal.symm)
        ((StaticQueue.Iterator.SetValue_aquireObject q _ _).trans
          (StaticQueue.Iterator.SetValue_aquireObject q _ _))⟩

/-- Witness for C18: the position `begin()` of a queue of capacity 3 whose head is at slot 1;
retreating from index 0 wraps to `2 ^ 64 - 1`. -/
theorem C18_advancing_and_retreating_witness :
    (StaticQueue.mk ![4, 2, 3] 1 1 3 : StaticQueue Nat 3).first_ < 3
    ∧ (⟨0, 1, 0⟩ : StaticQueue.Iterator).desiredId_ < sizeMod
    ∧ (StaticQueue.Iterator.opInc (StaticQueue.mk ![4, 2, 3] 1 1 3 : StaticQueue Nat 3)
        ⟨0, 1, 0⟩).desiredId_ = 1
    ∧ (StaticQueue.Iterator.opDec (StaticQueue.mk ![4, 2, 3] 1 1 3 : StaticQueue Nat 3)
        ⟨0, 1, 0⟩).desiredId_ = 18446744073709551615
    ∧ StaticQueue.Iterator.opDec (StaticQueue.mk ![4, 2, 3] 1 1 3 : StaticQueue Nat 3)
        (StaticQueue.Iterator.opInc (StaticQueue.mk ![4, 2, 3] 1 1 3 : StaticQueue Nat 3)
          ⟨0, 1, 0⟩) = ⟨0, 1, 0⟩
    ∧ StaticQueue.Iterator.opInc (StaticQueue.mk ![4, 2, 3] 1 1 3 : StaticQueue Nat 3)
        (StaticQueue.Iterator.opDec (StaticQueue.mk ![4, 2, 3] 1 1 3 : StaticQueue Nat 3)
          ⟨0, 1, 0⟩) = ⟨0, 1, 0⟩ :=
  have h := C18_advancing_and_retreating (StaticQueue.mk ![4, 2, 3] 1 1 3 : StaticQueue Nat 3)
    ⟨0, 1, 0⟩ (by decide) (by decide)
  ⟨by decide, by decide, by decide, by decide,
    (h.2.2.2.2.2.2.2.2.2.2.2.2.2.2.2.2 (by decide)).1,
    (h.2.2.2.2.2.2.2.2.2.2.2.2.2.2.2.2 (by decide)).2⟩

/-- C19. For every capacity `SIZE ≥ 1`, every state reachable from the
constructor by `Push` and `Pop` calls satisfies
`last_ = (first_ + count_) % SIZE`; consequently `first_ = last_` holds exactly
when the queue is empty or full. -/
theorem C19_tail_is_head_plus_count (m : MovedFrom T) (hS : 1 ≤ SIZE)
    (q : StaticQueue T SIZE) (hreach : q.Reachable m) :
    q.last_ = (q.first_ + q.count_) % SIZE
    ∧ (q.first_ = q.last_ ↔ (q.Empty = true ∨ q.Filled = true)) := by
  obtain ⟨hc, hf, hl⟩ := hreach.inv hS
  refine ⟨hl, ?_⟩
  have hfirst : (q.first_ + 0) % SIZE = q.first_ := by
    rw [Nat.add_zero, Nat.mod_eq_of_lt hf]
  constructor
  · intro heq
    by_cases h0 : q.count_ = 0
    · exact Or.inl (by simp [StaticQueue.Empty, h0])
    · by_cases hN : q.count_ = SIZE
      · exact Or.inr (by simp [StaticQueue.Filled, hN])
      · exfalso
        have hne : (q.first_ + 0) % SIZE ≠ (q.first_ + q.count_) % SIZE :=
          add_mod_ne_of_lt (by omega) (by omega)
        rw [hfirst, ← hl] at hne
        exact hne heq
  · intro h
    rcases h with h | h
    · have h0 : q.count_ = 0 := by simpa [StaticQueue.Empty] using h
      rw [hl, h0, hfirst]
    · have hN : q.count_ = SIZE := by simpa [StaticQueue.Filled] using h
      rw [hl, hN, Nat.add_mod_right, Nat.mod_eq_of_lt hf]

/-- Witness for C19: the full queue of capacity 3 reached by `Push(1)`,
`Push(2)`, `Push(3)`, `Pop()`, `Push(4)`, whose head and tail are both 1. -/
theorem C19_tail_is_head_plus_count_witness :
    1 ≤ 3
    ∧ (StaticQueue.mk ![4, 2, 3] 1 1 3 : StaticQueue Nat 3).Reachable (MovedFrom.copy Nat)
    ∧ (StaticQueue.mk ![4, 2, 3] 1 1 3 : StaticQueue Nat 3).last_ = (1 + 3) % 3
    ∧ ((StaticQueue.mk ![4, 2, 3] 1 1 3 : StaticQueue Nat 3).first_
          = (StaticQueue.mk ![4, 2, 3] 1 1 3 : StaticQueue Nat 3).last_
        ↔ ((StaticQueue.mk ![4, 2, 3] 1 1 3 : StaticQueue Nat 3).Empty = true
          ∨ (StaticQueue.mk ![4, 2, 3] 1 1 3 : StaticQueue Nat 3).Filled = true)) :=
  ⟨by decide, StaticQueue.reachable_wrapped,
    C19_tail_is_head_plus_count (MovedFrom.copy Nat) (by decide)
      (StaticQueue.mk ![4, 2, 3] 1 1 3) StaticQueue.reachable_wrapped⟩

/-- C20. `StaticQueue<T, SIZE>` (`SIZE ≥ 1`) refines the capacity-bounded list
queue under the abstraction `contents`, the slots `(first_ + i) % SIZE` for
`i < count_`.  For every reachable state: `Push(v)`, in either overload,
returns `true` and leaves the contents with `v` appended when the contents are
shorter than `SIZE`, and otherwise returns `false` and leaves the state; `Pop`,
in either overload, returns the head of the contents and leaves their tail
when they are not empty, and otherwise reports empty (`false` with `value`
untouched, a null pointer) and leaves the state.  Hence every sequence of
calls from the constructor returns what the list queue returns, and the values
it hands out are, in order, the values it accepted: those delivered followed
by those still held are those accepted. -/
theorem C20_refines_list_queue (m : MovedFrom T) (hS : 1 ≤ SIZE) :
    (∀ (q : StaticQueue T SIZE) (v value : T), q.Reachable m →
      (∃ q1, q.Push v = some ((ListQueue.push SIZE (q.contents hS) v).1, q1)
          ∧ q1.contents hS = (ListQueue.push SIZE (q.contents hS) v).2
          ∧ (¬ (q.contents hS).length < SIZE → q1 = q))
      ∧ (∃ q1, q.PushMove v = some ((ListQueue.push SIZE (q.contents hS) v).1, q1)
          ∧ q1.contents hS = (ListQueue.push SIZE (q.contents hS) v).2
          ∧ (¬ (q.contents hS).length < SIZE → q1 = q))
      ∧ (∃ q1, q.Pop m value
            = some ((ListQueue.pop (q.contents hS)).1.isSome,
                (ListQueue.pop (q.contents hS)).1.getD value, q1)
          ∧ q1.contents hS = (ListQueue.pop (q.contents hS)).2
          ∧ (q.contents hS = [] → q1 = q))
      ∧ (∃ q1, q.PopPtr m = some ((ListQueue.pop (q.contents hS)).1, q1)
          ∧ q1.contents hS = (ListQueue.pop (q.contents hS)).2
          ∧ (q.contents hS = [] → q1 = q)))
    ∧ (∀ (arr : Fin SIZE → T) (cs : List (Call T)),
      ∃ q : StaticQueue T SIZE,
        StaticQueue.calls m (StaticQueue.construct arr) cs
          = some ((ListQueue.calls SIZE [] cs).1, q)
        ∧ q.contents hS = (ListQueue.calls SIZE [] cs).2
        ∧ acceptedValues cs (ListQueue.calls SIZE [] cs).1
          = deliveredValues (ListQueue.calls SIZE [] cs).1 ++ q.contents hS) := by
  refine ⟨?_, ?_⟩
  · intro q v value hreach
    have hq := hreach.inv hS
    have hl := hq.last_lt hS
    have hf := hq.2.1
    have hlen := StaticQueue.contents_length hS q
    have hpush : ∃ q1, q.Push v = some ((ListQueue.push SIZE (q.contents hS) v).1, q1)
        ∧ q1.contents hS = (ListQueue.push SIZE (q.contents hS) v).2
        ∧ (¬ (q.contents hS).length < SIZE → q1 = q) := by
      by_cases hc : q.count_ < SIZE
      · refine ⟨q.pushed hl v, ?_, ?_, ?_⟩
        · simp [ListQueue.push, hlen, hc, StaticQueue.Push_eq_of_lt hc hl]
        · simp [ListQueue.push, hlen, hc, StaticQueue.pushed_contents hS hq hc hl v]
        · intro hn
          rw [hlen] at hn
          exact absurd hc hn
      · refine ⟨q, ?_, ?_, fun _ => rfl⟩
        · simp [ListQueue.push, hlen, hc, StaticQueue.Push_eq_of_full hc]
        · simp [ListQueue.push, hlen, hc]
    refine ⟨hpush, hpush, ?_, ?_⟩
    · by_cases hc : q.count_ = 0
      · have hnil : q.contents hS = [] := List.length_eq_zero.1 (hlen.trans hc)
        refine ⟨q, ?_, ?_, fun _ => rfl⟩
        · simp [ListQueue.pop, hnil, StaticQueue.Pop_eq_of_zero m hc]
        · simp [ListQueue.pop, hnil]
      · have hcons := StaticQueue.popped_contents hS hq hc hf m.assigned
        refine ⟨q.popped hf m.assigned, ?_, ?_, ?_⟩
        · simp [ListQueue.pop, hcons, StaticQueue.Pop_eq_of_ne m hc hf]
        · simp [ListQueue.pop, hcons]
        · intro hn
          rw [hcons] at hn
          cases hn
    · by_cases hc : q.count_ = 0
      · have hnil : q.contents hS = [] := List.length_eq_zero.1 (hlen.trans hc)
        refine ⟨q, ?_, ?_, fun _ => rfl⟩
        · simp [ListQueue.pop, hnil, StaticQueue.PopPtr_eq_of_zero m hc]
        · simp [ListQueue.pop, hnil]
      · have hcons := StaticQueue.popped_contents hS hq hc hf m.constructed
        refine ⟨q.popped hf m.constructed, ?_, ?_, ?_⟩
        · simp [ListQueue.pop, hcons, StaticQueue.PopPtr_eq_of_ne m hc hf]
        · simp [ListQueue.pop, hcons]
        · intro hn
          rw [hcons] at hn
          cases hn
  · intro arr cs
    obtain ⟨q, hrun, _, hcont⟩ :=
      StaticQueue.calls_refines hS m cs (StaticQueue.construct_inv hS arr)
    rw [StaticQueue.construct_contents hS arr] at hrun hcont
    refine ⟨q, hrun, hcont, ?_⟩
    have := ListQueue.calls_fifo SIZE cs ([] : List T)
    rw [List.nil_append] at this
    rw [hcont]
    exact this

/-- Witness for C20: the full, wrapped queue of capacity 3 whose contents are
2, 3, 4. -/
theorem C20_refines_list_queue_witness :
    1 ≤ 3
    ∧ (StaticQueue.mk ![4, 2, 3] 1 1 3 : StaticQueue Nat 3).Reachable (MovedFrom.copy Nat)
    ∧ (StaticQueue.mk ![4, 2, 3] 1 1 3 : StaticQueue Nat 3).contents (by decide) = [2, 3, 4]
    ∧ (∃ q1, (StaticQueue.mk ![4, 2, 3] 1 1 3 : StaticQueue Nat 3).PopPtr (MovedFrom.copy Nat)
          = some ((ListQueue.pop
              ((StaticQueue.mk ![4, 2, 3] 1 1 3 : StaticQueue Nat 3).contents (by decide))).1, q1)
        ∧ q1.contents (by decide)
          = (ListQueue.pop
              ((StaticQueue.mk ![4, 2, 3] 1 1 3 : StaticQueue Nat 3).contents (by decide))).2
        ∧ ((StaticQueue.mk ![4, 2, 3] 1 1 3 : StaticQueue Nat 3).contents (by decide) = []
            → q1 = StaticQueue.mk ![4, 2, 3] 1 1 3)) :=
  ⟨by decide, StaticQueue.reachable_wrapped, by decide,
    ((C20_refines_list_queue (MovedFrom.copy Nat) (by decide)).1
      (StaticQueue.mk ![4, 2, 3] 1 1 3) 9 7 StaticQueue.reachable_wrapped).2.2.2⟩

end Claims

end BlackBox
